import Mathlib

/-!
Verification development for the snapd assertion codec
(`src/asserts/asserts.go`), embedded shallowly: byte sequences are
`List Nat` (each element a byte value), Go `map[string]string` header maps
are association lists with unique keys, and the streaming decoder's
buffered reads are modelled as pure functions on the remaining stream.
Helpers that live in the repository but outside the provided sources
(`checkInteger`, `checkNotEmpty`, `checkPrimaryKey`, `checkAssertType`,
`signContent`, the per-type assemblers) are modelled from the spec and
marked as such in their doc comments.
-/

namespace Asserts

/-- Byte sequences: each element is one byte value (0..255 for real data;
the definitions below are total on all of `List Nat`). -/
abbrev Bytes := List Nat

/-- Encode an ASCII string literal as bytes (used only for ASCII literals,
where the UTF-8 encoding is the list of code points). -/
def strB (s : String) : Bytes := s.data.map Char.toNat

/-- The byte string "\n" (`nl` in the source). -/
def nl : Bytes := [10]

/-- The byte string "\n\n" (`nlnl` in the source). -/
def nlnl : Bytes := [10, 10]

/-- Does the value contain a newline byte?  Models
`strings.IndexRune(value, 10) != -1`. -/
def hasNl : Bytes → Bool
  | [] => false
  | b :: r => b == 10 || hasNl r

/-- Models `strings.Replace(value, "\n", "\n ", -1)`: every newline byte is
followed by one space byte. -/
def replaceNl : Bytes → Bytes
  | [] => []
  | b :: r => if b == 10 then 10 :: 32 :: replaceNl r else b :: replaceNl r

/-- Models `strings.Split(string(head), "\n")` at the byte level: split on
byte 10; always returns at least one (possibly empty) piece. -/
def splitSep : Bytes → List Bytes
  | [] => [[]]
  | b :: r =>
    if b == 10 then [] :: splitSep r
    else
      match splitSep r with
      | l :: ls => (b :: l) :: ls
      | [] => [[b]]

/-- Boolean prefix test on byte lists. -/
def prefixB : Bytes → Bytes → Bool
  | [], _ => true
  | _ :: _, [] => false
  | a :: as, b :: bs => a == b && prefixB as bs

/-- Boolean suffix test on byte lists (models `bytes.HasSuffix`). -/
def suffixB (pat s : Bytes) : Bool := prefixB pat.reverse s.reverse

/-- Index of the first occurrence of a pattern (models `bytes.Index`). -/
def bIndex (pat : Bytes) : Bytes → Option Nat
  | [] => if pat.isEmpty then some 0 else none
  | b :: rest =>
    if prefixB pat (b :: rest) then some 0 else (bIndex pat rest).map (· + 1)

/-- Index of the last occurrence of a pattern (models `bytes.LastIndex`). -/
def bLastIndex (pat : Bytes) : Bytes → Option Nat
  | [] => if pat.isEmpty then some 0 else none
  | b :: rest =>
    match bLastIndex pat rest with
    | some i => some (i + 1)
    | none => if prefixB pat (b :: rest) then some 0 else none

/-- Does `pat` occur contiguously inside `s`? -/
def hasSubB (pat s : Bytes) : Bool := (bIndex pat s).isSome

/-- Index of the first occurrence of a single byte (models
`strings.Index(entry, ":")` for one-byte needles). -/
def idxByte : Bytes → Nat → Option Nat
  | [], _ => none
  | b :: r, c => if b == c then some 0 else (idxByte r c).map (· + 1)

/-- Is the byte a UTF-8 continuation byte (0x80..0xBF)? -/
def isCont (b : Nat) : Bool := 128 ≤ b && b ≤ 191

/-- The second-byte condition for three-byte UTF-8 characters: 0xE0 and
0xED restrict it (no overlongs, no surrogates), the rest take any
continuation byte. -/
def cont3OK (b c1 : Nat) : Bool :=
  if b == 224 then 160 ≤ c1 && c1 ≤ 191
  else if b == 237 then 128 ≤ c1 && c1 ≤ 159
  else isCont c1

/-- The second-byte condition for four-byte UTF-8 characters: 0xF0 and
0xF4 restrict it (no overlongs, max U+10FFFF), the rest take any
continuation byte. -/
def cont4OK (b c1 : Nat) : Bool :=
  if b == 240 then 144 ≤ c1 && c1 ≤ 191
  else if b == 244 then 128 ≤ c1 && c1 ≤ 143
  else isCont c1

/-- Length of the first well-formed UTF-8 character at the head of the
byte string, or `none`: one byte up to 0x7F; 0xC2..0xDF plus one
continuation; 0xE0..0xEF plus two; 0xF0..0xF4 plus three (RFC 3629
as enforced by Go's `utf8.Valid`). -/
def utf8ChunkLen : Bytes → Option Nat
  | [] => none
  | b :: rest =>
    if b ≤ 127 then some 1
    else if b ≤ 193 then none
    else if b ≤ 223 then
      match rest with
      | c1 :: _ => if isCont c1 then some 2 else none
      | [] => none
    else if b ≤ 239 then
      match rest with
      | c1 :: c2 :: _ => if cont3OK b c1 && isCont c2 then some 3 else none
      | _ => none
    else if b ≤ 244 then
      match rest with
      | c1 :: c2 :: c3 :: _ =>
        if cont4OK b c1 && isCont c2 && isCont c3 then some 4 else none
      | _ => none
    else none

/-- Strip well-formed UTF-8 characters while any remain; the fuel is an
upper bound on the number of characters (each consumes at least one
byte). -/
def utf8ValidAux : Nat → Bytes → Bool
  | _, [] => true
  | 0, _ :: _ => false
  | fuel + 1, b :: rest =>
    match utf8ChunkLen (b :: rest) with
    | none => false
    | some k => utf8ValidAux fuel ((b :: rest).drop k)

/-- Models `utf8.Valid` from Go's `unicode/utf8`. -/
def utf8Valid (s : Bytes) : Bool := utf8ValidAux s.length s

/-- Is the byte a lowercase ASCII letter? -/
def isLowerByte (b : Nat) : Bool := 97 ≤ b && b ≤ 122

/-- Is the byte an ASCII digit? -/
def isDigitByte (b : Nat) : Bool := 48 ≤ b && b ≤ 57

/-- Tail of the header-name regex `[a-z0-9-]*[a-z0-9]$`: at least one more
character, last one alphanumeric, the rest alphanumeric or a dash. -/
def nameTailOK : Bytes → Bool
  | [] => false
  | [b] => isLowerByte b || isDigitByte b
  | b :: rest => (isLowerByte b || isDigitByte b || b == 45) && nameTailOK rest

/-- Models the `headerNameSanity` regexp `^[a-z][a-z0-9-]*[a-z0-9]$`. -/
def headerNameOK : Bytes → Bool
  | [] => false
  | b :: rest => isLowerByte b && nameTailOK rest

/-- Lexicographic (bytewise) order on byte strings, as used by
`sort.Strings`. -/
def bytesLe : Bytes → Bytes → Bool
  | [], _ => true
  | _ :: _, [] => false
  | a :: as, b :: bs => if a < b then true else if b < a then false else bytesLe as bs

/-- Strict version of `bytesLe`. -/
def bytesLt (a b : Bytes) : Bool := bytesLe a b && !(a == b)

/-- Insert into a `bytesLe`-sorted list. -/
def sortInsert (x : Bytes) : List Bytes → List Bytes
  | [] => [x]
  | y :: ys => if bytesLe x y then x :: y :: ys else y :: sortInsert x ys

/-- Insertion sort by `bytesLe`; models the observable result of
`sort.Strings` (the input key multisets here have no duplicates). -/
def sortBytes : List Bytes → List Bytes
  | [] => []
  | x :: xs => sortInsert x (sortBytes xs)

/-- Concatenate with a separator between consecutive pieces. -/
def intercalateB (sep : Bytes) : List Bytes → Bytes
  | [] => []
  | [l] => l
  | l :: ls => l ++ sep ++ intercalateB sep ls

/-! ## Header maps

Go `map[string]string` values are modelled as association lists with unique
keys; `hput` overwrites in place, `hdel` removes, `hfind?` looks up. -/

/-- Header maps. -/
abbrev Headers := List (Bytes × Bytes)

/-- Map lookup (Go `v, ok := m[k]`). -/
def hfind? : Headers → Bytes → Option Bytes
  | [], _ => none
  | (k, v) :: r, n => if k = n then some v else hfind? r n

/-- Map access with the zero value for missing keys (Go `m[k]`). -/
def hget (h : Headers) (n : Bytes) : Bytes := (hfind? h n).getD []

/-- Map update (Go `m[k] = v`). -/
def hput : Headers → Bytes → Bytes → Headers
  | [], n, v => [(n, v)]
  | (k, w) :: r, n, v => if k = n then (n, v) :: r else (k, w) :: hput r n v

/-- Map deletion (Go `delete(m, k)`). -/
def hdel : Headers → Bytes → Headers
  | [], _ => []
  | (k, w) :: r, n => if k = n then hdel r n else (k, w) :: hdel r n

/-- The key set of a map, in representation order. -/
def hkeys (h : Headers) : List Bytes := h.map Prod.fst

/-! ## Error taxonomy

One inductive collecting every error the embedded functions can report. -/

inductive Err where
  | notUtf8
  | missingColon
  | badName
  | emptyMultiline
  | missingSpace
  | noSeparator
  | notInteger
  | bodyLengthMismatch
  | missingHeader
  | emptyHeader
  | unknownType
  | primaryKeyMissing
  | primaryKeySlash
  | negativeRevision
  | emptySignature
  | unknownAssertType
  | signingFailed
  | maxSizeExceeded
  | unexpectedEOF
  | endOfStream
  | bodyTooBig
  | missingSeparator
  | emptyEncoded
  | outOfFuel
deriving DecidableEq

/-! ## Helpers that live in the repository outside src/ -/

/-- Parse a nonempty all-digit byte string in base 10. -/
def parseDecAux : Nat → Bytes → Option Nat
  | acc, [] => some acc
  | acc, b :: r => if isDigitByte b then parseDecAux (acc * 10 + (b - 48)) r else none

/-- Modelled from the spec: the integer headers "parse as a base-10
integer"; matches Go `strconv.Atoi` on in-range inputs: an optional sign
followed by at least one decimal digit (overflow behaviour is out of
scope, the recognised headers are small). -/
def parseIntB : Bytes → Option Int
  | [] => none
  | b :: ds =>
    if b = 43 then (if ds.isEmpty then none else (parseDecAux 0 ds).map Int.ofNat)
    else if b = 45 then
      (if ds.isEmpty then none else (parseDecAux 0 ds).map (fun n => -(n : Int)))
    else (parseDecAux 0 (b :: ds)).map Int.ofNat

/-- Header-name constant "type". -/
def typeStr : Bytes := strB "type"

/-- Header-name constant "authority-id". -/
def authStr : Bytes := strB "authority-id"

/-- Header-name constant "revision". -/
def revStr : Bytes := strB "revision"

/-- Header-name constant "body-length". -/
def blStr : Bytes := strB "body-length"

/-- Modelled from the spec (the helper `checkInteger` is not under src/):
an integer header "if omitted ... assumed to be" the default, otherwise
parsed base 10. -/
def checkInteger (headers : Headers) (name : Bytes) (defl : Int) : Except Err Int :=
  match hfind? headers name with
  | none => .ok defl
  | some v =>
    match parseIntB v with
    | none => .error .notInteger
    | some n => .ok n

/-- Modelled from the spec (the helper `checkNotEmpty` is not under src/):
the header must be "present and non-empty"; returns the value. -/
def checkNotEmpty (headers : Headers) (name : Bytes) : Except Err Bytes :=
  match hfind? headers name with
  | none => .error .missingHeader
  | some v => if v = [] then .error .emptyHeader else .ok v

/-- Modelled from the spec (the helper `checkPrimaryKey` is not under
src/): "each primary-key header present, non-empty, contains no '/'"
(byte 47). -/
def checkPrimaryKey (headers : Headers) (name : Bytes) : Except Err Bytes :=
  match hfind? headers name with
  | none => .error .primaryKeyMissing
  | some v =>
    if v = [] then .error .primaryKeyMissing
    else if v.contains 47 then .error .primaryKeySlash
    else .ok v

/-! ## Data model -/

/-- `AssertionType`: name plus ordered primary-key header names (the
per-type `assembler` field is modelled separately, see `assembler`). -/
structure AssertionType where
  name : Bytes
  primaryKey : List Bytes
deriving DecidableEq

/-- The `account` type. -/
def AccountType : AssertionType := ⟨strB "account", [strB "account-id"]⟩

/-- The `account-key` type. -/
def AccountKeyType : AssertionType :=
  ⟨strB "account-key", [strB "account-id", strB "public-key-id"]⟩

/-- The `model` type. -/
def ModelType : AssertionType :=
  ⟨strB "model", [strB "series", strB "brand-id", strB "model"]⟩

/-- The `serial` type. -/
def SerialType : AssertionType :=
  ⟨strB "serial", [strB "brand-id", strB "model", strB "serial"]⟩

/-- The `snap-declaration` type. -/
def SnapDeclarationType : AssertionType :=
  ⟨strB "snap-declaration", [strB "series", strB "snap-id"]⟩

/-- The `snap-build` type. -/
def SnapBuildType : AssertionType :=
  ⟨strB "snap-build", [strB "series", strB "snap-id", strB "snap-digest"]⟩

/-- The `snap-revision` type. -/
def SnapRevisionType : AssertionType :=
  ⟨strB "snap-revision", [strB "series", strB "snap-id", strB "snap-digest"]⟩

/-- The read-only type registry. -/
def typeRegistry : List AssertionType :=
  [AccountType, AccountKeyType, ModelType, SerialType,
   SnapDeclarationType, SnapBuildType, SnapRevisionType]

/-- Models `Type(name)`: resolve a type name in the registry (`Type` is a
reserved word in Lean, hence the name). -/
def TypeOf (name : Bytes) : Option AssertionType :=
  typeRegistry.find? (fun t => t.name == name)

/-- `assertionBase`: representation data for assertions.  The per-type
variants only wrap this base, so the embedding identifies `Assertion`
with it. -/
structure AssertionBase where
  headers : Headers
  body : Bytes
  revision : Int
  content : Bytes
  signature : Bytes
deriving DecidableEq, Inhabited

/-- Assertions (the type-specific variants are out of scope per the spec;
every assembler wraps the same base). -/
abbrev Assertion := AssertionBase

/-- Modelled from the spec (the per-type assemblers are not under src/):
the assembler "upgrades a validated base record into a type-specific
variant"; with variants collapsed it succeeds with the base itself. -/
def assembler (_assertType : AssertionType) (ab : AssertionBase) : Except Err Assertion :=
  .ok ab

/-- Modelled from the spec (`checkAssertType` is not under src/): the
assertion type must be one registered in the type registry. -/
def checkAssertType (assertType : AssertionType) : Except Err Unit :=
  match TypeOf assertType.name with
  | some t => if t = assertType then .ok () else .error .unknownAssertType
  | none => .error .unknownAssertType

/-- Modelled from the spec: the signing contract
`SignContent(content, key) -> (signature, error)`; a key is just its
(opaque, possibly failing) signing function. -/
structure PrivateKey where
  sign : Bytes → Option Bytes

/-- Modelled from the spec: apply the signing contract. -/
def signContent (content : Bytes) (privKey : PrivateKey) : Option Bytes :=
  privKey.sign content

/-! ## Header parsing (`parseHeaders` in the source) -/

/-- The continuation-line test from the multiline scan: the loop continues
while the line is nonempty and starts with a space
(`len(iline) == 0 || iline[0] != ' '` breaks). -/
def contOK : Bytes → Bool
  | [] => false
  | b :: _ => b == 32

/-- Rebuild a multiline value from its continuation lines: the first
line's suffix after the leading space, then "\n" plus each further
suffix (`valueBuf` construction in the source). -/
def joinTails : List Bytes → Bytes
  | [] => []
  | l :: rest => l.drop 1 ++ (rest.map (fun x => 10 :: x.drop 1)).flatten

/-- The entry loop of `parseHeaders`, with explicit fuel (the Go loop
advances the line index by at least one per entry, so
`lines.length + 1` fuel always suffices). -/
def parseLines : Nat → List Bytes → Headers → Except Err Headers
  | 0, _, _ => .error .outOfFuel
  | _ + 1, [], acc => .ok acc
  | fuel + 1, entry :: rest, acc =>
    match idxByte entry 58 with
    | none => .error .missingColon
    | some i =>
      let name := entry.take i
      if headerNameOK name = false then .error .badName
      else if i + 1 = entry.length then
        let contLines := rest.takeWhile contOK
        if contLines.length = 0 then .error .emptyMultiline
        else parseLines fuel (rest.drop contLines.length) (hput acc name (joinTails contLines))
      else if (entry.drop (i + 1)).head? ≠ some 32 then .error .missingSpace
      else parseLines fuel rest (hput acc name (entry.drop (i + 2)))

/-- `parseHeaders`: reject non-UTF-8, split on newlines, parse entries. -/
def parseHeaders (head : Bytes) : Except Err Headers :=
  if utf8Valid head = false then .error .notUtf8
  else parseLines ((splitSep head).length + 1) (splitSep head) []

/-! ## Validation (`Assemble`, `checkRevision`) -/

/-- `checkRevision`: integer header `revision`, default 0, must be
non-negative. -/
def checkRevision (headers : Headers) : Except Err Int :=
  match checkInteger headers revStr 0 with
  | .error e => .error e
  | .ok revision => if revision < 0 then .error .negativeRevision else .ok revision

/-- The primary-key loop shared by `Assemble` and `assembleAndSign`. -/
def checkPrimaryKeys (primKeys : List Bytes) (headers : Headers) : Except Err Unit :=
  match primKeys with
  | [] => .ok ()
  | k :: rest =>
    match checkPrimaryKey headers k with
    | .error e => .error e
    | .ok _ => checkPrimaryKeys rest headers

/-- `Assemble`: assemble an assertion from its components, validating the
headers. -/
def Assemble (headers : Headers) (body content signature : Bytes) : Except Err Assertion :=
  match checkInteger headers blStr 0 with
  | .error e => .error e
  | .ok length =>
    if length ≠ (body.length : Int) then .error .bodyLengthMismatch
    else
      match checkNotEmpty headers authStr with
      | .error e => .error e
      | .ok _ =>
        match checkNotEmpty headers typeStr with
        | .error e => .error e
        | .ok typ =>
          match TypeOf typ with
          | none => .error .unknownType
          | some assertType =>
            match checkPrimaryKeys assertType.primaryKey headers with
            | .error e => .error e
            | .ok _ =>
              match checkRevision headers with
              | .error e => .error e
              | .ok revision =>
                if signature.isEmpty then .error .emptySignature
                else assembler assertType ⟨headers, body, revision, content, signature⟩

/-! ## Single-shot decoding (`Decode`) -/

/-- `Decode`: split at the last "\n\n" into content and signature, split
the content at the first "\n\n" into headers and body, parse, assemble. -/
def Decode (serializedAssertion : Bytes) : Except Err Assertion :=
  match bLastIndex nlnl serializedAssertion with
  | none => .error .noSeparator
  | some i =>
    let content := serializedAssertion.take i
    let signature := serializedAssertion.drop (i + 2)
    let hb : Bytes × Bytes :=
      match bIndex nlnl content with
      | none => (content, [])
      | some j => (content.take j, content.drop (j + 2))
    match parseHeaders hb.1 with
    | .error e => .error e
    | .ok headers => Assemble headers hb.2 content signature

/-! ## Canonical encoding (`writeHeader`, `assembleAndSign`, `Encode`) -/

/-- Decimal digits of a natural number (models `strconv.Itoa` on the
non-negative lengths it is applied to), with structural fuel. -/
def natToBytesAux : Nat → Nat → Bytes
  | 0, _ => []
  | fuel + 1, n =>
    if n < 10 then [48 + n] else natToBytesAux fuel (n / 10) ++ [48 + n % 10]

/-- Decimal digits of a natural number. -/
def natToBytes (n : Nat) : Bytes := natToBytesAux (n + 1) n

/-- `writeHeader`: "\n" then the name, then ": value" for single-line
values or ":\n " plus the 1-space-indented value for multiline ones. -/
def writeHeader (headers : Headers) (name : Bytes) : Bytes :=
  let value := hget headers name
  if hasNl value then nl ++ name ++ [58, 10, 32] ++ replaceNl value
  else nl ++ name ++ [58, 32] ++ value

/-- The four bookkeeping names marked as written before the primary-key
loop in `assembleAndSign`. -/
def bookkeeping : List Bytes := [typeStr, authStr, revStr, blStr]

/-- The header map after `assembleAndSign` forces `type` and
`body-length`. -/
def finalHeadersPre (assertType : AssertionType) (headers : Headers) (body : Bytes) : Headers :=
  hput (hput headers typeStr assertType.name) blStr (natToBytes body.length)

/-- The header map after the revision step: `revision` is deleted when
the revision is not positive. -/
def finalHeadersRev (fh : Headers) (revision : Int) : Headers :=
  if 0 < revision then fh else hdel fh revStr

/-- The non-bookkeeping, non-primary-key headers, sorted (the map
iteration plus `sort.Strings` in the source). -/
def otherKeysOf (assertType : AssertionType) (fh : Headers) : List Bytes :=
  sortBytes ((hkeys fh).filter
    (fun n => decide (¬ (n ∈ bookkeeping ∨ n ∈ assertType.primaryKey))))

/-- The header block that `assembleAndSign` writes into `buf`: `type`
first without a leading newline, then `authority-id`, `revision` when
positive, the primary keys in declared order, the remaining headers in
sorted order, and `body-length` when the body is nonempty. -/
def headBlockOf (assertType : AssertionType) (fh3 : Headers) (revision : Int)
    (bodyLength : Nat) : Bytes :=
  strB "type: " ++ assertType.name
  ++ writeHeader fh3 authStr
  ++ (if 0 < revision then writeHeader fh3 revStr else [])
  ++ (assertType.primaryKey.map (writeHeader fh3)).flatten
  ++ ((otherKeysOf assertType fh3).map (writeHeader fh3)).flatten
  ++ (if 0 < bodyLength then writeHeader fh3 blStr else [])

/-- The signed content: the header block, then "\n\n" and the body when
the body is nonempty. -/
def contentOf (assertType : AssertionType) (fh3 : Headers) (revision : Int)
    (body : Bytes) : Bytes :=
  headBlockOf assertType fh3 revision body.length
  ++ (if 0 < body.length then nlnl ++ body else [])

/-- `assembleAndSign`: validate, build the canonical content, sign it,
append the cat-friendly newline to the signature, and assemble. -/
def assembleAndSign (assertType : AssertionType) (headers : Headers) (body : Bytes)
    (privKey : PrivateKey) : Except Err Assertion :=
  match checkAssertType assertType with
  | .error e => .error e
  | .ok _ =>
    let bodyLength := body.length
    let fh2 := finalHeadersPre assertType headers body
    match checkNotEmpty fh2 authStr with
    | .error e => .error e
    | .ok _ =>
      match checkRevision fh2 with
      | .error e => .error e
      | .ok revision =>
        let fh3 := finalHeadersRev fh2 revision
        match checkPrimaryKeys assertType.primaryKey fh3 with
        | .error e => .error e
        | .ok _ =>
          let content := contentOf assertType fh3 revision body
          let fh4 := if 0 < bodyLength then fh3 else hdel fh3 blStr
          match signContent content privKey with
          | none => .error .signingFailed
          | some sig =>
            assembler assertType
              ⟨fh4, (if 0 < bodyLength then body else []), revision, content, sig ++ nl⟩

/-- `Encode`: the signed content, "\n\n", then the signature. -/
def Encode (assert : Assertion) : Bytes :=
  assert.content ++ nlnl ++ assert.signature

/-! ## Streaming encoder (`Encoder`) -/

/-- `Encoder.append` for one assertion: the pending separator, the encoded
bytes, and a "\n" when the encoded bytes do not already end in one;
returns the written bytes and the next separator. -/
def encAppend (nextSep : Bytes) (encoded : Bytes) : Except Err (Bytes × Bytes) :=
  if encoded.length = 0 then .error .emptyEncoded
  else .ok (nextSep ++ encoded ++ (if encoded.getLast? = some 10 then [] else nl), nl)

/-- The bytes an `Encoder` writes for a sequence of assertions, starting
from a given pending separator. -/
def encodeStreamAux : Bytes → List Assertion → Except Err Bytes
  | _, [] => .ok []
  | sep, a :: rest =>
    match encAppend sep (Encode a) with
    | .error e => .error e
    | .ok (out, sep2) =>
      match encodeStreamAux sep2 rest with
      | .error e => .error e
      | .ok outRest => .ok (out ++ outRest)

/-- The bytes a fresh `Encoder` writes for a sequence of assertions (no
separator before the first). -/
def encodeStream (as : List Assertion) : Except Err Bytes := encodeStreamAux [] as

/-! ## Streaming decoder (`Decoder`) -/

/-- Decoder configuration: initial buffer size and per-component caps. -/
structure DecCfg where
  initialBufSize : Nat
  maxHeadersSize : Nat
  maxBodySize : Nat
  maxSigSize : Nat

/-- `NewDecoder` defaults: 4096-byte initial buffer, 128 KiB headers,
2 MiB body, 128 KiB signature. -/
def NewDecoderCfg : DecCfg := ⟨4096, 131072, 2097152, 131072⟩

/-- Result of `readUntil` on a pure stream: the delimiter was found (chunk
includes the delimiter, rest is the remainder), the stream ended first
(the whole remainder was consumed and returned with `io.EOF`), or the
size cap was exceeded while searching.  `ranOut` is the fuel sentinel of
the loop below and is unreachable with the fuel `readUntil` supplies. -/
inductive ReadRes where
  | found (chunk rest : Bytes)
  | eofBuf (buf : Bytes)
  | maxEx
  | ranOut
deriving DecidableEq

/-- The doubling search loop of `readUntil`: peek `size` bytes, search for
the delimiter from position `last` on, return on a hit or at end of
stream, otherwise double `size` (failing once it would exceed the cap).
The peeked prefix and the end-of-stream flag model `bufio.Reader.Peek`
on a pure stream. -/
def readUntilLoop (s delim : Bytes) (maxSize : Nat) : Nat → Nat → Nat → ReadRes
  | _, _, 0 => .ranOut
  | last, size, fuel + 1 =>
    let buf := s.take size
    match bIndex delim (buf.drop last) with
    | some i => .found (buf.take (last + i + delim.length)) (s.drop (last + i + delim.length))
    | none =>
      if s.length < size then .eofBuf buf
      else if maxSize < size * 2 then .maxEx
      else readUntilLoop s delim maxSize (size - delim.length + 1) (size * 2) fuel

/-- `readUntil` on a pure stream; the loop doubles `size` at least once
per step, so `maxSize + 1` fuel is never exhausted before the cap check
fires. -/
def readUntil (s delim : Bytes) (maxSize initialBufSize : Nat) : ReadRes :=
  readUntilLoop s delim maxSize 0 initialBufSize (maxSize + 1)

/-- `readExact` on a pure stream: exactly `size` bytes or
`io.ErrUnexpectedEOF`; the short read is discarded either way. -/
def readExact (s : Bytes) (size : Nat) : Except Err Bytes × Bytes :=
  if (s.take size).length = size then (.ok (s.take size), s.drop size)
  else (.error .unexpectedEOF, s.drop size)

/-- The tail of `Decoder.Decode` after the signature bytes are known:
normalize a trailing "\n\n" to "\n", recover the body from the content
buffer, and assemble. -/
def streamFinish (headLen : Nat) (headers : Headers) (length : Int)
    (contentBuf sig rest : Bytes) : Except Err Assertion × Bytes :=
  let sig2 := if suffixB nlnl sig then sig.dropLast else sig
  let finalBody := if 0 < length then contentBuf.drop (headLen + 2) else []
  (Assemble headers finalBody contentBuf sig2, rest)

/-- The trailer phase of `Decoder.Decode`: read up to the next "\n\n"; if
that is exactly the content/signature separator, read the signature
after it; otherwise the bytes read are the signature itself, which is
accepted only when the declared body length is zero (the content buffer
is then truncated back to the bare header block). -/
def streamTrailer (cfg : DecCfg) (headLen : Nat) (headers : Headers) (length : Int)
    (contentBuf s : Bytes) : Except Err Assertion × Bytes :=
  match readUntil s nlnl cfg.maxSigSize cfg.initialBufSize with
  | .ranOut => (.error .outOfFuel, s)
  | .maxEx => (.error .maxSizeExceeded, s)
  | .found endOfBody rest =>
    if endOfBody = nlnl then
      match readUntil rest nlnl cfg.maxSigSize cfg.initialBufSize with
      | .ranOut => (.error .outOfFuel, rest)
      | .maxEx => (.error .maxSizeExceeded, rest)
      | .found sig rest2 => streamFinish headLen headers length contentBuf sig rest2
      | .eofBuf sig => streamFinish headLen headers length contentBuf sig []
    else if 0 < length then (.error .missingSeparator, rest)
    else streamFinish headLen headers length (contentBuf.take headLen) endOfBody rest
  | .eofBuf endOfBody =>
    if endOfBody = nlnl then
      match readUntil [] nlnl cfg.maxSigSize cfg.initialBufSize with
      | .ranOut => (.error .outOfFuel, [])
      | .maxEx => (.error .maxSizeExceeded, [])
      | .found sig rest2 => streamFinish headLen headers length contentBuf sig rest2
      | .eofBuf sig => streamFinish headLen headers length contentBuf sig []
    else if 0 < length then (.error .missingSeparator, [])
    else streamFinish headLen headers length (contentBuf.take headLen) endOfBody []

/-- `Decoder.Decode` on a pure stream: returns the decode result and the
remaining stream.  Zero bytes at end of stream is the clean
`io.EOF`; a partial header block is `io.ErrUnexpectedEOF`; an
over-cap declared body length fails before the body is read. -/
def streamDecode (cfg : DecCfg) (s : Bytes) : Except Err Assertion × Bytes :=
  match readUntil s nlnl cfg.maxHeadersSize cfg.initialBufSize with
  | .ranOut => (.error .outOfFuel, s)
  | .maxEx => (.error .maxSizeExceeded, s)
  | .eofBuf buf =>
    if buf.length ≠ 0 then (.error .unexpectedEOF, []) else (.error .endOfStream, [])
  | .found headAndSep rest1 =>
    let headLen := headAndSep.length - 2
    match parseHeaders (headAndSep.take headLen) with
    | .error e => (.error e, rest1)
    | .ok headers =>
      match checkInteger headers blStr 0 with
      | .error e => (.error e, rest1)
      | .ok length =>
        if (cfg.maxBodySize : Int) < length then (.error .bodyTooBig, rest1)
        else if 0 < length then
          match readExact rest1 length.toNat with
          | (.error e, rest2) => (.error e, rest2)
          | (.ok body, rest2) =>
            streamTrailer cfg headLen headers length (headAndSep ++ body) rest2
        else streamTrailer cfg headLen headers length headAndSep rest1

/-! ## Basic lemmas: prefixes, occurrences, first and last index -/

theorem prefixB_iff : ∀ (p s : Bytes), prefixB p s = true ↔ ∃ t, s = p ++ t
  | [], s => by simp [prefixB]
  | _ :: _, [] => by simp [prefixB]
  | a :: as, b :: bs => by
    simp only [prefixB, Bool.and_eq_true, beq_iff_eq, prefixB_iff as bs]
    constructor
    · rintro ⟨rfl, t, rfl⟩; exact ⟨t, rfl⟩
    · rintro ⟨t, h⟩
      injection h with h1 h2
      subst h1
      exact ⟨rfl, t, h2⟩

/-- `pat` occurs in `s` starting at position `i`. -/
def occursAt (s pat : Bytes) (i : Nat) : Prop := ∃ t, s.drop i = pat ++ t

theorem bIndex_none (pat : Bytes) :
    ∀ (s : Bytes), bIndex pat s = none → ∀ i, ¬ occursAt s pat i := by
  intro s
  induction s with
  | nil =>
    intro h i hocc
    obtain ⟨t, ht⟩ := hocc
    simp [bIndex] at h
    simp [List.drop_nil] at ht
    exact h (by simpa [List.isEmpty_iff] using ht.1)
  | cons b bs ih =>
    intro h i hocc
    simp only [bIndex] at h
    by_cases hp : prefixB pat (b :: bs) = true
    · simp [hp] at h
    · simp [hp, Option.map_eq_none] at h
      match i, hocc with
      | 0, ⟨t, ht⟩ => exact hp ((prefixB_iff _ _).2 ⟨t, by simpa using ht⟩)
      | i + 1, ⟨t, ht⟩ => exact ih h i ⟨t, by simpa using ht⟩

theorem bIndex_some (pat : Bytes) :
    ∀ (s : Bytes) (i : Nat), bIndex pat s = some i →
      occursAt s pat i ∧ ∀ j < i, ¬ occursAt s pat j := by
  intro s
  induction s with
  | nil =>
    intro i h
    simp only [bIndex] at h
    by_cases he : pat.isEmpty
    · rw [if_pos he] at h
      injection h with h'
      subst h'
      simp [List.isEmpty_iff] at he
      exact ⟨⟨[], by simp [he]⟩, fun j hj => absurd hj (by omega)⟩
    · rw [if_neg he] at h
      exact absurd h (by simp)
  | cons b bs ih =>
    intro i h
    simp only [bIndex] at h
    by_cases hp : prefixB pat (b :: bs) = true
    · simp [hp] at h
      cases h
      obtain ⟨t, ht⟩ := (prefixB_iff _ _).1 hp
      exact ⟨⟨t, by simpa using ht⟩, fun j hj => absurd hj (by omega)⟩
    · simp only [hp, if_neg (by simp [hp] : ¬ prefixB pat (b :: bs) = true)] at h
      match hh : bIndex pat bs with
      | none => simp [hh] at h
      | some i' =>
        simp [hh] at h
        obtain ⟨hocc, hmin⟩ := ih i' hh
        obtain ⟨t, ht⟩ := hocc
        refine h ▸ ⟨⟨t, by simpa using ht⟩, ?_⟩
        intro j hj hoccj
        match j, hoccj with
        | 0, ⟨u, hu⟩ => exact hp ((prefixB_iff _ _).2 ⟨u, by simpa using hu⟩)
        | j + 1, ⟨u, hu⟩ => exact hmin j (by omega) ⟨u, by simpa using hu⟩

theorem bIndex_first (pat s : Bytes) (i : Nat)
    (hocc : occursAt s pat i) (hmin : ∀ j < i, ¬ occursAt s pat j) :
    bIndex pat s = some i := by
  match h : bIndex pat s with
  | none => exact absurd hocc (bIndex_none pat s h i)
  | some i' =>
    obtain ⟨hocc', hmin'⟩ := bIndex_some pat s i' h
    have h1 : ¬ i' < i := fun hlt => hmin i' hlt hocc'
    have h2 : ¬ i < i' := fun hlt => hmin' i hlt hocc
    have : i = i' := by omega
    simp [this]

theorem bLastIndex_some (pat : Bytes) :
    ∀ (s : Bytes) (i : Nat), bLastIndex pat s = some i → occursAt s pat i := by
  intro s
  induction s with
  | nil =>
    intro i h
    simp only [bLastIndex] at h
    by_cases he : pat.isEmpty
    · simp [he] at h
      cases h
      simp [List.isEmpty_iff] at he
      exact ⟨[], by simp [he]⟩
    · simp [he] at h
  | cons b bs ih =>
    intro i h
    simp only [bLastIndex] at h
    match hh : bLastIndex pat bs with
    | some i' =>
      simp [hh] at h
      obtain ⟨t, ht⟩ := ih i' hh
      exact h ▸ ⟨t, by simpa using ht⟩
    | none =>
      simp only [hh] at h
      by_cases hp : prefixB pat (b :: bs) = true
      · simp [hp] at h
        cases h
        obtain ⟨t, ht⟩ := (prefixB_iff _ _).1 hp
        exact ⟨t, by simpa using ht⟩
      · simp [hp] at h

theorem bLastIndex_last (pat : Bytes) :
    ∀ (s : Bytes) (i : Nat), occursAt s pat i → (∀ j, occursAt s pat j → j ≤ i) →
      bLastIndex pat s = some i := by
  intro s
  induction s with
  | nil =>
    intro i hocc hmax
    obtain ⟨t, ht⟩ := hocc
    simp [List.drop_nil] at ht
    have hpe : pat = [] := ht.1
    have hup : occursAt ([] : Bytes) pat (i + 1) := ⟨[], by simp [hpe]⟩
    have := hmax (i + 1) hup
    omega
  | cons b bs ih =>
    intro i hocc hmax
    simp only [bLastIndex]
    match i, hocc with
    | 0, ⟨t, ht⟩ =>
      have hnone : bLastIndex pat bs = none := by
        match hh : bLastIndex pat bs with
        | none => rfl
        | some k =>
          obtain ⟨u, hu⟩ := bLastIndex_some pat bs k hh
          have : occursAt (b :: bs) pat (k + 1) := ⟨u, by simpa using hu⟩
          have := hmax (k + 1) this
          omega
      have hp : prefixB pat (b :: bs) = true :=
        (prefixB_iff _ _).2 ⟨t, by simpa using ht⟩
      simp [hnone, hp]
    | i + 1, ⟨t, ht⟩ =>
      have hocc' : occursAt bs pat i := ⟨t, by simpa using ht⟩
      have hmax' : ∀ j, occursAt bs pat j → j ≤ i := by
        intro j hj
        obtain ⟨u, hu⟩ := hj
        have : occursAt (b :: bs) pat (j + 1) := ⟨u, by simpa using hu⟩
        have := hmax (j + 1) this
        omega
      simp [ih i hocc' hmax']

theorem hasSubB_false (pat s : Bytes) (h : hasSubB pat s = false) :
    ∀ i, ¬ occursAt s pat i := by
  intro i
  match hb : bIndex pat s with
  | none => exact bIndex_none pat s hb i
  | some k => simp [hasSubB, hb] at h

/-! ## Lemmas about newline splitting and joining -/

theorem splitSep_ne_nil : ∀ (s : Bytes), splitSep s ≠ []
  | [] => by simp [splitSep]
  | b :: r => by
    simp only [splitSep]
    by_cases hb : b == 10
    · simp [hb]
    · simp only [hb]
      match h : splitSep r with
      | l :: ls => simp
      | [] => simp

theorem splitSep_head : ∀ (s : Bytes), ∃ l ls, splitSep s = l :: ls := by
  intro s
  match h : splitSep s with
  | l :: ls => exact ⟨l, ls, rfl⟩
  | [] => exact absurd h (splitSep_ne_nil s)

theorem splitSep_cons_nl (r : Bytes) : splitSep (10 :: r) = [] :: splitSep r := by
  simp [splitSep]

theorem splitSep_cons_other (b : Nat) (r : Bytes) (hb : b ≠ 10) (l : Bytes)
    (ls : List Bytes) (h : splitSep r = l :: ls) :
    splitSep (b :: r) = (b :: l) :: ls := by
  have hb' : (b == 10) = false := by simp [hb]
  simp only [splitSep, hb', Bool.false_eq_true, if_false, h]

theorem splitSep_append (x y : Bytes) :
    splitSep (x ++ 10 :: y) = splitSep x ++ splitSep y := by
  induction x with
  | nil => simp [splitSep]
  | cons b bs ih =>
    by_cases hb : b = 10
    · subst hb
      rw [List.cons_append, splitSep_cons_nl, splitSep_cons_nl, ih, List.cons_append]
    · obtain ⟨l, ls, h⟩ := splitSep_head bs
      have h2 : splitSep (bs ++ 10 :: y) = l :: (ls ++ splitSep y) := by
        rw [ih, h]
        rfl
      rw [List.cons_append, splitSep_cons_other b _ hb _ _ h2,
        splitSep_cons_other b _ hb _ _ h, List.cons_append]

theorem splitSep_no_nl (x : Bytes) (h : ∀ b ∈ x, b ≠ 10) : splitSep x = [x] := by
  induction x with
  | nil => simp [splitSep]
  | cons b bs ih =>
    have ihs : splitSep bs = [bs] := ih (fun c hc => h c (by simp [hc]))
    exact splitSep_cons_other b bs (h b (by simp)) bs [] ihs

theorem intercalateB_cons_flatten :
    ∀ (l : Bytes) (ls : List Bytes),
      intercalateB [10] (l :: ls) = l ++ (ls.map (fun x => 10 :: x)).flatten
  | l, [] => by simp [intercalateB]
  | l, l' :: ls => by
    simp only [intercalateB, intercalateB_cons_flatten l' ls, List.map_cons, List.flatten_cons]
    simp

theorem intercalateB_splitSep : ∀ (v : Bytes), intercalateB [10] (splitSep v) = v := by
  intro v
  induction v with
  | nil => simp [splitSep, intercalateB]
  | cons b bs ih =>
    by_cases hb : b = 10
    · subst hb
      simp only [splitSep, beq_self_eq_true, if_true]
      match h : splitSep bs with
      | l :: ls =>
        rw [h] at ih
        simp [intercalateB, ih]
      | [] => exact absurd h (splitSep_ne_nil bs)
    · have hb' : (b == 10) = false := by simp [hb]
      simp only [splitSep, hb', Bool.false_eq_true, if_false]
      match h : splitSep bs with
      | l :: ls =>
        rw [h] at ih
        match ls with
        | [] =>
          simp only [intercalateB] at ih ⊢
          simp [ih]
        | l' :: ls' =>
          simp only [intercalateB] at ih ⊢
          simp [ih]
      | [] => exact absurd h (splitSep_ne_nil bs)

/-! ## Lemmas about the multiline value quoting -/

theorem replaceNl_append (x y : Bytes) :
    replaceNl (x ++ y) = replaceNl x ++ replaceNl y := by
  induction x with
  | nil => simp [replaceNl]
  | cons b bs ih =>
    by_cases hb : b = 10 <;> simp [replaceNl, hb, ih]

theorem replaceNl_no_nl (x : Bytes) (h : ∀ b ∈ x, b ≠ 10) : replaceNl x = x := by
  induction x with
  | nil => simp [replaceNl]
  | cons b bs ih =>
    have hb : (b == 10) = false := by simp [h b (by simp)]
    simp [replaceNl, hb, ih (fun c hc => h c (by simp [hc]))]

theorem splitSep_replaceNl (v : Bytes) :
    ∀ l ls, splitSep v = l :: ls →
      splitSep (replaceNl v) = l :: ls.map (fun x => 32 :: x) := by
  induction v with
  | nil =>
    intro l ls h
    simp only [splitSep] at h
    injection h with h1 h2
    subst h1
    subst h2
    simp [replaceNl, splitSep]
  | cons b bs ih =>
    intro l ls h
    obtain ⟨l0, ls0, hs⟩ := splitSep_head bs
    by_cases hb : b = 10
    · subst hb
      rw [splitSep_cons_nl, hs] at h
      injection h with h1 h2
      subst h1
      subst h2
      have hrn : replaceNl (10 :: bs) = 10 :: 32 :: replaceNl bs := by
        simp [replaceNl]
      rw [hrn, splitSep_cons_nl,
        splitSep_cons_other 32 _ (by omega) _ _ (ih l0 ls0 hs)]
      simp
    · rw [splitSep_cons_other b _ hb _ _ hs] at h
      injection h with h1 h2
      subst h1
      subst h2
      have hrn : replaceNl (b :: bs) = b :: replaceNl bs := by
        have hb' : (b == 10) = false := by simp [hb]
        simp [replaceNl, hb']
      rw [hrn, splitSep_cons_other b _ hb _ _ (ih l0 ls0 hs)]

theorem hasNl_iff (v : Bytes) : hasNl v = true ↔ 10 ∈ v := by
  induction v with
  | nil => simp [hasNl]
  | cons b bs ih =>
    simp only [hasNl, Bool.or_eq_true, beq_iff_eq, ih, List.mem_cons]
    constructor
    · rintro (h | h)
      · exact Or.inl h.symm
      · exact Or.inr h
    · rintro (h | h)
      · exact Or.inl h.symm
      · exact Or.inr h

theorem joinTails_map_space (parts : List Bytes) (hne : parts ≠ []) :
    joinTails (parts.map (fun x => 32 :: x)) = intercalateB [10] parts := by
  match parts with
  | [] => exact absurd rfl hne
  | l :: ls =>
    simp only [List.map_cons, joinTails, List.drop_succ_cons, List.drop_nil,
      intercalateB_cons_flatten, List.map_map]
    have : ((fun x => 10 :: List.drop 1 x) ∘ fun x => 32 :: x) = (fun x => 10 :: x) := by
      funext x
      simp
    rw [this]
    simp

/-! ## UTF-8 lemmas -/

theorem utf8ChunkLen_cons (b : Nat) (rest : Bytes) :
    utf8ChunkLen (b :: rest) =
      (if b ≤ 127 then some 1
       else if b ≤ 193 then none
       else if b ≤ 223 then
         match rest with
         | c1 :: _ => if isCont c1 then some 2 else none
         | [] => none
       else if b ≤ 239 then
         match rest with
         | c1 :: c2 :: _ => if cont3OK b c1 && isCont c2 then some 3 else none
         | _ => none
       else if b ≤ 244 then
         match rest with
         | c1 :: c2 :: c3 :: _ =>
           if cont4OK b c1 && isCont c2 && isCont c3 then some 4 else none
         | _ => none
       else none) := rfl

theorem cont3OK_bounds (b c1 : Nat) (h : cont3OK b c1 = true) : 128 ≤ c1 ∧ c1 ≤ 191 := by
  unfold cont3OK at h
  split_ifs at h <;>
    simp only [isCont, Bool.and_eq_true, decide_eq_true_eq] at h <;> omega

theorem cont4OK_bounds (b c1 : Nat) (h : cont4OK b c1 = true) : 128 ≤ c1 ∧ c1 ≤ 191 := by
  unfold cont4OK at h
  split_ifs at h <;>
    simp only [isCont, Bool.and_eq_true, decide_eq_true_eq] at h <;> omega

theorem isCont_bounds (c : Nat) (h : isCont c = true) : 128 ≤ c ∧ c ≤ 191 := by
  simp only [isCont, Bool.and_eq_true, decide_eq_true_eq] at h
  exact h

theorem utf8ChunkLen_some (s : Bytes) (k : Nat) (h : utf8ChunkLen s = some k) :
    (∃ b t, s = b :: t ∧ b ≤ 127 ∧ k = 1) ∨
    (∃ b c1 t, s = b :: c1 :: t ∧ ¬ b ≤ 193 ∧ b ≤ 223 ∧ isCont c1 = true ∧ k = 2) ∨
    (∃ b c1 c2 t, s = b :: c1 :: c2 :: t ∧ ¬ b ≤ 223 ∧ b ≤ 239 ∧
      cont3OK b c1 = true ∧ isCont c2 = true ∧ k = 3) ∨
    (∃ b c1 c2 c3 t, s = b :: c1 :: c2 :: c3 :: t ∧ ¬ b ≤ 239 ∧ b ≤ 244 ∧
      cont4OK b c1 = true ∧ isCont c2 = true ∧ isCont c3 = true ∧ k = 4) := by
  match s with
  | [] => exact absurd h (by simp [utf8ChunkLen])
  | b :: rest =>
    rw [utf8ChunkLen_cons] at h
    by_cases h1 : b ≤ 127
    · rw [if_pos h1] at h
      injection h with h'
      exact Or.inl ⟨b, rest, rfl, h1, h'.symm⟩
    · rw [if_neg h1] at h
      by_cases h2 : b ≤ 193
      · rw [if_pos h2] at h
        exact absurd h (by simp)
      · rw [if_neg h2] at h
        by_cases h3 : b ≤ 223
        · rw [if_pos h3] at h
          match rest with
          | [] => exact absurd h (by simp)
          | c1 :: r =>
            have h' : (if isCont c1 then some 2 else none) = some k := h
            by_cases hc : isCont c1 = true
            · rw [if_pos hc] at h'
              injection h' with h''
              exact Or.inr (Or.inl ⟨b, c1, r, rfl, h2, h3, hc, h''.symm⟩)
            · rw [if_neg hc] at h'
              exact absurd h' (by simp)
        · rw [if_neg h3] at h
          by_cases h4 : b ≤ 239
          · rw [if_pos h4] at h
            match rest with
            | [] => exact absurd h (by simp)
            | [c1] => exact absurd h (by simp)
            | c1 :: c2 :: r =>
              have h' : (if cont3OK b c1 && isCont c2 then some 3 else none) = some k := h
              by_cases hc : (cont3OK b c1 && isCont c2) = true
              · rw [if_pos hc] at h'
                injection h' with h''
                rw [Bool.and_eq_true] at hc
                exact Or.inr (Or.inr (Or.inl
                  ⟨b, c1, c2, r, rfl, h3, h4, hc.1, hc.2, h''.symm⟩))
              · rw [if_neg hc] at h'
                exact absurd h' (by simp)
          · rw [if_neg h4] at h
            by_cases h5 : b ≤ 244
            · rw [if_pos h5] at h
              match rest with
              | [] => exact absurd h (by simp)
              | [c1] => exact absurd h (by simp)
              | [c1, c2] => exact absurd h (by simp)
              | c1 :: c2 :: c3 :: r =>
                have h' : (if cont4OK b c1 && isCont c2 && isCont c3
                    then some 4 else none) = some k := h
                by_cases hc : (cont4OK b c1 && isCont c2 && isCont c3) = true
                · rw [if_pos hc] at h'
                  injection h' with h''
                  rw [Bool.and_eq_true, Bool.and_eq_true] at hc
                  exact Or.inr (Or.inr (Or.inr
                    ⟨b, c1, c2, c3, r, rfl, h4, h5, hc.1.1, hc.1.2, hc.2, h''.symm⟩))
                · rw [if_neg hc] at h'
                  exact absurd h' (by simp)
            · rw [if_neg h5] at h
              exact absurd h (by simp)

theorem utf8ChunkLen_bounds (s : Bytes) (k : Nat) (h : utf8ChunkLen s = some k) :
    1 ≤ k ∧ k ≤ s.length := by
  rcases utf8ChunkLen_some s k h with ⟨b, t, rfl, _, rfl⟩ |
    ⟨b, c1, t, rfl, _, _, _, rfl⟩ |
    ⟨b, c1, c2, t, rfl, _, _, _, _, rfl⟩ |
    ⟨b, c1, c2, c3, t, rfl, _, _, _, _, _, rfl⟩ <;> simp

theorem utf8ChunkLen_take (s : Bytes) (k : Nat) (h : utf8ChunkLen s = some k) :
    ∀ t, utf8ChunkLen (s.take k ++ t) = some k := by
  intro u
  rcases utf8ChunkLen_some s k h with ⟨b, t, rfl, h1, rfl⟩ |
    ⟨b, c1, t, rfl, h2, h3, hc, rfl⟩ |
    ⟨b, c1, c2, t, rfl, h3, h4, hc1, hc2, rfl⟩ |
    ⟨b, c1, c2, c3, t, rfl, h4, h5, hc1, hc2, hc3, rfl⟩
  · show utf8ChunkLen (b :: u) = some 1
    rw [utf8ChunkLen_cons, if_pos h1]
  · show utf8ChunkLen (b :: c1 :: u) = some 2
    rw [utf8ChunkLen_cons, if_neg (by omega : ¬ b ≤ 127), if_neg h2, if_pos h3]
    show (if isCont c1 then some 2 else none) = some 2
    rw [if_pos hc]
  · show utf8ChunkLen (b :: c1 :: c2 :: u) = some 3
    rw [utf8ChunkLen_cons, if_neg (by omega : ¬ b ≤ 127), if_neg (by omega : ¬ b ≤ 193),
      if_neg h3, if_pos h4]
    show (if cont3OK b c1 && isCont c2 then some 3 else none) = some 3
    rw [if_pos (by rw [Bool.and_eq_true]; exact ⟨hc1, hc2⟩)]
  · show utf8ChunkLen (b :: c1 :: c2 :: c3 :: u) = some 4
    rw [utf8ChunkLen_cons, if_neg (by omega : ¬ b ≤ 127), if_neg (by omega : ¬ b ≤ 193),
      if_neg (by omega : ¬ b ≤ 223), if_neg h4, if_pos h5]
    show (if cont4OK b c1 && isCont c2 && isCont c3 then some 4 else none) = some 4
    rw [if_pos (by rw [Bool.and_eq_true, Bool.and_eq_true]; exact ⟨⟨hc1, hc2⟩, hc3⟩)]

theorem utf8ChunkLen_one (s : Bytes) (h : utf8ChunkLen s = some 1) :
    ∃ x t, s = x :: t ∧ x ≤ 127 := by
  rcases utf8ChunkLen_some s 1 h with ⟨b, t, rfl, h1, _⟩ |
    ⟨b, c1, t, rfl, _, _, _, hk⟩ |
    ⟨b, c1, c2, t, rfl, _, _, _, _, hk⟩ |
    ⟨b, c1, c2, c3, t, rfl, _, _, _, _, _, hk⟩
  · exact ⟨b, t, rfl, h1⟩
  · omega
  · omega
  · omega

theorem utf8ChunkLen_no_nl (s : Bytes) (k : Nat) (h : utf8ChunkLen s = some k)
    (hk : 2 ≤ k) : ∀ x ∈ s.take k, x ≠ 10 := by
  rcases utf8ChunkLen_some s k h with ⟨b, t, rfl, h1, rfl⟩ |
    ⟨b, c1, t, rfl, h2, h3, hc, rfl⟩ |
    ⟨b, c1, c2, t, rfl, h3, h4, hc1, hc2, rfl⟩ |
    ⟨b, c1, c2, c3, t, rfl, h4, h5, hc1, hc2, hc3, rfl⟩
  · omega
  · obtain ⟨hl, hr⟩ := isCont_bounds c1 hc
    intro x hx
    simp at hx
    rcases hx with hx | hx <;> omega
  · obtain ⟨hl1, hr1⟩ := cont3OK_bounds b c1 hc1
    obtain ⟨hl2, hr2⟩ := isCont_bounds c2 hc2
    intro x hx
    simp at hx
    rcases hx with hx | hx | hx <;> omega
  · obtain ⟨hl1, hr1⟩ := cont4OK_bounds b c1 hc1
    obtain ⟨hl2, hr2⟩ := isCont_bounds c2 hc2
    obtain ⟨hl3, hr3⟩ := isCont_bounds c3 hc3
    intro x hx
    simp at hx
    rcases hx with hx | hx | hx | hx <;> omega

theorem utf8ValidAux_fuel :
    ∀ (f1 : Nat), ∀ (f2 : Nat) (s : Bytes), s.length ≤ f1 → s.length ≤ f2 →
      utf8ValidAux f1 s = utf8ValidAux f2 s := by
  intro f1
  induction f1 with
  | zero =>
    intro f2 s h1 h2
    have : s = [] := List.length_eq_zero.1 (by omega)
    subst this
    match f2 with
    | 0 => rfl
    | f + 1 => rfl
  | succ f ih =>
    intro f2 s h1 h2
    match s with
    | [] =>
      match f2 with
      | 0 => rfl
      | g + 1 => rfl
    | b :: rest =>
      match f2 with
      | 0 => simp at h2
      | g + 1 =>
        simp only [utf8ValidAux]
        match hc : utf8ChunkLen (b :: rest) with
        | none => rfl
        | some k =>
          obtain ⟨hk1, hk2⟩ := utf8ChunkLen_bounds _ _ hc
          have hd : ((b :: rest).drop k).length ≤ f := by
            simp only [List.length_drop]
            simp only [List.length_cons] at h1 hk2 ⊢
            omega
          have hd2 : ((b :: rest).drop k).length ≤ g := by
            simp only [List.length_drop]
            simp only [List.length_cons] at h2 hk2 ⊢
            omega
          exact ih g _ hd hd2

theorem utf8Valid_ne_nil_eq (s : Bytes) (hs : s ≠ []) :
    utf8Valid s =
      (match utf8ChunkLen s with
       | none => false
       | some k => utf8Valid (s.drop k)) := by
  match s with
  | [] => exact absurd rfl hs
  | b :: rest =>
    show utf8ValidAux (rest.length + 1) (b :: rest) = _
    simp only [utf8ValidAux]
    match hc : utf8ChunkLen (b :: rest) with
    | none => rfl
    | some k =>
      obtain ⟨hk1, hk2⟩ := utf8ChunkLen_bounds _ _ hc
      apply utf8ValidAux_fuel
      · simp only [List.length_drop]
        simp only [List.length_cons] at hk2 ⊢
        omega
      · exact le_rfl

theorem utf8Valid_append_n :
    ∀ (n : Nat) (a : Bytes), a.length ≤ n → utf8Valid a = true →
      ∀ b, utf8Valid b = true → utf8Valid (a ++ b) = true := by
  intro n
  induction n with
  | zero =>
    intro a hlen _ b hb
    have : a = [] := List.length_eq_zero.1 (by omega)
    simpa [this] using hb
  | succ n ih =>
    intro a hlen ha b hb
    match a with
    | [] => simpa using hb
    | x :: rest =>
      rw [utf8Valid_ne_nil_eq _ (by simp)] at ha
      match hc : utf8ChunkLen (x :: rest) with
      | none => simp [hc] at ha
      | some k =>
        rw [hc] at ha
        have ha' : utf8Valid ((x :: rest).drop k) = true := ha
        obtain ⟨hk1, hk2⟩ := utf8ChunkLen_bounds _ _ hc
        have hsplit : (x :: rest) ++ b = (x :: rest).take k ++ ((x :: rest).drop k ++ b) := by
          rw [← List.append_assoc, List.take_append_drop]
        have hc2 : utf8ChunkLen ((x :: rest) ++ b) = some k := by
          rw [hsplit]
          exact utf8ChunkLen_take _ _ hc _
        rw [utf8Valid_ne_nil_eq _ (by simp), hc2]
        show utf8Valid (((x :: rest) ++ b).drop k) = true
        have hdrop : ((x :: rest) ++ b).drop k = (x :: rest).drop k ++ b := by
          rw [List.drop_append_of_le_length hk2]
        rw [hdrop]
        have hlen' : ((x :: rest).drop k).length ≤ n := by
          simp only [List.length_drop]
          simp only [List.length_cons] at hlen hk2 ⊢
          omega
        exact ih _ hlen' ha' b hb

theorem utf8Valid_append (a b : Bytes) (ha : utf8Valid a = true) (hb : utf8Valid b = true) :
    utf8Valid (a ++ b) = true :=
  utf8Valid_append_n a.length a le_rfl ha b hb

theorem utf8Valid_ascii (a : Bytes) (h : ∀ x ∈ a, x ≤ 127) : utf8Valid a = true := by
  induction a with
  | nil => rfl
  | cons b bs ih =>
    rw [utf8Valid_ne_nil_eq _ (by simp)]
    have hb : b ≤ 127 := h b (by simp)
    have hc : utf8ChunkLen (b :: bs) = some 1 := by simp [utf8ChunkLen, hb]
    rw [hc]
    simpa using ih (fun x hx => h x (by simp [hx]))

theorem utf8Valid_replaceNl_n :
    ∀ (n : Nat) (a : Bytes), a.length ≤ n → utf8Valid a = true →
      utf8Valid (replaceNl a) = true := by
  intro n
  induction n with
  | zero =>
    intro a hlen _
    have : a = [] := List.length_eq_zero.1 (by omega)
    rw [this]
    rfl
  | succ n ih =>
    intro a hlen ha
    match a with
    | [] => rfl
    | x :: rest =>
      rw [utf8Valid_ne_nil_eq _ (by simp)] at ha
      match hc : utf8ChunkLen (x :: rest) with
      | none => simp [hc] at ha
      | some k =>
        rw [hc] at ha
        obtain ⟨hk1, hk2⟩ := utf8ChunkLen_bounds _ _ hc
        have hlen' : ((x :: rest).drop k).length ≤ n := by
          simp only [List.length_drop]
          simp only [List.length_cons] at hlen hk2 ⊢
          omega
        have hrec := ih _ hlen' ha
        have hsplit : replaceNl (x :: rest) =
            replaceNl ((x :: rest).take k) ++ replaceNl ((x :: rest).drop k) := by
          rw [← replaceNl_append, List.take_append_drop]
        by_cases hk2' : 2 ≤ k
        · have hnonl := utf8ChunkLen_no_nl _ _ hc hk2'
          rw [hsplit, replaceNl_no_nl _ hnonl]
          have hc2 : utf8ChunkLen ((x :: rest).take k ++ replaceNl ((x :: rest).drop k))
              = some k := utf8ChunkLen_take _ _ hc _
          have htne : (x :: rest).take k ≠ [] := by
            have : ((x :: rest).take k).length = k := by
              rw [List.length_take]
              omega
            intro hfalse
            rw [hfalse] at this
            simp at this
            omega
          have happne : (x :: rest).take k ++ replaceNl ((x :: rest).drop k) ≠ [] := by
            intro hfalse
            exact htne (List.append_eq_nil.1 hfalse).1
          rw [utf8Valid_ne_nil_eq _ happne, hc2]
          show utf8Valid (((x :: rest).take k ++ replaceNl ((x :: rest).drop k)).drop k) = true
          have hlt : ((x :: rest).take k).length = k := by
            rw [List.length_take]
            omega
          have hdrop : ((x :: rest).take k ++ replaceNl ((x :: rest).drop k)).drop k =
              replaceNl ((x :: rest).drop k) := by
            rw [List.drop_append_of_le_length (by omega), List.drop_eq_nil_of_le (by omega),
              List.nil_append]
          rw [hdrop]
          exact hrec
        · have hk1' : k = 1 := by omega
          subst hk1'
          obtain ⟨y, t, heq, hy⟩ := utf8ChunkLen_one _ hc
          injection heq with hy1 ht1
          subst hy1
          subst ht1
          by_cases h10 : x = 10
          · subst h10
            have hrw : replaceNl (10 :: rest) = 10 :: 32 :: replaceNl rest := by
              simp [replaceNl]
            rw [hrw]
            have e1 : utf8ChunkLen (10 :: 32 :: replaceNl rest) = some 1 := by
              simp [utf8ChunkLen]
            rw [utf8Valid_ne_nil_eq _ (by simp), e1]
            have e2 : utf8ChunkLen (32 :: replaceNl rest) = some 1 := by
              simp [utf8ChunkLen]
            simp only [List.drop_succ_cons, List.drop_zero]
            rw [utf8Valid_ne_nil_eq _ (by simp), e2]
            simp only [List.drop_succ_cons, List.drop_zero]
            simpa using hrec
          · have hrw : replaceNl (x :: rest) = x :: replaceNl rest := by
              have hx' : (x == 10) = false := by simp [h10]
              simp [replaceNl, hx']
            rw [hrw]
            have e1 : utf8ChunkLen (x :: replaceNl rest) = some 1 := by
              simp [utf8ChunkLen, hy]
            rw [utf8Valid_ne_nil_eq _ (by simp), e1]
            simp only [List.drop_succ_cons, List.drop_zero]
            simpa using hrec

theorem utf8Valid_replaceNl (a : Bytes) (ha : utf8Valid a = true) :
    utf8Valid (replaceNl a) = true :=
  utf8Valid_replaceNl_n a.length a le_rfl ha

/-! ## Suffix lemmas -/

theorem suffixB_iff (p s : Bytes) : suffixB p s = true ↔ ∃ t, s = t ++ p := by
  simp only [suffixB, prefixB_iff]
  constructor
  · rintro ⟨t, ht⟩
    refine ⟨t.reverse, ?_⟩
    have := congrArg List.reverse ht
    simpa using this
  · rintro ⟨t, rfl⟩
    exact ⟨t.reverse, by simp⟩

/-! ## Decimal digit lemmas -/

theorem natToBytesAux_digits :
    ∀ (fuel n : Nat), n < fuel → ∀ b ∈ natToBytesAux fuel n, 48 ≤ b ∧ b ≤ 57 := by
  intro fuel
  induction fuel with
  | zero => omega
  | succ fuel ih =>
    intro n hn b hb
    simp only [natToBytesAux] at hb
    by_cases h10 : n < 10
    · rw [if_pos h10] at hb
      simp at hb
      omega
    · rw [if_neg h10] at hb
      rw [List.mem_append] at hb
      rcases hb with hb | hb
      · exact ih (n / 10) (by omega) b hb
      · simp at hb
        omega

theorem natToBytes_digits (n : Nat) : ∀ b ∈ natToBytes n, 48 ≤ b ∧ b ≤ 57 :=
  natToBytesAux_digits (n + 1) n (by omega)

theorem natToBytesAux_ne_nil (fuel n : Nat) (h : n < fuel) : natToBytesAux fuel n ≠ [] := by
  match fuel with
  | 0 => omega
  | fuel + 1 =>
    simp only [natToBytesAux]
    by_cases h10 : n < 10
    · simp [h10]
    · simp [h10]

theorem parseDecAux_append (acc : Nat) (xs ys : Bytes) :
    parseDecAux acc (xs ++ ys) =
      match parseDecAux acc xs with
      | none => none
      | some m => parseDecAux m ys := by
  induction xs generalizing acc with
  | nil => simp [parseDecAux]
  | cons b bs ih =>
    simp only [List.cons_append, parseDecAux]
    by_cases hd : isDigitByte b = true
    · rw [if_pos hd, if_pos hd]
      exact ih _
    · rw [if_neg hd, if_neg hd]

theorem parseDecAux_natToBytesAux :
    ∀ (fuel n acc : Nat), n < fuel →
      ∃ k, parseDecAux acc (natToBytesAux fuel n) = some (acc * 10 ^ k + n) ∧ 1 ≤ k := by
  intro fuel
  induction fuel with
  | zero => omega
  | succ fuel ih =>
    intro n acc hn
    simp only [natToBytesAux]
    by_cases h10 : n < 10
    · rw [if_pos h10]
      refine ⟨1, ?_, le_rfl⟩
      have hd : isDigitByte (48 + n) = true := by
        simp [isDigitByte]
        omega
      simp only [parseDecAux, if_pos hd]
      congr 1
      omega
    · rw [if_neg h10]
      rw [parseDecAux_append]
      obtain ⟨k, hk, hk1⟩ := ih (n / 10) acc (by omega)
      rw [hk]
      have hd : isDigitByte (48 + n % 10) = true := by
        simp [isDigitByte]
        omega
      refine ⟨k + 1, ?_, by omega⟩
      simp only [parseDecAux, if_pos hd]
      congr 1
      have h48 : 48 + n % 10 - 48 = n % 10 := by omega
      rw [h48, pow_succ]
      have key : (acc * 10 ^ k + n / 10) * 10 + n % 10 =
          acc * (10 ^ k * 10) + (n / 10 * 10 + n % 10) := by ring
      rw [key, Nat.div_add_mod']

theorem parseIntB_natToBytes (n : Nat) : parseIntB (natToBytes n) = some (n : Int) := by
  obtain ⟨d, ds, hds⟩ : ∃ d ds, natToBytes n = d :: ds := by
    match h : natToBytes n with
    | d :: ds => exact ⟨d, ds, rfl⟩
    | [] => exact absurd h (natToBytesAux_ne_nil (n + 1) n (by omega))
  have hd : 48 ≤ d ∧ d ≤ 57 := natToBytes_digits n d (by rw [hds]; simp)
  obtain ⟨k, hk, _⟩ := parseDecAux_natToBytesAux (n + 1) n 0 (by omega)
  rw [hds]
  simp only [parseIntB, if_neg (by omega : ¬ d = 43), if_neg (by omega : ¬ d = 45)]
  rw [← hds]
  show (parseDecAux 0 (natToBytesAux (n + 1) n)).map Int.ofNat = some (n : Int)
  rw [hk]
  simp

/-! ## Sorting lemmas -/

theorem bytesLe_total : ∀ (a b : Bytes), bytesLe a b = true ∨ bytesLe b a = true
  | [], _ => Or.inl (by cases ‹Bytes› <;> rfl)
  | _ :: _, [] => Or.inr rfl
  | a :: as, b :: bs => by
    rcases Nat.lt_trichotomy a b with h | h | h
    · exact Or.inl (by simp [bytesLe, h])
    · subst h
      rcases bytesLe_total as bs with ih | ih
      · exact Or.inl (by simp [bytesLe, ih])
      · exact Or.inr (by simp [bytesLe, ih])
    · exact Or.inr (by simp [bytesLe, h])

theorem bytesLe_trans :
    ∀ (a b c : Bytes), bytesLe a b = true → bytesLe b c = true → bytesLe a c = true
  | [], _, _ => by
    intro _ _
    cases ‹Bytes› <;> rfl
  | _ :: _, [], _ => by
    intro h _
    exact absurd h (by simp [bytesLe])
  | _ :: _, _ :: _, [] => by
    intro _ h
    exact absurd h (by simp [bytesLe])
  | a :: as, b :: bs, c :: cs => by
    intro h1 h2
    simp only [bytesLe] at h1 h2 ⊢
    by_cases hab1 : a < b
    · by_cases hbc1 : b < c
      · rw [if_pos (by omega)]
      · by_cases hbc2 : c < b
        · rw [if_neg hbc1, if_pos hbc2] at h2
          exact absurd h2 (by simp)
        · rw [if_pos (by omega)]
    · by_cases hab2 : b < a
      · rw [if_neg hab1, if_pos hab2] at h1
        exact absurd h1 (by simp)
      · have hab : a = b := by omega
        subst hab
        rw [if_neg (by omega), if_neg (by omega)] at h1
        by_cases hbc1 : a < c
        · rw [if_pos hbc1]
        · by_cases hbc2 : c < a
          · rw [if_neg hbc1, if_pos hbc2] at h2
            exact absurd h2 (by simp)
          · have hac : a = c := by omega
            subst hac
            rw [if_neg (by omega), if_neg (by omega)] at h2 ⊢
            exact bytesLe_trans as bs cs h1 h2

theorem sortInsert_perm (x : Bytes) (l : List Bytes) : (sortInsert x l).Perm (x :: l) := by
  induction l with
  | nil => simp [sortInsert]
  | cons y ys ih =>
    simp only [sortInsert]
    by_cases h : bytesLe x y = true
    · rw [if_pos h]
    · rw [if_neg h]
      exact (List.Perm.cons y ih).trans (List.Perm.swap x y ys)

theorem sortBytes_perm (l : List Bytes) : (sortBytes l).Perm l := by
  induction l with
  | nil => simp [sortBytes]
  | cons x xs ih =>
    exact (sortInsert_perm x (sortBytes xs)).trans (List.Perm.cons x ih)

theorem sortInsert_sorted (x : Bytes) (l : List Bytes)
    (h : l.Pairwise (fun a b => bytesLe a b = true)) :
    (sortInsert x l).Pairwise (fun a b => bytesLe a b = true) := by
  induction l with
  | nil => simp [sortInsert]
  | cons y ys ih =>
    simp only [sortInsert]
    rw [List.pairwise_cons] at h
    obtain ⟨hy, hys⟩ := h
    by_cases hle : bytesLe x y = true
    · rw [if_pos hle]
      rw [List.pairwise_cons]
      refine ⟨?_, by rw [List.pairwise_cons]; exact ⟨hy, hys⟩⟩
      intro z hz
      rcases List.mem_cons.1 hz with rfl | hz
      · exact hle
      · exact bytesLe_trans x y z hle (hy z hz)
    · rw [if_neg hle]
      rw [List.pairwise_cons]
      refine ⟨?_, ih hys⟩
      intro z hz
      have := (sortInsert_perm x ys).mem_iff.1 hz
      rcases List.mem_cons.1 this with rfl | hz'
      · rcases bytesLe_total z y with h | h
        · exact absurd h hle
        · exact h
      · exact hy z hz'

theorem sortBytes_sorted (l : List Bytes) :
    (sortBytes l).Pairwise (fun a b => bytesLe a b = true) := by
  induction l with
  | nil => simp [sortBytes]
  | cons x xs ih => exact sortInsert_sorted x (sortBytes xs) ih

theorem sortBytes_nodup (l : List Bytes) (h : l.Nodup) : (sortBytes l).Nodup :=
  (sortBytes_perm l).nodup_iff.2 h

theorem sortBytes_mem (l : List Bytes) (x : Bytes) : x ∈ sortBytes l ↔ x ∈ l :=
  (sortBytes_perm l).mem_iff

theorem sortBytes_sorted_lt (l : List Bytes) (h : l.Nodup) :
    (sortBytes l).Pairwise (fun a b => bytesLt a b = true) := by
  have h1 := sortBytes_sorted l
  have h2 : (sortBytes l).Nodup := sortBytes_nodup l h
  have hand := List.Pairwise.and h1 h2
  refine hand.imp ?_
  intro a b hab
  obtain ⟨hle, hne⟩ := hab
  simp only [bytesLt, Bool.and_eq_true, Bool.not_eq_true', beq_eq_false_iff_ne, ne_eq]
  exact ⟨hle, hne⟩

/-! ## Header map lemmas -/

theorem hfind?_hput_self (h : Headers) (n v : Bytes) : hfind? (hput h n v) n = some v := by
  induction h with
  | nil => simp [hput, hfind?]
  | cons p r ih =>
    obtain ⟨k, w⟩ := p
    simp only [hput]
    by_cases hk : k = n
    · rw [if_pos hk]
      simp [hfind?]
    · rw [if_neg hk]
      simp only [hfind?, if_neg hk]
      exact ih

theorem hfind?_hput_ne (h : Headers) (n v m : Bytes) (hm : m ≠ n) :
    hfind? (hput h n v) m = hfind? h m := by
  induction h with
  | nil =>
    simp only [hput, hfind?]
    rw [if_neg (fun he => hm he.symm)]
  | cons p r ih =>
    obtain ⟨k, w⟩ := p
    simp only [hput]
    by_cases hk : k = n
    · rw [if_pos hk]
      subst hk
      simp only [hfind?]
      rw [if_neg (fun he => hm he.symm), if_neg (fun he => hm he.symm)]
    · rw [if_neg hk]
      simp only [hfind?]
      by_cases hkm : k = m
      · rw [if_pos hkm, if_pos hkm]
      · rw [if_neg hkm, if_neg hkm]
        exact ih

theorem hfind?_hdel_self (h : Headers) (n : Bytes) : hfind? (hdel h n) n = none := by
  induction h with
  | nil => simp [hdel, hfind?]
  | cons p r ih =>
    obtain ⟨k, w⟩ := p
    simp only [hdel]
    by_cases hk : k = n
    · rw [if_pos hk]
      exact ih
    · rw [if_neg hk]
      simp only [hfind?, if_neg hk]
      exact ih

theorem hfind?_hdel_ne (h : Headers) (n m : Bytes) (hm : m ≠ n) :
    hfind? (hdel h n) m = hfind? h m := by
  induction h with
  | nil => simp [hdel]
  | cons p r ih =>
    obtain ⟨k, w⟩ := p
    simp only [hdel]
    by_cases hk : k = n
    · rw [if_pos hk]
      subst hk
      simp only [hfind?]
      rw [if_neg (fun he => hm he.symm)]
      exact ih
    · rw [if_neg hk]
      simp only [hfind?]
      by_cases hkm : k = m
      · rw [if_pos hkm, if_pos hkm]
      · rw [if_neg hkm, if_neg hkm]
        exact ih

theorem hkeys_hput (h : Headers) (n v : Bytes) :
    ∀ m, m ∈ hkeys (hput h n v) ↔ m = n ∨ m ∈ hkeys h := by
  intro m
  induction h with
  | nil => simp [hput, hkeys]
  | cons p r ih =>
    obtain ⟨k, w⟩ := p
    simp only [hput]
    by_cases hk : k = n
    · rw [if_pos hk]
      subst hk
      simp [hkeys]
    · rw [if_neg hk]
      simp only [hkeys, List.map_cons, List.mem_cons] at ih ⊢
      constructor
      · rintro (rfl | hm)
        · exact Or.inr (Or.inl rfl)
        · rcases ih.1 hm with hm | hm
          · exact Or.inl hm
          · exact Or.inr (Or.inr hm)
      · rintro (rfl | rfl | hm)
        · exact Or.inr (ih.2 (Or.inl rfl))
        · exact Or.inl rfl
        · exact Or.inr (ih.2 (Or.inr hm))

theorem hkeys_hdel (h : Headers) (n : Bytes) :
    ∀ m, m ∈ hkeys (hdel h n) ↔ m ≠ n ∧ m ∈ hkeys h := by
  intro m
  induction h with
  | nil => simp [hdel, hkeys]
  | cons p r ih =>
    obtain ⟨k, w⟩ := p
    simp only [hdel]
    by_cases hk : k = n
    · rw [if_pos hk]
      subst hk
      rw [ih]
      simp only [hkeys, List.map_cons, List.mem_cons]
      constructor
      · rintro ⟨hm, hm2⟩
        exact ⟨hm, Or.inr hm2⟩
      · rintro ⟨hm, rfl | hm2⟩
        · exact absurd rfl hm
        · exact ⟨hm, hm2⟩
    · rw [if_neg hk]
      simp only [hkeys, List.map_cons, List.mem_cons] at ih ⊢
      constructor
      · rintro (rfl | hm)
        · constructor
          · intro he
            exact hk he
          · exact Or.inl rfl
        · obtain ⟨h1, h2⟩ := ih.1 hm
          exact ⟨h1, Or.inr h2⟩
      · rintro ⟨hm, rfl | hm2⟩
        · exact Or.inl rfl
        · exact Or.inr (ih.2 ⟨hm, hm2⟩)

theorem hfind?_mem_keys (h : Headers) (n : Bytes) :
    (hfind? h n).isSome = true ↔ n ∈ hkeys h := by
  induction h with
  | nil => simp [hfind?, hkeys]
  | cons p r ih =>
    obtain ⟨k, w⟩ := p
    simp only [hfind?, hkeys, List.map_cons, List.mem_cons]
    by_cases hk : k = n
    · rw [if_pos hk]
      simp [hk]
    · rw [if_neg hk]
      rw [ih]
      simp only [hkeys]
      constructor
      · intro hm
        exact Or.inr hm
      · rintro (rfl | hm)
        · exact absurd rfl hk
        · exact hm

theorem hkeys_nodup_hput (h : Headers) (n v : Bytes) (hnd : (hkeys h).Nodup) :
    (hkeys (hput h n v)).Nodup := by
  induction h with
  | nil => simp [hput, hkeys]
  | cons p r ih =>
    obtain ⟨k, w⟩ := p
    simp only [hkeys, List.map_cons, List.nodup_cons] at hnd
    obtain ⟨hk1, hk2⟩ := hnd
    simp only [hput]
    by_cases hk : k = n
    · rw [if_pos hk]
      subst hk
      simp only [hkeys, List.map_cons, List.nodup_cons]
      exact ⟨hk1, hk2⟩
    · rw [if_neg hk]
      simp only [hkeys, List.map_cons, List.nodup_cons]
      constructor
      · intro hm
        rcases (hkeys_hput r n v k).1 hm with rfl | hm
        · exact hk rfl
        · exact hk1 hm
      · exact ih hk2

theorem hkeys_nodup_hdel (h : Headers) (n : Bytes) (hnd : (hkeys h).Nodup) :
    (hkeys (hdel h n)).Nodup := by
  induction h with
  | nil => simp [hdel, hkeys]
  | cons p r ih =>
    obtain ⟨k, w⟩ := p
    simp only [hkeys, List.map_cons, List.nodup_cons] at hnd
    obtain ⟨hk1, hk2⟩ := hnd
    simp only [hdel]
    by_cases hk : k = n
    · rw [if_pos hk]
      exact ih hk2
    · rw [if_neg hk]
      simp only [hkeys, List.map_cons, List.nodup_cons]
      constructor
      · intro hm
        exact hk1 ((hkeys_hdel r n k).1 hm).2
      · exact ih hk2

theorem hget_eq (h : Headers) (n : Bytes) : hget h n = (hfind? h n).getD [] := rfl

/-! ## Serialized header entries

`serEntry` is the byte shape `writeHeader` produces after its leading
newline; `entryLines` the lines it contributes to the split header
block. -/

/-- One serialized header entry, without the leading newline. -/
def serEntry (p : Bytes × Bytes) : Bytes :=
  p.1 ++ (if hasNl p.2 then [58, 10, 32] ++ replaceNl p.2 else [58, 32] ++ p.2)

/-- The lines a serialized entry contributes to the header block. -/
def entryLines (p : Bytes × Bytes) : List Bytes :=
  if hasNl p.2 then (p.1 ++ [58]) :: (splitSep p.2).map (fun x => 32 :: x)
  else [p.1 ++ [58, 32] ++ p.2]

/-- A serialized header block: entries joined by single newlines. -/
def serBlock (ps : List (Bytes × Bytes)) : Bytes := intercalateB [10] (ps.map serEntry)

theorem writeHeader_eq (fh : Headers) (n : Bytes) :
    writeHeader fh n = 10 :: serEntry (n, hget fh n) := by
  unfold writeHeader serEntry nl
  by_cases h : hasNl (hget fh n) = true
  · rw [if_pos h, if_pos h]
    simp
  · rw [if_neg h, if_neg h]
    simp

theorem nameTailOK_bytes : ∀ (l : Bytes), nameTailOK l = true →
    ∀ b ∈ l, (97 ≤ b ∧ b ≤ 122) ∨ (48 ≤ b ∧ b ≤ 57) ∨ b = 45
  | [] => by simp [nameTailOK]
  | [c] => by
    intro h b hb
    simp only [nameTailOK, Bool.or_eq_true] at h
    simp only [List.mem_singleton] at hb
    subst hb
    rcases h with h | h
    · simp only [isLowerByte, Bool.and_eq_true, decide_eq_true_eq] at h
      exact Or.inl h
    · simp only [isDigitByte, Bool.and_eq_true, decide_eq_true_eq] at h
      exact Or.inr (Or.inl h)
  | c :: d :: rest => by
    intro h b hb
    simp only [nameTailOK, Bool.and_eq_true, Bool.or_eq_true] at h
    obtain ⟨h1, h2⟩ := h
    rcases List.mem_cons.1 hb with rfl | hb
    · rcases h1 with (h | h) | h
      · simp only [isLowerByte, Bool.and_eq_true, decide_eq_true_eq] at h
        exact Or.inl h
      · simp only [isDigitByte, Bool.and_eq_true, decide_eq_true_eq] at h
        exact Or.inr (Or.inl h)
      · simp only [beq_iff_eq] at h
        exact Or.inr (Or.inr h)
    · exact nameTailOK_bytes (d :: rest) h2 b hb

theorem headerNameOK_bytes (n : Bytes) (h : headerNameOK n = true) :
    ∀ b ∈ n, (97 ≤ b ∧ b ≤ 122) ∨ (48 ≤ b ∧ b ≤ 57) ∨ b = 45 := by
  match n with
  | [] => simp [headerNameOK] at h
  | b0 :: rest =>
    simp only [headerNameOK, Bool.and_eq_true] at h
    obtain ⟨h0, ht⟩ := h
    intro b hb
    rcases List.mem_cons.1 hb with rfl | hb
    · simp only [isLowerByte, Bool.and_eq_true, decide_eq_true_eq] at h0
      exact Or.inl h0
    · exact nameTailOK_bytes rest ht b hb

theorem headerNameOK_no_nl (n : Bytes) (h : headerNameOK n = true) : ∀ b ∈ n, b ≠ 10 := by
  intro b hb
  rcases headerNameOK_bytes n h b hb with h1 | h1 | h1 <;> omega

theorem headerNameOK_no_colon (n : Bytes) (h : headerNameOK n = true) : ∀ b ∈ n, b ≠ 58 := by
  intro b hb
  rcases headerNameOK_bytes n h b hb with h1 | h1 | h1 <;> omega

theorem headerNameOK_ascii (n : Bytes) (h : headerNameOK n = true) : ∀ b ∈ n, b ≤ 127 := by
  intro b hb
  rcases headerNameOK_bytes n h b hb with h1 | h1 | h1 <;> omega

theorem headerNameOK_ne_nil (n : Bytes) (h : headerNameOK n = true) : n ≠ [] := by
  intro hn
  rw [hn] at h
  simp [headerNameOK] at h

theorem headerNameOK_head (n : Bytes) (h : headerNameOK n = true) :
    ∃ b0 rest, n = b0 :: rest ∧ 97 ≤ b0 ∧ b0 ≤ 122 := by
  match n with
  | [] => simp [headerNameOK] at h
  | b0 :: rest =>
    simp only [headerNameOK, Bool.and_eq_true] at h
    obtain ⟨h0, _⟩ := h
    simp only [isLowerByte, Bool.and_eq_true, decide_eq_true_eq] at h0
    exact ⟨b0, rest, rfl, h0.1, h0.2⟩

theorem serEntry_eq_multi (n v : Bytes) (hv : hasNl v = true) :
    serEntry (n, v) = (n ++ [58]) ++ 10 :: (32 :: replaceNl v) := by
  unfold serEntry
  dsimp only
  rw [if_pos hv]
  simp

theorem serEntry_eq_single (n v : Bytes) (hv : hasNl v = false) :
    serEntry (n, v) = (n ++ [58, 32]) ++ v := by
  unfold serEntry
  dsimp only
  rw [if_neg (by simp [hv])]
  simp

theorem entryLines_eq_multi (n v : Bytes) (hv : hasNl v = true) :
    entryLines (n, v) = (n ++ [58]) :: (splitSep v).map (fun x => 32 :: x) := by
  unfold entryLines
  dsimp only
  rw [if_pos hv]

theorem entryLines_eq_single (n v : Bytes) (hv : hasNl v = false) :
    entryLines (n, v) = [(n ++ [58, 32]) ++ v] := by
  unfold entryLines
  dsimp only
  rw [if_neg (by simp [hv])]

theorem splitSep_serEntry (n v : Bytes) (hname : ∀ b ∈ n, b ≠ 10) :
    splitSep (serEntry (n, v)) = entryLines (n, v) := by
  by_cases hv : hasNl v = true
  · rw [serEntry_eq_multi n v hv, entryLines_eq_multi n v hv]
    rw [splitSep_append]
    have h1 : splitSep (n ++ [58]) = [n ++ [58]] := by
      apply splitSep_no_nl
      intro b hb
      rcases List.mem_append.1 hb with hb | hb
      · exact hname b hb
      · simp at hb
        omega
    obtain ⟨l, ls, hls⟩ := splitSep_head v
    have h2 : splitSep (32 :: replaceNl v) = (32 :: l) :: ls.map (fun x => 32 :: x) :=
      splitSep_cons_other 32 _ (by omega) _ _ (splitSep_replaceNl v l ls hls)
    rw [h1, h2, hls]
    simp
  · rw [Bool.not_eq_true] at hv
    rw [serEntry_eq_single n v hv, entryLines_eq_single n v hv]
    apply splitSep_no_nl
    intro b hb
    rcases List.mem_append.1 hb with hb | hb
    · rcases List.mem_append.1 hb with hb | hb
      · exact hname b hb
      · simp at hb
        rcases hb with rfl | rfl <;> omega
    · intro h10
      subst h10
      rw [(hasNl_iff v).2 hb] at hv
      exact absurd hv (by simp)

theorem entryLines_ne_nil (p : Bytes × Bytes) : entryLines p ≠ [] := by
  obtain ⟨n, v⟩ := p
  by_cases hv : hasNl v = true
  · rw [entryLines_eq_multi n v hv]
    simp
  · rw [Bool.not_eq_true] at hv
    rw [entryLines_eq_single n v hv]
    simp

theorem entryLines_head_byte (p : Bytes × Bytes) (hname : headerNameOK p.1 = true) :
    ∃ b0 lrest lines, entryLines p = (b0 :: lrest) :: lines ∧ 97 ≤ b0 ∧ b0 ≤ 122 := by
  obtain ⟨n, v⟩ := p
  obtain ⟨b0, nrest, hn, hb1, hb2⟩ := headerNameOK_head n hname
  subst hn
  by_cases hv : hasNl v = true
  · rw [entryLines_eq_multi _ v hv]
    exact ⟨b0, nrest ++ [58], (splitSep v).map (fun x => 32 :: x), by simp, hb1, hb2⟩
  · rw [Bool.not_eq_true] at hv
    rw [entryLines_eq_single _ v hv]
    exact ⟨b0, (nrest ++ [58, 32]) ++ v, [], by simp, hb1, hb2⟩

/-! ## Absence of double newlines in serialized blocks -/

/-- No two adjacent newline bytes, and the string does not end in a
newline. -/
def noNlRun : Bytes → Bool
  | [] => true
  | [b] => !(b == 10)
  | b :: c :: rest => !(b == 10 && c == 10) && noNlRun (c :: rest)

theorem noNlRun_cons (b : Nat) (t : Bytes) (hb : b ≠ 10) (ht : noNlRun t = true) :
    noNlRun (b :: t) = true := by
  match t with
  | [] => simp [noNlRun, hb]
  | c :: rest =>
    simp only [noNlRun, Bool.and_eq_true, Bool.not_eq_true', Bool.and_eq_false_iff]
    refine ⟨?_, ht⟩
    left
    simp [hb]

theorem noNlRun_no_nl (l : Bytes) (h : ∀ b ∈ l, b ≠ 10) : noNlRun l = true := by
  induction l with
  | nil => rfl
  | cons b t ih =>
    exact noNlRun_cons b t (h b (by simp)) (ih (fun c hc => h c (by simp [hc])))

theorem noNlRun_not_last (l : Bytes) (h : noNlRun l = true) : l.getLast? ≠ some 10 := by
  induction l with
  | nil => simp
  | cons b t ih =>
    match t with
    | [] =>
      simp only [noNlRun, Bool.not_eq_true', beq_eq_false_iff_ne, ne_eq] at h
      simp [h]
    | c :: rest =>
      simp only [noNlRun, Bool.and_eq_true] at h
      have := ih h.2
      rw [List.getLast?_cons_cons]
      exact this

theorem noNlRun_append (a b : Bytes) (ha : noNlRun a = true) (hb : noNlRun b = true) :
    noNlRun (a ++ b) = true := by
  induction a with
  | nil => simpa using hb
  | cons x t ih =>
    match t with
    | [] =>
      simp only [noNlRun, Bool.not_eq_true', beq_eq_false_iff_ne, ne_eq] at ha
      simpa using noNlRun_cons x b ha hb
    | c :: rest =>
      simp only [noNlRun, Bool.and_eq_true] at ha
      obtain ⟨h1, h2⟩ := ha
      have := ih h2
      show noNlRun (x :: ((c :: rest) ++ b)) = true
      simp only [List.cons_append, noNlRun, Bool.and_eq_true]
      simp only [List.cons_append] at this
      exact ⟨h1, this⟩

theorem noNlRun_sep (a b : Bytes) (ha : noNlRun a = true) (hb : noNlRun b = true)
    (hhead : ∀ c t, b = c :: t → c ≠ 10) (hne : b ≠ []) :
    noNlRun (a ++ 10 :: b) = true := by
  apply noNlRun_append a (10 :: b) ha
  match b with
  | [] => exact absurd rfl hne
  | c :: rest =>
    simp only [noNlRun, Bool.and_eq_true, Bool.not_eq_true', Bool.and_eq_false_iff]
    refine ⟨?_, hb⟩
    right
    simp [hhead c rest rfl]

theorem noNlRun_no_occ (l : Bytes) (h : noNlRun l = true) : ∀ p, ¬ occursAt l nlnl p := by
  induction l with
  | nil =>
    intro p hocc
    obtain ⟨t, ht⟩ := hocc
    simp [nlnl] at ht
  | cons b rest ih =>
    intro p hocc
    match p, hocc with
    | 0, ⟨t, ht⟩ =>
      simp only [List.drop_zero, nlnl] at ht
      injection ht with h1 h2
      subst h1
      match rest, h2 with
      | 10 :: rest', _ =>
        simp [noNlRun] at h
    | p + 1, ⟨t, ht⟩ =>
      simp only [List.drop_succ_cons] at ht
      have hrest : noNlRun rest = true := by
        match rest with
        | [] => rfl
        | c :: r2 =>
          simp only [noNlRun, Bool.and_eq_true] at h
          exact h.2
      exact ih hrest p ⟨t, ht⟩

theorem noNlRun_hasSub (l : Bytes) (h : noNlRun l = true) : hasSubB nlnl l = false := by
  match hb : bIndex nlnl l with
  | none => simp [hasSubB, hb]
  | some i => exact absurd (bIndex_some nlnl l i hb).1 (noNlRun_no_occ l h i)

theorem noNlRun_replaceNl (v : Bytes) : noNlRun (replaceNl v) = true := by
  induction v with
  | nil => rfl
  | cons b r ih =>
    by_cases hb : b = 10
    · subst hb
      have hrw : replaceNl (10 :: r) = 10 :: 32 :: replaceNl r := by simp [replaceNl]
      rw [hrw]
      have h32 : noNlRun (32 :: replaceNl r) = true := noNlRun_cons 32 _ (by omega) ih
      simp only [noNlRun, Bool.and_eq_true, Bool.not_eq_true', Bool.and_eq_false_iff]
      refine ⟨Or.inr (by simp), ?_⟩
      exact h32
    · have hrw : replaceNl (b :: r) = b :: replaceNl r := by
        have hb' : (b == 10) = false := by simp [hb]
        simp [replaceNl, hb']
      rw [hrw]
      exact noNlRun_cons b _ hb ih

theorem noNlRun_serEntry (n v : Bytes) (hname : headerNameOK n = true) :
    noNlRun (serEntry (n, v)) = true := by
  by_cases hv : hasNl v = true
  · rw [serEntry_eq_multi n v hv]
    apply noNlRun_append
    · apply noNlRun_no_nl
      intro b hb
      rcases List.mem_append.1 hb with hb | hb
      · exact headerNameOK_no_nl n hname b hb
      · simp at hb
        omega
    · simp only [noNlRun, Bool.and_eq_true, Bool.not_eq_true', Bool.and_eq_false_iff]
      exact ⟨Or.inr (by simp), noNlRun_cons 32 _ (by omega) (noNlRun_replaceNl v)⟩
  · rw [Bool.not_eq_true] at hv
    rw [serEntry_eq_single n v hv]
    apply noNlRun_no_nl
    intro b hb
    rcases List.mem_append.1 hb with hb | hb
    · rcases List.mem_append.1 hb with hb | hb
      · exact headerNameOK_no_nl n hname b hb
      · simp at hb
        rcases hb with rfl | rfl <;> omega
    · intro h10
      subst h10
      rw [(hasNl_iff v).2 hb] at hv
      cases hv

theorem serEntry_head_byte (p : Bytes × Bytes) (hname : headerNameOK p.1 = true) :
    ∃ b0 t, serEntry p = b0 :: t ∧ 97 ≤ b0 ∧ b0 ≤ 122 := by
  obtain ⟨n, v⟩ := p
  obtain ⟨b0, nrest, hn, hb1, hb2⟩ := headerNameOK_head n hname
  subst hn
  by_cases hv : hasNl v = true
  · rw [serEntry_eq_multi _ v hv]
    exact ⟨b0, nrest ++ [58] ++ 10 :: 32 :: replaceNl v, by simp, hb1, hb2⟩
  · rw [Bool.not_eq_true] at hv
    rw [serEntry_eq_single _ v hv]
    exact ⟨b0, nrest ++ [58, 32] ++ v, by simp, hb1, hb2⟩

theorem serEntry_ne_nil (p : Bytes × Bytes) (hname : headerNameOK p.1 = true) :
    serEntry p ≠ [] := by
  obtain ⟨b0, t, ht, _, _⟩ := serEntry_head_byte p hname
  rw [ht]
  simp

theorem serBlock_cons (p : Bytes × Bytes) (q : Bytes × Bytes) (qs : List (Bytes × Bytes)) :
    serBlock (p :: q :: qs) = serEntry p ++ 10 :: serBlock (q :: qs) := by
  show intercalateB [10] (serEntry p :: serEntry q :: qs.map serEntry) = _
  simp only [intercalateB, serBlock, List.map_cons]
  simp

theorem serBlock_one (p : Bytes × Bytes) : serBlock [p] = serEntry p := by
  simp [serBlock, intercalateB]

theorem serBlock_head_byte (p : Bytes × Bytes) (ps : List (Bytes × Bytes))
    (hname : headerNameOK p.1 = true) :
    ∃ b0 t, serBlock (p :: ps) = b0 :: t ∧ 97 ≤ b0 ∧ b0 ≤ 122 := by
  obtain ⟨b0, t0, ht, hb1, hb2⟩ := serEntry_head_byte p hname
  match ps with
  | [] =>
    rw [serBlock_one, ht]
    exact ⟨b0, t0, rfl, hb1, hb2⟩
  | q :: qs =>
    rw [serBlock_cons, ht]
    exact ⟨b0, t0 ++ 10 :: serBlock (q :: qs), by simp, hb1, hb2⟩

theorem noNlRun_serBlock (ps : List (Bytes × Bytes))
    (hnames : ∀ p ∈ ps, headerNameOK p.1 = true) :
    noNlRun (serBlock ps) = true := by
  induction ps with
  | nil => rfl
  | cons p qs ih =>
    match qs with
    | [] =>
      rw [serBlock_one]
      exact noNlRun_serEntry p.1 p.2 (hnames p (by simp))
    | q :: qs' =>
      rw [serBlock_cons]
      obtain ⟨b0, t0, hq0, hb1, hb2⟩ :=
        serBlock_head_byte q qs' (hnames q (by simp))
      apply noNlRun_sep
      · exact noNlRun_serEntry p.1 p.2 (hnames p (by simp))
      · exact ih (fun r hr => hnames r (by simp [hr]))
      · intro c t hct
        rw [hq0] at hct
        injection hct with h1 _
        omega
      · rw [hq0]
        simp

/-! ## Parsing a serialized block -/

theorem idxByte_append (n : Bytes) (c : Nat) (h : ∀ b ∈ n, b ≠ c) (x : Bytes) :
    idxByte (n ++ c :: x) c = some n.length := by
  induction n with
  | nil => simp [idxByte]
  | cons b bs ih =>
    have hb : (b == c) = false := by simp [h b (by simp)]
    simp only [List.cons_append, idxByte, hb, Bool.false_eq_true, if_false]
    show Option.map (fun y => y + 1) (idxByte (bs ++ c :: x) c) = some (b :: bs).length
    rw [ih (fun d hd => h d (by simp [hd]))]
    simp

theorem takeWhile_append_all (p : Bytes → Bool) (l1 l2 : List Bytes)
    (h : ∀ x ∈ l1, p x = true) :
    (l1 ++ l2).takeWhile p = l1 ++ l2.takeWhile p := by
  induction l1 with
  | nil => simp
  | cons x xs ih =>
    show (x :: (xs ++ l2)).takeWhile p = x :: (xs ++ l2.takeWhile p)
    rw [List.takeWhile_cons, if_pos (h x (by simp)), ih (fun y hy => h y (by simp [hy]))]

theorem takeWhile_cons_false (p : Bytes → Bool) (x : Bytes) (xs : List Bytes)
    (h : p x = false) : (x :: xs).takeWhile p = [] := by
  simp [List.takeWhile_cons, h]

/-- The continuation scan stops at the line list `rest` (it is empty or
its first line does not continue a multiline value). -/
def stopsScan (rest : List Bytes) : Prop :=
  match rest with
  | [] => True
  | l :: _ => contOK l = false

theorem takeWhile_stops (rest : List Bytes) (h : stopsScan rest) :
    rest.takeWhile contOK = [] := by
  match rest with
  | [] => rfl
  | l :: ls => exact takeWhile_cons_false contOK l ls h

theorem parseLines_entry (fuel : Nat) (n v : Bytes) (restLines : List Bytes) (acc : Headers)
    (hname : headerNameOK n = true) (hstop : stopsScan restLines) :
    parseLines (fuel + 1) (entryLines (n, v) ++ restLines) acc =
      parseLines fuel restLines (hput acc n v) := by
  have hcolon : ∀ b ∈ n, b ≠ 58 := headerNameOK_no_colon n hname
  by_cases hv : hasNl v = true
  · rw [entryLines_eq_multi n v hv]
    simp only [List.cons_append]
    simp only [parseLines]
    have hidx : idxByte (n ++ [58]) 58 = some n.length := by
      have : n ++ [58] = n ++ 58 :: [] := rfl
      rw [this, idxByte_append n 58 hcolon []]
    simp only [hidx]
    have htake : (n ++ [58]).take n.length = n := by
      rw [List.take_append_eq_append_take]
      simp
    rw [htake]
    rw [if_neg (by simp [hname])]
    have hlen : n.length + 1 = (n ++ [58]).length := by simp
    rw [if_pos hlen]
    obtain ⟨l, ls, hls⟩ := splitSep_head v
    have hmapcont : ∀ x ∈ (splitSep v).map (fun y => 32 :: y), contOK x = true := by
      intro x hx
      obtain ⟨y, _, rfl⟩ := List.mem_map.1 hx
      rfl
    have htw : ((splitSep v).map (fun y => 32 :: y) ++ restLines).takeWhile contOK =
        (splitSep v).map (fun y => 32 :: y) := by
      rw [takeWhile_append_all _ _ _ hmapcont, takeWhile_stops restLines hstop]
      simp
    rw [htw]
    have hlenpos : ((splitSep v).map (fun y => 32 :: y)).length ≠ 0 := by
      rw [hls]
      simp
    rw [if_neg hlenpos]
    have hdrop : ((splitSep v).map (fun y => 32 :: y) ++ restLines).drop
        ((splitSep v).map (fun y => 32 :: y)).length = restLines := by
      rw [List.drop_left]
    rw [hdrop]
    have hjoin : joinTails ((splitSep v).map (fun y => 32 :: y)) = v := by
      have h1 := joinTails_map_space (splitSep v) (splitSep_ne_nil v)
      rw [h1, intercalateB_splitSep]
    rw [hjoin]
  · rw [Bool.not_eq_true] at hv
    rw [entryLines_eq_single n v hv]
    simp only [List.cons_append, List.nil_append]
    simp only [parseLines]
    have hassoc : (n ++ [58, 32]) ++ v = n ++ 58 :: (32 :: v) := by simp
    rw [hassoc]
    simp only [idxByte_append n 58 hcolon (32 :: v)]
    have htake : (n ++ 58 :: (32 :: v)).take n.length = n := by
      rw [List.take_append_eq_append_take]
      simp
    rw [htake]
    rw [if_neg (by simp [hname])]
    have hlen : ¬ (n.length + 1 = (n ++ 58 :: (32 :: v)).length) := by
      simp
    rw [if_neg hlen]
    have hdrop1 : (n ++ 58 :: (32 :: v)).drop (n.length + 1) = 32 :: v := by
      have h1 : (n ++ 58 :: (32 :: v)).drop n.length = 58 :: (32 :: v) := List.drop_left _ _
      have h2 : (n ++ 58 :: (32 :: v)).drop (n.length + 1) =
          ((n ++ 58 :: (32 :: v)).drop n.length).drop 1 := by
        rw [List.drop_drop]
      rw [h2, h1]
      rfl
    rw [hdrop1]
    rw [if_neg (by simp)]
    have hdrop2 : (n ++ 58 :: (32 :: v)).drop (n.length + 2) = v := by
      have h1 : (n ++ 58 :: (32 :: v)).drop n.length = 58 :: (32 :: v) := List.drop_left _ _
      have h2 : (n ++ 58 :: (32 :: v)).drop (n.length + 2) =
          ((n ++ 58 :: (32 :: v)).drop n.length).drop 2 := by
        rw [List.drop_drop]
      rw [h2, h1]
      rfl
    rw [hdrop2]

theorem splitSep_serBlock (ps : List (Bytes × Bytes)) (hne : ps ≠ [])
    (hnames : ∀ p ∈ ps, headerNameOK p.1 = true) :
    splitSep (serBlock ps) = (ps.map entryLines).flatten := by
  induction ps with
  | nil => exact absurd rfl hne
  | cons p qs ih =>
    match qs with
    | [] =>
      rw [serBlock_one]
      have := splitSep_serEntry p.1 p.2 (headerNameOK_no_nl p.1 (hnames p (by simp)))
      simp only [List.map_cons, List.map_nil, List.flatten_cons, List.flatten_nil,
        List.append_nil]
      exact this
    | q :: qs' =>
      rw [serBlock_cons, splitSep_append]
      rw [splitSep_serEntry p.1 p.2 (headerNameOK_no_nl p.1 (hnames p (by simp)))]
      rw [ih (by simp) (fun r hr => hnames r (by simp [hr]))]
      simp

theorem flatten_entryLines_stops (qs : List (Bytes × Bytes))
    (hnames : ∀ p ∈ qs, headerNameOK p.1 = true) :
    stopsScan ((qs.map entryLines).flatten) := by
  match qs with
  | [] => trivial
  | q :: qs' =>
    obtain ⟨b0, lrest, lines, hq, hb1, _⟩ := entryLines_head_byte q (hnames q (by simp))
    show stopsScan ((entryLines q ++ (qs'.map entryLines).flatten))
    rw [hq]
    show contOK ((b0 :: lrest)) = false
    simp only [contOK]
    simp
    omega

theorem length_le_flatten_entryLines (ps : List (Bytes × Bytes)) :
    ps.length ≤ ((ps.map entryLines).flatten).length := by
  induction ps with
  | nil => simp
  | cons p qs ih =>
    simp only [List.map_cons, List.flatten_cons, List.length_append, List.length_cons]
    have h1 : 1 ≤ (entryLines p).length := by
      match hp : entryLines p with
      | [] => exact absurd hp (entryLines_ne_nil p)
      | l :: ls => simp
    omega

theorem parseLines_flat :
    ∀ (ps : List (Bytes × Bytes)) (fuel : Nat) (acc : Headers),
      (∀ p ∈ ps, headerNameOK p.1 = true) → ps.length < fuel →
      parseLines fuel ((ps.map entryLines).flatten) acc =
        .ok (ps.foldl (fun h p => hput h p.1 p.2) acc) := by
  intro ps
  induction ps with
  | nil =>
    intro fuel acc _ hfuel
    match fuel with
    | 0 => omega
    | f + 1 => simp [parseLines]
  | cons p qs ih =>
    intro fuel acc hnames hfuel
    match fuel with
    | 0 => omega
    | f + 1 =>
      simp only [List.map_cons, List.flatten_cons]
      have hp := hnames p (by simp)
      obtain ⟨n, v⟩ := p
      rw [parseLines_entry f n v _ acc hp
        (flatten_entryLines_stops qs (fun r hr => hnames r (by simp [hr])))]
      rw [ih f (hput acc n v) (fun r hr => hnames r (by simp [hr])) (by
        simp only [List.length_cons] at hfuel
        omega)]
      rfl

theorem utf8Valid_serEntry (n v : Bytes) (hname : headerNameOK n = true)
    (hval : utf8Valid v = true) : utf8Valid (serEntry (n, v)) = true := by
  have hn : utf8Valid n = true :=
    utf8Valid_ascii n (headerNameOK_ascii n hname)
  by_cases hv : hasNl v = true
  · rw [serEntry_eq_multi n v hv]
    apply utf8Valid_append
    · apply utf8Valid_append _ _ hn
      decide
    · have h1 : utf8Valid (replaceNl v) = true := utf8Valid_replaceNl v hval
      have h2 : (10 : Nat) ≤ 127 := by omega
      have h3 : (32 : Nat) ≤ 127 := by omega
      rw [utf8Valid_ne_nil_eq _ (by simp)]
      have hc : utf8ChunkLen (10 :: 32 :: replaceNl v) = some 1 := by
        rw [utf8ChunkLen_cons, if_pos h2]
      rw [hc]
      show utf8Valid (32 :: replaceNl v) = true
      rw [utf8Valid_ne_nil_eq _ (by simp)]
      have hc2 : utf8ChunkLen (32 :: replaceNl v) = some 1 := by
        rw [utf8ChunkLen_cons, if_pos h3]
      rw [hc2]
      exact h1
  · rw [Bool.not_eq_true] at hv
    rw [serEntry_eq_single n v hv]
    apply utf8Valid_append
    · apply utf8Valid_append _ _ hn
      decide
    · exact hval

theorem utf8Valid_serBlock (ps : List (Bytes × Bytes))
    (hnames : ∀ p ∈ ps, headerNameOK p.1 = true)
    (hvals : ∀ p ∈ ps, utf8Valid p.2 = true) :
    utf8Valid (serBlock ps) = true := by
  induction ps with
  | nil => rfl
  | cons p qs ih =>
    have hp : utf8Valid (serEntry p) = true := by
      obtain ⟨n, v⟩ := p
      exact utf8Valid_serEntry n v (hnames (n, v) (by simp)) (hvals (n, v) (by simp))
    match qs with
    | [] =>
      rw [serBlock_one]
      exact hp
    | q :: qs' =>
      rw [serBlock_cons]
      apply utf8Valid_append _ _ hp
      have h10 : utf8Valid (10 :: serBlock (q :: qs')) = true := by
        rw [utf8Valid_ne_nil_eq _ (by simp)]
        have hc : utf8ChunkLen (10 :: serBlock (q :: qs')) = some 1 := by
          rw [utf8ChunkLen_cons, if_pos (by omega : (10 : Nat) ≤ 127)]
        rw [hc]
        show utf8Valid (serBlock (q :: qs')) = true
        exact ih (fun r hr => hnames r (by simp [hr])) (fun r hr => hvals r (by simp [hr]))
      exact h10

theorem parseHeaders_serBlock (ps : List (Bytes × Bytes)) (hne : ps ≠ [])
    (hnames : ∀ p ∈ ps, headerNameOK p.1 = true)
    (hvals : ∀ p ∈ ps, utf8Valid p.2 = true) :
    parseHeaders (serBlock ps) = .ok (ps.foldl (fun h p => hput h p.1 p.2) []) := by
  unfold parseHeaders
  rw [if_neg (by simp [utf8Valid_serBlock ps hnames hvals])]
  rw [splitSep_serBlock ps hne hnames]
  apply parseLines_flat ps _ [] hnames
  have h1 := length_le_flatten_entryLines ps
  omega

/-! ## The canonical header block as a serialized block -/

/-- The pairs written for a list of names, with values looked up in the
final header map. -/
def pairsOf (fh : Headers) (names : List Bytes) : List (Bytes × Bytes) :=
  names.map (fun n => (n, hget fh n))

/-- The names `assembleAndSign` writes after `type`, in order. -/
def canonNames (t : AssertionType) (fh3 : Headers) (revision : Int) (bodyLength : Nat) :
    List Bytes :=
  [authStr] ++ (if 0 < revision then [revStr] else []) ++ t.primaryKey
  ++ otherKeysOf t fh3 ++ (if 0 < bodyLength then [blStr] else [])

theorem serBlock_cons_flatten (p : Bytes × Bytes) (ps : List (Bytes × Bytes)) :
    serBlock (p :: ps) = serEntry p ++ ((ps.map (fun q => 10 :: serEntry q)).flatten) := by
  unfold serBlock
  rw [List.map_cons, intercalateB_cons_flatten]
  rw [List.map_map]
  rfl

theorem flatten_wh (fh : Headers) (names : List Bytes) :
    (((pairsOf fh names).map (fun q => 10 :: serEntry q)).flatten) =
      ((names.map (writeHeader fh)).flatten) := by
  unfold pairsOf
  rw [List.map_map]
  congr 1
  apply List.map_congr_left
  intro n _
  exact (writeHeader_eq fh n).symm

theorem strB_type_colon : strB "type: " = typeStr ++ [58, 32] := by decide

theorem headBlockOf_eq_serBlock (t : AssertionType) (fh3 : Headers) (rev : Int) (L : Nat)
    (hnm : hasNl t.name = false) :
    headBlockOf t fh3 rev L =
      serBlock ((typeStr, t.name) :: pairsOf fh3 (canonNames t fh3 rev L)) := by
  rw [serBlock_cons_flatten, flatten_wh, serEntry_eq_single _ _ hnm]
  unfold headBlockOf canonNames
  rw [strB_type_colon]
  by_cases hrev : 0 < rev <;> by_cases hl : 0 < L <;>
    simp [hrev, hl, List.map_append, List.flatten_append, List.append_assoc]

theorem hfind?_parse_pairs (fh : Headers) :
    ∀ (names : List Bytes) (acc : Headers) (m : Bytes),
      hfind? ((pairsOf fh names).foldl (fun h p => hput h p.1 p.2) acc) m =
        (if m ∈ names then some (hget fh m) else hfind? acc m) := by
  intro names
  induction names with
  | nil =>
    intro acc m
    simp [pairsOf]
  | cons n ns ih =>
    intro acc m
    show hfind? ((pairsOf fh ns).foldl (fun h p => hput h p.1 p.2) (hput acc n (hget fh n))) m
      = _
    rw [ih]
    by_cases hm : m ∈ ns
    · rw [if_pos hm, if_pos (by simp [hm])]
    · rw [if_neg hm]
      by_cases hmn : m = n
      · subst hmn
        rw [hfind?_hput_self, if_pos (by simp)]
      · rw [hfind?_hput_ne acc n _ m hmn, if_neg (by simp [hm, hmn])]

/-! ## Registry facts -/

theorem TypeOf_mem (t : AssertionType) (n : Bytes) (h : TypeOf n = some t) :
    t ∈ typeRegistry :=
  List.mem_of_find?_eq_some h

theorem registry_facts : ∀ t ∈ typeRegistry,
    hasNl t.name = false ∧ utf8Valid t.name = true ∧ t.name ≠ [] ∧
    t.primaryKey.Nodup ∧
    ∀ k ∈ t.primaryKey, headerNameOK k = true ∧ k ∉ bookkeeping := by
  decide

theorem bookkeeping_names_ok :
    headerNameOK typeStr = true ∧ headerNameOK authStr = true ∧
    headerNameOK revStr = true ∧ headerNameOK blStr = true := by
  decide

theorem bookkeeping_distinct :
    typeStr ≠ authStr ∧ typeStr ≠ revStr ∧ typeStr ≠ blStr ∧
    authStr ≠ revStr ∧ authStr ≠ blStr ∧ revStr ≠ blStr := by
  decide

/-! ## Inversion lemmas for the validation helpers -/

theorem checkAssertType_ok (t : AssertionType) (h : checkAssertType t = .ok ()) :
    TypeOf t.name = some t := by
  unfold checkAssertType at h
  match ht : TypeOf t.name with
  | none => simp [ht] at h
  | some t' =>
    rw [ht] at h
    have h2 : (if t' = t then (Except.ok () : Except Err Unit)
        else .error .unknownAssertType) = .ok () := h
    by_cases he : t' = t
    · rw [he]
    · rw [if_neg he] at h2
      simp at h2

theorem checkNotEmpty_ok (headers : Headers) (name v : Bytes)
    (h : checkNotEmpty headers name = .ok v) :
    hfind? headers name = some v ∧ v ≠ [] := by
  unfold checkNotEmpty at h
  match hf : hfind? headers name with
  | none => simp [hf] at h
  | some w =>
    rw [hf] at h
    have h2 : (if w = [] then (Except.error Err.emptyHeader : Except Err Bytes)
        else .ok w) = .ok v := h
    by_cases hw : w = []
    · rw [if_pos hw] at h2
      simp at h2
    · rw [if_neg hw] at h2
      injection h2 with h3
      subst h3
      exact ⟨rfl, hw⟩

theorem checkInteger_ok (headers : Headers) (name : Bytes) (defl i : Int)
    (h : checkInteger headers name defl = .ok i) :
    (hfind? headers name = none ∧ i = defl) ∨
    (∃ v, hfind? headers name = some v ∧ parseIntB v = some i) := by
  unfold checkInteger at h
  match hf : hfind? headers name with
  | none =>
    rw [hf] at h
    have h2 : (Except.ok defl : Except Err Int) = .ok i := h
    injection h2 with h3
    exact Or.inl ⟨rfl, h3.symm⟩
  | some v =>
    rw [hf] at h
    have h2 : (match parseIntB v with
      | none => (Except.error Err.notInteger : Except Err Int)
      | some n => .ok n) = .ok i := h
    match hp : parseIntB v with
    | none =>
      rw [hp] at h2
      simp at h2
    | some j =>
      rw [hp] at h2
      have h4 : (Except.ok j : Except Err Int) = .ok i := h2
      injection h4 with h5
      exact Or.inr ⟨v, rfl, by rw [hp, h5]⟩

theorem checkRevision_ok (headers : Headers) (rev : Int)
    (h : checkRevision headers = .ok rev) :
    checkInteger headers revStr 0 = .ok rev ∧ 0 ≤ rev := by
  unfold checkRevision at h
  match hc : checkInteger headers revStr 0 with
  | .error e => simp [hc] at h
  | .ok j =>
    rw [hc] at h
    have h2 : (if j < 0 then (Except.error Err.negativeRevision : Except Err Int)
        else .ok j) = .ok rev := h
    by_cases hj : j < 0
    · rw [if_pos hj] at h2
      simp at h2
    · rw [if_neg hj] at h2
      injection h2 with h3
      subst h3
      exact ⟨rfl, by omega⟩

theorem checkPrimaryKey_ok (headers : Headers) (name v : Bytes)
    (h : checkPrimaryKey headers name = .ok v) :
    hfind? headers name = some v ∧ v ≠ [] ∧ v.contains 47 = false := by
  unfold checkPrimaryKey at h
  match hf : hfind? headers name with
  | none => simp [hf] at h
  | some w =>
    rw [hf] at h
    have h2 : (if w = [] then (Except.error Err.primaryKeyMissing : Except Err Bytes)
        else if w.contains 47 then .error .primaryKeySlash else .ok w) = .ok v := h
    by_cases hw : w = []
    · rw [if_pos hw] at h2
      simp at h2
    · rw [if_neg hw] at h2
      by_cases hcc : w.contains 47 = true
      · rw [if_pos hcc] at h2
        simp at h2
      · rw [if_neg hcc] at h2
        injection h2 with h3
        subst h3
        exact ⟨rfl, hw, by simpa using hcc⟩

theorem checkPrimaryKey_of (headers : Headers) (name v : Bytes)
    (hf : hfind? headers name = some v) (hne : v ≠ []) (hc : v.contains 47 = false) :
    checkPrimaryKey headers name = .ok v := by
  unfold checkPrimaryKey
  rw [hf]
  show (if v = [] then (Except.error Err.primaryKeyMissing : Except Err Bytes)
    else if v.contains 47 then .error .primaryKeySlash else .ok v) = .ok v
  rw [if_neg hne, if_neg (by rw [hc]; simp)]

theorem checkPrimaryKeys_ok (primKeys : List Bytes) (headers : Headers)
    (h : checkPrimaryKeys primKeys headers = .ok ()) :
    ∀ k ∈ primKeys, ∃ v, hfind? headers k = some v ∧ v ≠ [] ∧ v.contains 47 = false := by
  induction primKeys with
  | nil => simp
  | cons k ks ih =>
    simp only [checkPrimaryKeys] at h
    match hc : checkPrimaryKey headers k with
    | .error e => simp [hc] at h
    | .ok v =>
      rw [hc] at h
      have h2 : checkPrimaryKeys ks headers = .ok () := h
      intro k' hk'
      rcases List.mem_cons.1 hk' with rfl | hk'
      · exact ⟨v, checkPrimaryKey_ok headers k' v hc⟩
      · exact ih h2 k' hk'

theorem checkPrimaryKeys_of (primKeys : List Bytes) (headers : Headers)
    (h : ∀ k ∈ primKeys, ∃ v, hfind? headers k = some v ∧ v ≠ [] ∧ v.contains 47 = false) :
    checkPrimaryKeys primKeys headers = .ok () := by
  induction primKeys with
  | nil => rfl
  | cons k ks ih =>
    obtain ⟨v, hf, hne, hc⟩ := h k (by simp)
    simp only [checkPrimaryKeys]
    rw [checkPrimaryKey_of headers k v hf hne hc]
    exact ih (fun k' hk' => h k' (by simp [hk']))

/-! ## Lookup structure of the forced header maps -/

theorem fh2_find (t : AssertionType) (hdrs : Headers) (body : Bytes) (m : Bytes) :
    hfind? (finalHeadersPre t hdrs body) m =
      (if m = blStr then some (natToBytes body.length)
       else if m = typeStr then some t.name
       else hfind? hdrs m) := by
  unfold finalHeadersPre
  by_cases hbl : m = blStr
  · subst hbl
    rw [hfind?_hput_self, if_pos rfl]
  · rw [hfind?_hput_ne _ _ _ _ hbl, if_neg hbl]
    by_cases hty : m = typeStr
    · subst hty
      rw [hfind?_hput_self, if_pos rfl]
    · rw [hfind?_hput_ne _ _ _ _ hty, if_neg hty]

theorem fh3_find (fh2 : Headers) (rev : Int) (m : Bytes) :
    hfind? (finalHeadersRev fh2 rev) m =
      (if 0 < rev then hfind? fh2 m
       else if m = revStr then none else hfind? fh2 m) := by
  unfold finalHeadersRev
  by_cases hrev : 0 < rev
  · rw [if_pos hrev, if_pos hrev]
  · rw [if_neg hrev, if_neg hrev]
    by_cases hm : m = revStr
    · subst hm
      rw [hfind?_hdel_self, if_pos rfl]
    · rw [hfind?_hdel_ne _ _ _ hm, if_neg hm]

/-! ## Position of the separators in an encoded assertion -/

theorem occursAt_within (s : Bytes) (extra : Bytes) (p : Nat)
    (hocc : occursAt (s ++ extra) nlnl p) (hp : p + 2 ≤ s.length) :
    occursAt s nlnl p := by
  obtain ⟨u, hu⟩ := hocc
  have hdrop : (s ++ extra).drop p = s.drop p ++ extra := by
    rw [List.drop_append_of_le_length (by omega)]
  rw [hdrop] at hu
  have hlen : 2 ≤ (s.drop p).length := by
    rw [List.length_drop]
    omega
  match hd : s.drop p with
  | [] => rw [hd] at hlen; simp at hlen
  | [x] => rw [hd] at hlen; simp at hlen
  | x :: y :: rest =>
    rw [hd] at hu
    simp only [nlnl, List.cons_append] at hu
    injection hu with h1 hu
    injection hu with h2 _
    exact ⟨rest, by rw [hd, h1, h2]; rfl⟩

theorem no_nlnl_in_pad (sig : Bytes)
    (hsub : hasSubB nlnl sig = false) (hlast : sig.getLast? ≠ some 10) :
    ∀ p, ¬ occursAt (sig ++ [10]) nlnl p := by
  intro p hocc
  by_cases h1 : p + 2 ≤ sig.length
  · exact hasSubB_false nlnl sig hsub p (occursAt_within sig [10] p hocc h1)
  · obtain ⟨u, hu⟩ := hocc
    have hlen := congrArg List.length hu
    simp only [List.length_drop, List.length_append, nlnl, List.length_cons,
      List.length_nil] at hlen
    have hp : p + 1 = sig.length := by omega
    have hdrop : (sig ++ [10]).drop p = sig.drop p ++ [10] := by
      rw [List.drop_append_of_le_length (by omega)]
    rw [hdrop] at hu
    have hdl : (sig.drop p).length = 1 := by
      rw [List.length_drop]
      omega
    match hd : sig.drop p with
    | [] => rw [hd] at hdl; simp at hdl
    | [x] =>
      rw [hd] at hu
      simp only [nlnl, List.cons_append, List.nil_append] at hu
      injection hu with h1 hu
      subst h1
      have : sig.getLast? = some 10 := by
        have hsplit : sig = sig.take p ++ [10] := by
          have := List.take_append_drop p sig
          rw [hd] at this
          exact this.symm
        rw [hsplit]
        simp
      exact hlast this
    | x :: y :: rest =>
      rw [hd] at hdl
      simp at hdl

theorem bLastIndex_encode (content sig2 : Bytes)
    (hhead : sig2.head? ≠ some 10)
    (hnone : ∀ p, ¬ occursAt sig2 nlnl p) :
    bLastIndex nlnl (content ++ nlnl ++ sig2) = some content.length := by
  have hassoc : content ++ nlnl ++ sig2 = content ++ (nlnl ++ sig2) := by simp
  rw [hassoc]
  apply bLastIndex_last
  · refine ⟨sig2, ?_⟩
    rw [List.drop_left]
  · intro j hocc
    by_cases hj : j ≤ content.length
    · exact hj
    · exfalso
      obtain ⟨u, hu⟩ := hocc
      have hdrop : (content ++ (nlnl ++ sig2)).drop j =
          (nlnl ++ sig2).drop (j - content.length) := by
        rw [List.drop_append_eq_append_drop]
        rw [List.drop_eq_nil_of_le (by omega), List.nil_append]
      rw [hdrop] at hu
      match hk : j - content.length, hu with
      | 1, hu =>
        simp only [nlnl, List.cons_append, List.drop_succ_cons, List.drop_zero,
          List.nil_append] at hu
        match sig2, hu with
        | c :: rest, hu =>
          injection hu with hu1 hu2
          injection hu2 with hu2 _
          rw [hu2] at hhead
          simp at hhead
      | k + 2, hu =>
        have : occursAt sig2 nlnl k := by
          refine ⟨u, ?_⟩
          have : (nlnl ++ sig2).drop (k + 2) = sig2.drop k := by
            simp [nlnl]
          rw [this] at hu
          exact hu
        exact hnone k this
      | 0, hu => omega

theorem bIndex_head_sep (head rest : Bytes)
    (hsub : hasSubB nlnl head = false) (hlast : head.getLast? ≠ some 10) :
    bIndex nlnl (head ++ nlnl ++ rest) = some head.length := by
  have hassoc : head ++ nlnl ++ rest = head ++ (nlnl ++ rest) := by simp
  rw [hassoc]
  apply bIndex_first
  · refine ⟨rest, ?_⟩
    rw [List.drop_left]
  · intro j hj hocc
    by_cases h1 : j + 2 ≤ head.length
    · exact hasSubB_false nlnl head hsub j (occursAt_within head (nlnl ++ rest) j hocc h1)
    · have hp : j + 1 = head.length := by omega
      obtain ⟨u, hu⟩ := hocc
      have hdrop : (head ++ (nlnl ++ rest)).drop j = head.drop j ++ (nlnl ++ rest) := by
        rw [List.drop_append_of_le_length (by omega)]
      rw [hdrop] at hu
      have hdl : (head.drop j).length = 1 := by
        rw [List.length_drop]
        omega
      match hd : head.drop j with
      | [] => rw [hd] at hdl; simp at hdl
      | [x] =>
        rw [hd] at hu
        simp only [nlnl, List.cons_append, List.nil_append] at hu
        injection hu with h1 hu
        subst h1
        have : head.getLast? = some 10 := by
          have hsplit : head = head.take j ++ [10] := by
            have := List.take_append_drop j head
            rw [hd] at this
            exact this.symm
          rw [hsplit]
          simp
        exact hlast this
      | x :: y :: r2 =>
        rw [hd] at hdl
        simp at hdl

theorem bIndex_none_of_hasSub (s : Bytes) (h : hasSubB nlnl s = false) :
    bIndex nlnl s = none := by
  match hb : bIndex nlnl s with
  | none => rfl
  | some i => rw [hasSubB, hb] at h; simp at h

/-! ## Inversion of assembleAndSign -/

theorem assembleAndSign_ok (t : AssertionType) (hdrs : Headers) (body : Bytes)
    (key : PrivateKey) (a : Assertion) (h : assembleAndSign t hdrs body key = .ok a) :
    ∃ revision sig av,
      TypeOf t.name = some t ∧
      checkNotEmpty (finalHeadersPre t hdrs body) authStr = .ok av ∧
      checkRevision (finalHeadersPre t hdrs body) = .ok revision ∧
      checkPrimaryKeys t.primaryKey
        (finalHeadersRev (finalHeadersPre t hdrs body) revision) = .ok () ∧
      signContent
        (contentOf t (finalHeadersRev (finalHeadersPre t hdrs body) revision) revision body)
        key = some sig ∧
      a = ⟨(if 0 < body.length then finalHeadersRev (finalHeadersPre t hdrs body) revision
            else hdel (finalHeadersRev (finalHeadersPre t hdrs body) revision) blStr),
           (if 0 < body.length then body else []), revision,
           contentOf t (finalHeadersRev (finalHeadersPre t hdrs body) revision) revision body,
           sig ++ nl⟩ := by
  unfold assembleAndSign at h
  split at h
  · simp at h
  rename_i u hct
  dsimp only at h
  split at h
  · simp at h
  rename_i av hne
  split at h
  · simp at h
  rename_i revision hrev
  split at h
  · simp at h
  rename_i upk hpk
  split at h
  · simp at h
  rename_i sig hsig
  unfold assembler at h
  injection h with h2
  refine ⟨revision, sig, av, checkAssertType_ok t (by cases u; exact hct), hne, hrev, ?_, hsig, h2.symm⟩
  cases upk
  exact hpk

/-! ## Key-set structure of the forced header maps -/

theorem otherKeysOf_mem (t : AssertionType) (fh : Headers) (n : Bytes) :
    n ∈ otherKeysOf t fh ↔ (n ∈ hkeys fh ∧ n ∉ bookkeeping ∧ n ∉ t.primaryKey) := by
  unfold otherKeysOf
  rw [sortBytes_mem, List.mem_filter]
  simp only [decide_eq_true_eq, not_or]

theorem fh3_keys_nodup (t : AssertionType) (hdrs : Headers) (body : Bytes) (rev : Int)
    (hnd : (hkeys hdrs).Nodup) :
    (hkeys (finalHeadersRev (finalHeadersPre t hdrs body) rev)).Nodup := by
  have h2 : (hkeys (finalHeadersPre t hdrs body)).Nodup := by
    unfold finalHeadersPre
    exact hkeys_nodup_hput _ _ _ (hkeys_nodup_hput _ _ _ hnd)
  unfold finalHeadersRev
  by_cases hrev : 0 < rev
  · rw [if_pos hrev]
    exact h2
  · rw [if_neg hrev]
    exact hkeys_nodup_hdel _ _ h2

theorem otherKeysOf_sorted (t : AssertionType) (fh : Headers) (hnd : (hkeys fh).Nodup) :
    (otherKeysOf t fh).Pairwise (fun x y => bytesLt x y = true) := by
  unfold otherKeysOf
  exact sortBytes_sorted_lt _ (hnd.filter _)

/-- C3 helper: body nonemptiness as used by the spec sentence. -/
theorem pos_length_iff_ne_nil (body : Bytes) : 0 < body.length ↔ body ≠ [] := by
  cases body <;> simp

/-- Claim C3: `assembleAndSign` writes `type` first with no leading
newline, then `authority-id`, then `revision` exactly when the revision
is positive, then the primary keys in declared order, then the
remaining non-bookkeeping non-primary-key headers in strictly
increasing lexicographic order, then `body-length` and the body section
exactly when the body is nonempty. -/
theorem c3_canonical_header_order
    (t : AssertionType) (hdrs : Headers) (body : Bytes) (key : PrivateKey) (a : Assertion)
    (hnd : (hkeys hdrs).Nodup)
    (hok : assembleAndSign t hdrs body key = .ok a) :
    ∃ (revision : Int) (others : List Bytes),
      checkRevision (finalHeadersPre t hdrs body) = .ok revision ∧
      a.content =
        strB "type: " ++ t.name
        ++ writeHeader (finalHeadersRev (finalHeadersPre t hdrs body) revision) authStr
        ++ (if 0 < revision then
              writeHeader (finalHeadersRev (finalHeadersPre t hdrs body) revision) revStr
            else [])
        ++ (t.primaryKey.map
              (writeHeader (finalHeadersRev (finalHeadersPre t hdrs body) revision))).flatten
        ++ (others.map
              (writeHeader (finalHeadersRev (finalHeadersPre t hdrs body) revision))).flatten
        ++ (if body ≠ [] then
              writeHeader (finalHeadersRev (finalHeadersPre t hdrs body) revision) blStr
            else [])
        ++ (if body ≠ [] then nlnl ++ body else []) ∧
      List.Pairwise (fun x y => bytesLt x y = true) others ∧
      (∀ n, n ∈ others ↔ (n ∈ hkeys a.headers ∧ n ∉ bookkeeping ∧ n ∉ t.primaryKey)) := by
  obtain ⟨revision, sig, av, hT, hne, hrev, hpk, hsig, ha⟩ :=
    assembleAndSign_ok t hdrs body key a hok
  refine ⟨revision, otherKeysOf t (finalHeadersRev (finalHeadersPre t hdrs body) revision),
    hrev, ?_, ?_, ?_⟩
  · rw [ha]
    show contentOf t _ revision body = _
    unfold contentOf headBlockOf
    by_cases hb : body = []
    · subst hb
      simp
    · have hb' : 0 < body.length := by
        cases body
        · exact absurd rfl hb
        · simp
      simp [hb', hb, List.append_assoc]
  · exact otherKeysOf_sorted t _ (fh3_keys_nodup t hdrs body revision hnd)
  · intro n
    rw [otherKeysOf_mem]
    constructor
    · rintro ⟨h1, h2, h3⟩
      refine ⟨?_, h2, h3⟩
      rw [ha]
      show n ∈ hkeys (if 0 < body.length then _ else hdel _ blStr)
      by_cases hb : 0 < body.length
      · rw [if_pos hb]
        exact h1
      · rw [if_neg hb]
        rw [hkeys_hdel]
        refine ⟨?_, h1⟩
        intro hbl
        subst hbl
        exact h2 (by unfold bookkeeping; simp)
    · rintro ⟨h1, h2, h3⟩
      refine ⟨?_, h2, h3⟩
      rw [ha] at h1
      revert h1
      show n ∈ hkeys (if 0 < body.length then _ else hdel _ blStr) → _
      by_cases hb : 0 < body.length
      · rw [if_pos hb]
        exact id
      · rw [if_neg hb]
        rw [hkeys_hdel]
        rintro ⟨_, hmem⟩
        exact hmem

/-! ## Small lookup helpers -/

theorem hfind?_mem (h : Headers) (m v : Bytes) (hf : hfind? h m = some v) : (m, v) ∈ h := by
  induction h with
  | nil => simp [hfind?] at hf
  | cons p r ih =>
    obtain ⟨k, w⟩ := p
    simp only [hfind?] at hf
    by_cases hk : k = m
    · rw [if_pos hk] at hf
      injection hf with hf'
      subst hk
      subst hf'
      simp
    · rw [if_neg hk] at hf
      simp [ih hf]

theorem mem_keys_exists (h : Headers) (n : Bytes) (hn : n ∈ hkeys h) :
    ∃ v, (n, v) ∈ h := by
  unfold hkeys at hn
  obtain ⟨⟨k, v⟩, hmem, hk⟩ := List.mem_map.1 hn
  subst hk
  exact ⟨v, hmem⟩

theorem head?_append_ne_nil (sig : Bytes) (h : sig ≠ []) (x : Bytes) :
    (sig ++ x).head? = sig.head? := by
  match sig with
  | [] => exact absurd rfl h
  | b :: r => rfl

theorem take_encode (content rest : Bytes) :
    (content ++ rest).take content.length = content := by
  rw [List.take_append_eq_append_take]
  simp

theorem drop_encode (content sig2 : Bytes) :
    (content ++ nlnl ++ sig2).drop (content.length + 2) = sig2 := by
  have hassoc : content ++ nlnl ++ sig2 = content ++ (nlnl ++ sig2) := by simp
  rw [hassoc]
  have h1 : (content ++ (nlnl ++ sig2)).drop (content.length + 2) =
      ((content ++ (nlnl ++ sig2)).drop content.length).drop 2 := by
    rw [List.drop_drop]
  rw [h1, List.drop_left]
  rfl

/-! ## Constructive assembly -/

theorem Assemble_of (headers : Headers) (body content signature : Bytes)
    (t : AssertionType) (revision : Int) (av tv : Bytes)
    (hbl : checkInteger headers blStr 0 = .ok (body.length : Int))
    (hau : checkNotEmpty headers authStr = .ok av)
    (hty : checkNotEmpty headers typeStr = .ok tv)
    (hT : TypeOf tv = some t)
    (hpk : checkPrimaryKeys t.primaryKey headers = .ok ())
    (hrev : checkRevision headers = .ok revision)
    (hsg : signature ≠ []) :
    Assemble headers body content signature =
      .ok ⟨headers, body, revision, content, signature⟩ := by
  unfold Assemble
  split
  · rename_i e heq
    rw [hbl] at heq
    simp at heq
  rename_i length heq
  rw [hbl] at heq
  injection heq with heq'
  subst heq'
  rw [if_neg (by simp)]
  split
  · rename_i e heq
    rw [hau] at heq
    simp at heq
  rename_i av' heq
  split
  · rename_i e heq
    rw [hty] at heq
    simp at heq
  rename_i tv' heq
  rw [hty] at heq
  injection heq with heq'
  subst heq'
  split
  · rename_i heq
    rw [hT] at heq
    simp at heq
  rename_i t' heq
  rw [hT] at heq
  injection heq with heq'
  subst heq'
  split
  · rename_i e heq
    rw [hpk] at heq
    simp at heq
  rename_i u heq
  split
  · rename_i e heq
    rw [hrev] at heq
    simp at heq
  rename_i revision' heq
  rw [hrev] at heq
  injection heq with heq'
  subst heq'
  rw [if_neg (by simp [hsg])]
  rfl

/-! ## Constructive forms of the validation helpers -/

theorem checkNotEmpty_of (headers : Headers) (name v : Bytes)
    (hf : hfind? headers name = some v) (hne : v ≠ []) :
    checkNotEmpty headers name = .ok v := by
  unfold checkNotEmpty
  rw [hf]
  show (if v = [] then (Except.error Err.emptyHeader : Except Err Bytes) else .ok v) = .ok v
  rw [if_neg hne]

theorem checkInteger_of_some (headers : Headers) (name : Bytes) (defl : Int) (v : Bytes)
    (i : Int) (hf : hfind? headers name = some v) (hp : parseIntB v = some i) :
    checkInteger headers name defl = .ok i := by
  unfold checkInteger
  rw [hf]
  show (match parseIntB v with
    | none => (Except.error Err.notInteger : Except Err Int)
    | some n => .ok n) = .ok i
  rw [hp]

theorem checkInteger_of_none (headers : Headers) (name : Bytes) (defl : Int)
    (hf : hfind? headers name = none) :
    checkInteger headers name defl = .ok defl := by
  unfold checkInteger
  rw [hf]

theorem checkRevision_of (headers : Headers) (rev : Int)
    (hci : checkInteger headers revStr 0 = .ok rev) (hnn : 0 ≤ rev) :
    checkRevision headers = .ok rev := by
  unfold checkRevision
  rw [hci]
  show (if rev < 0 then (Except.error Err.negativeRevision : Except Err Int)
    else .ok rev) = .ok rev
  rw [if_neg (by omega)]

/-! ## Point lookups in the forced header maps -/

theorem hfind3_bl (t : AssertionType) (hdrs : Headers) (body : Bytes) (rev : Int) :
    hfind? (finalHeadersRev (finalHeadersPre t hdrs body) rev) blStr =
      some (natToBytes body.length) := by
  rw [fh3_find]
  by_cases hrev : 0 < rev
  · rw [if_pos hrev, fh2_find, if_pos rfl]
  · rw [if_neg hrev, if_neg (by decide), fh2_find, if_pos rfl]

theorem hfind3_type (t : AssertionType) (hdrs : Headers) (body : Bytes) (rev : Int) :
    hfind? (finalHeadersRev (finalHeadersPre t hdrs body) rev) typeStr = some t.name := by
  rw [fh3_find]
  by_cases hrev : 0 < rev
  · rw [if_pos hrev, fh2_find, if_neg (by decide), if_pos rfl]
  · rw [if_neg hrev, if_neg (by decide), fh2_find, if_neg (by decide), if_pos rfl]

theorem hfind3_other (t : AssertionType) (hdrs : Headers) (body : Bytes) (rev : Int)
    (m : Bytes) (hm1 : m ≠ blStr) (hm2 : m ≠ typeStr) (hm3 : m ≠ revStr) :
    hfind? (finalHeadersRev (finalHeadersPre t hdrs body) rev) m = hfind? hdrs m := by
  rw [fh3_find]
  by_cases hrev : 0 < rev
  · rw [if_pos hrev, fh2_find, if_neg hm1, if_neg hm2]
  · rw [if_neg hrev, if_neg hm3, fh2_find, if_neg hm1, if_neg hm2]

theorem hfind3_rev (t : AssertionType) (hdrs : Headers) (body : Bytes) (rev : Int)
    (hrev : 0 < rev) :
    hfind? (finalHeadersRev (finalHeadersPre t hdrs body) rev) revStr =
      hfind? hdrs revStr := by
  rw [fh3_find, if_pos hrev, fh2_find, if_neg (by decide), if_neg (by decide)]

theorem fh3_keys_src (t : AssertionType) (hdrs : Headers) (body : Bytes) (rev : Int)
    (m : Bytes) (hm : m ∈ hkeys (finalHeadersRev (finalHeadersPre t hdrs body) rev)) :
    m = blStr ∨ m = typeStr ∨ m ∈ hkeys hdrs := by
  by_cases h1 : m = blStr
  · exact Or.inl h1
  by_cases h2 : m = typeStr
  · exact Or.inr (Or.inl h2)
  refine Or.inr (Or.inr ?_)
  by_cases h3 : m = revStr
  · subst h3
    have hs := (hfind?_mem_keys _ _).2 hm
    rw [fh3_find] at hs
    by_cases hrev : 0 < rev
    · rw [if_pos hrev, fh2_find, if_neg h1, if_neg h2] at hs
      exact (hfind?_mem_keys _ _).1 hs
    · rw [if_neg hrev, if_pos rfl] at hs
      simp at hs
  · have hs := (hfind?_mem_keys _ _).2 hm
    rw [hfind3_other t hdrs body rev m h1 h2 h3] at hs
    exact (hfind?_mem_keys _ _).1 hs

/-! ## Membership in the canonical name list -/

theorem canonNames_mem (t : AssertionType) (fh3 : Headers) (rev : Int) (L : Nat)
    (n : Bytes) :
    n ∈ canonNames t fh3 rev L ↔
      n = authStr ∨ (0 < rev ∧ n = revStr) ∨ n ∈ t.primaryKey ∨
      n ∈ otherKeysOf t fh3 ∨ (0 < L ∧ n = blStr) := by
  unfold canonNames
  by_cases hrev : 0 < rev <;> by_cases hl : 0 < L <;>
    simp [hrev, hl]

theorem hget_of_find (h : Headers) (n v : Bytes) (hf : hfind? h n = some v) :
    hget h n = v := by
  rw [hget_eq, hf]
  rfl

theorem head?_ne_nl (s : Bytes) (h : ∀ b ∈ s, b ≠ 10) : s.head? ≠ some 10 := by
  match s with
  | [] => simp
  | b :: r =>
    simp only [List.head?]
    intro hb
    injection hb with hb'
    exact h b (by simp) hb'

theorem take_encode3 (c x y : Bytes) : (c ++ x ++ y).take c.length = c := by
  rw [List.append_assoc]
  exact take_encode c (x ++ y)

/-- Stepping `Decode` on an input already split into its parts. -/
theorem Decode_steps (s C S HB B : Bytes) (headers : Headers)
    (hbl : bLastIndex nlnl s = some C.length)
    (htk : s.take C.length = C) (hdr : s.drop (C.length + 2) = S)
    (hbi : (bIndex nlnl C = none ∧ HB = C ∧ B = []) ∨
           ∃ j, bIndex nlnl C = some j ∧ C.take j = HB ∧ C.drop (j + 2) = B)
    (hp : parseHeaders HB = .ok headers) :
    Decode s = Assemble headers B C S := by
  unfold Decode
  split
  · rename_i heq
    rw [hbl] at heq
    exact Option.noConfusion heq
  rename_i i heq
  rw [hbl] at heq
  injection heq with heq'
  subst heq'
  dsimp only
  rw [htk, hdr]
  rcases hbi with ⟨hnone, hHB, hB⟩ | ⟨j, hsome, hHB, hB⟩
  · subst hHB
    subst hB
    rw [hnone]
    dsimp only
    rw [hp]
  · rw [hsome]
    dsimp only
    rw [hHB, hB, hp]

/-- Lookup in the header map produced by parsing the canonical block. -/
theorem parsed_lookup (t : AssertionType) (fh3 : Headers) (rev : Int) (L : Nat)
    (htv : hget fh3 typeStr = t.name) (m : Bytes) :
    hfind? (((typeStr, t.name) :: pairsOf fh3 (canonNames t fh3 rev L)).foldl
        (fun h p => hput h p.1 p.2) []) m =
      if m ∈ typeStr :: canonNames t fh3 rev L then some (hget fh3 m) else none := by
  have hps_eq : (typeStr, t.name) :: pairsOf fh3 (canonNames t fh3 rev L) =
      pairsOf fh3 (typeStr :: canonNames t fh3 rev L) := by
    unfold pairsOf
    rw [List.map_cons, htv]
  rw [hps_eq]
  have h0 := hfind?_parse_pairs fh3 (typeStr :: canonNames t fh3 rev L) [] m
  rw [h0]
  by_cases hm : m ∈ typeStr :: canonNames t fh3 rev L
  · rw [if_pos hm, if_pos hm]
  · rw [if_neg hm, if_neg hm]
    rfl

theorem TypeOf_name : ∀ t ∈ typeRegistry, TypeOf t.name = some t := by
  decide

/-- Decoding the canonical encoding of an assembled assertion, with the
final header map abstracted as `fh3`. -/
theorem decode_engine
    (t : AssertionType) (fh3 : Headers) (revision : Int) (body sig av : Bytes)
    (htreg : t ∈ typeRegistry)
    (hnOK : ∀ n ∈ canonNames t fh3 revision body.length, headerNameOK n = true)
    (hvOK : ∀ n, utf8Valid (hget fh3 n) = true)
    (htv : hget fh3 typeStr = t.name)
    (hauth : hfind? fh3 authStr = some av) (havne : av ≠ [])
    (hrevpos : 0 < revision → ∃ v, hfind? fh3 revStr = some v ∧ parseIntB v = some revision)
    (hrevnn : 0 ≤ revision)
    (hblv : 0 < body.length → hfind? fh3 blStr = some (natToBytes body.length))
    (hpkv : ∀ k ∈ t.primaryKey, ∃ v, hfind? fh3 k = some v ∧ v ≠ [] ∧ v.contains 47 = false)
    (hsne : sig ≠ []) (hsnl : ∀ b ∈ sig, b ≠ 10) :
    Decode (contentOf t fh3 revision body ++ nlnl ++ (sig ++ nl)) =
      .ok ⟨((typeStr, t.name) :: pairsOf fh3 (canonNames t fh3 revision body.length)).foldl
            (fun h p => hput h p.1 p.2) [],
           (if 0 < body.length then body else []), revision,
           contentOf t fh3 revision body, sig ++ nl⟩ := by
  obtain ⟨hnm, hut, htne, hpknd, hpkfacts⟩ := registry_facts t htreg
  have hpsn : ∀ p ∈ (typeStr, t.name) :: pairsOf fh3 (canonNames t fh3 revision body.length),
      headerNameOK p.1 = true := by
    intro p hp
    rcases List.mem_cons.1 hp with rfl | hp
    · show headerNameOK typeStr = true
      decide
    · obtain ⟨n, hn, rfl⟩ := List.mem_map.1 hp
      exact hnOK n hn
  have hpsv : ∀ p ∈ (typeStr, t.name) :: pairsOf fh3 (canonNames t fh3 revision body.length),
      utf8Valid p.2 = true := by
    intro p hp
    rcases List.mem_cons.1 hp with rfl | hp
    · exact hut
    · obtain ⟨n, hn, rfl⟩ := List.mem_map.1 hp
      exact hvOK n
  have hblk := headBlockOf_eq_serBlock t fh3 revision body.length hnm
  have hparse : parseHeaders (headBlockOf t fh3 revision body.length) =
      .ok (((typeStr, t.name) :: pairsOf fh3 (canonNames t fh3 revision body.length)).foldl
        (fun h p => hput h p.1 p.2) []) := by
    rw [hblk]
    exact parseHeaders_serBlock _ (by simp) hpsn hpsv
  have hrun : noNlRun (headBlockOf t fh3 revision body.length) = true := by
    rw [hblk]
    exact noNlRun_serBlock _ hpsn
  have hsubHB := noNlRun_hasSub _ hrun
  have hlastHB := noNlRun_not_last _ hrun
  have hsrun := noNlRun_no_nl sig hsnl
  have hssub := noNlRun_hasSub _ hsrun
  have hslast := noNlRun_not_last _ hsrun
  have hshead : (sig ++ nl).head? ≠ some 10 := by
    rw [head?_append_ne_nil sig hsne nl]
    exact head?_ne_nl sig hsnl
  have hsocc : ∀ p, ¬ occursAt (sig ++ nl) nlnl p := no_nlnl_in_pad sig hssub hslast
  have hbli : bLastIndex nlnl (contentOf t fh3 revision body ++ nlnl ++ (sig ++ nl)) =
      some (contentOf t fh3 revision body).length :=
    bLastIndex_encode _ _ hshead hsocc
  have hlook := parsed_lookup t fh3 revision body.length htv
  have hmain : Decode (contentOf t fh3 revision body ++ nlnl ++ (sig ++ nl)) =
      Assemble (((typeStr, t.name) ::
          pairsOf fh3 (canonNames t fh3 revision body.length)).foldl
        (fun h p => hput h p.1 p.2) [])
        (if 0 < body.length then body else [])
        (contentOf t fh3 revision body) (sig ++ nl) := by
    apply Decode_steps _ _ _ (headBlockOf t fh3 revision body.length) _ _ hbli
      (take_encode3 _ _ _) (drop_encode _ _) _ hparse
    by_cases hL : 0 < body.length
    · have hC : contentOf t fh3 revision body =
          headBlockOf t fh3 revision body.length ++ nlnl ++ body := by
        unfold contentOf
        rw [if_pos hL, ← List.append_assoc]
      refine Or.inr ⟨(headBlockOf t fh3 revision body.length).length, ?_, ?_, ?_⟩
      · rw [hC]
        exact bIndex_head_sep _ _ hsubHB hlastHB
      · rw [hC]
        exact take_encode3 _ _ _
      · rw [hC, if_pos hL]
        exact drop_encode _ _
    · have hC0 : contentOf t fh3 revision body =
          headBlockOf t fh3 revision body.length := by
        unfold contentOf
        rw [if_neg hL]
        simp
      refine Or.inl ⟨?_, hC0.symm, ?_⟩
      · rw [hC0]
        exact bIndex_none_of_hasSub _ hsubHB
      · rw [if_neg hL]
  rw [hmain]
  apply Assemble_of _ _ _ _ t revision av t.name
  · by_cases hL : 0 < body.length
    · rw [if_pos hL]
      apply checkInteger_of_some _ _ _ (natToBytes body.length) _ ?_
        (parseIntB_natToBytes body.length)
      rw [hlook blStr, if_pos (List.mem_cons_of_mem _
        ((canonNames_mem t fh3 revision body.length blStr).2
          (Or.inr (Or.inr (Or.inr (Or.inr ⟨hL, rfl⟩))))))]
      rw [hget_of_find _ _ _ (hblv hL)]
    · rw [if_neg hL]
      apply checkInteger_of_none
      rw [hlook blStr]
      rw [if_neg ?_]
      intro hmem
      rcases List.mem_cons.1 hmem with heq | hmem
      · exact absurd heq (by decide)
      · rw [canonNames_mem] at hmem
        rcases hmem with heq | ⟨_, heq⟩ | hp | ho | ⟨hl', _⟩
        · exact absurd heq (by decide)
        · exact absurd heq (by decide)
        · exact (hpkfacts blStr hp).2 (by decide)
        · obtain ⟨_, hnb, _⟩ := (otherKeysOf_mem t fh3 blStr).1 ho
          exact hnb (by decide)
        · exact hL hl'
  · apply checkNotEmpty_of _ _ _ ?_ havne
    rw [hlook authStr, if_pos (List.mem_cons_of_mem _
      ((canonNames_mem t fh3 revision body.length authStr).2 (Or.inl rfl)))]
    rw [hget_of_find _ _ _ hauth]
  · apply checkNotEmpty_of _ _ _ ?_ htne
    rw [hlook typeStr, if_pos (by simp)]
    rw [htv]
  · exact TypeOf_name t htreg
  · apply checkPrimaryKeys_of
    intro k hk
    obtain ⟨v, hfv, hvne, hvs⟩ := hpkv k hk
    refine ⟨v, ?_, hvne, hvs⟩
    rw [hlook k, if_pos (List.mem_cons_of_mem _
      ((canonNames_mem t fh3 revision body.length k).2 (Or.inr (Or.inr (Or.inl hk)))))]
    rw [hget_of_find _ _ _ hfv]
  · by_cases hr : 0 < revision
    · obtain ⟨v, hfv, hpv⟩ := hrevpos hr
      apply checkRevision_of _ _ ?_ hrevnn
      apply checkInteger_of_some _ _ _ v _ ?_ hpv
      rw [hlook revStr, if_pos (List.mem_cons_of_mem _
        ((canonNames_mem t fh3 revision body.length revStr).2
          (Or.inr (Or.inl ⟨hr, rfl⟩))))]
      rw [hget_of_find _ _ _ hfv]
    · have hr0 : revision = 0 := by omega
      subst hr0
      apply checkRevision_of _ _ ?_ (by omega)
      apply checkInteger_of_none
      rw [hlook revStr]
      rw [if_neg ?_]
      intro hmem
      rcases List.mem_cons.1 hmem with heq | hmem
      · exact absurd heq (by decide)
      · rw [canonNames_mem] at hmem
        rcases hmem with heq | ⟨hr', _⟩ | hp | ho | ⟨_, heq⟩
        · exact absurd heq (by decide)
        · exact hr hr'
        · exact (hpkfacts revStr hp).2 (by decide)
        · obtain ⟨_, hnb, _⟩ := (otherKeysOf_mem t fh3 revStr).1 ho
          exact hnb (by decide)
        · exact absurd heq (by decide)
  · simp [nl]

/-! ## Reading back the parsed canonical block -/

theorem parsed_type_val (t : AssertionType) (fh3 parsed : Headers) (rev : Int) (L : Nat)
    (hlook : ∀ m, hfind? parsed m =
      if m ∈ typeStr :: canonNames t fh3 rev L then some (hget fh3 m) else none)
    (htv : hget fh3 typeStr = t.name) :
    hget parsed typeStr = t.name := by
  rw [hget_eq, hlook typeStr, if_pos (List.mem_cons_self _ _)]
  show hget fh3 typeStr = t.name
  exact htv

theorem parsed_auth_val (t : AssertionType) (fh3 parsed : Headers) (rev : Int) (L : Nat)
    (hlook : ∀ m, hfind? parsed m =
      if m ∈ typeStr :: canonNames t fh3 rev L then some (hget fh3 m) else none)
    (av : Bytes) (hauth : hfind? fh3 authStr = some av) :
    hget parsed authStr = av := by
  rw [hget_eq, hlook authStr, if_pos (List.mem_cons_of_mem _
    ((canonNames_mem t fh3 rev L authStr).2 (Or.inl rfl)))]
  show hget fh3 authStr = av
  rw [hget_eq, hauth]
  rfl

theorem parsed_agrees (t : AssertionType) (fh3 parsed : Headers) (rev : Int) (L : Nat)
    (hlook : ∀ m, hfind? parsed m =
      if m ∈ typeStr :: canonNames t fh3 rev L then some (hget fh3 m) else none)
    (hpkv : ∀ k ∈ t.primaryKey, ∃ v, hfind? fh3 k = some v ∧ v ≠ [] ∧
      v.contains 47 = false)
    (m : Bytes) (h1 : m ≠ typeStr) (h2 : m ≠ authStr) (h3 : m ≠ revStr)
    (h4 : m ≠ blStr) :
    hfind? parsed m = hfind? fh3 m := by
  rw [hlook m]
  by_cases hmem : m ∈ typeStr :: canonNames t fh3 rev L
  · rw [if_pos hmem]
    rcases List.mem_cons.1 hmem with heq | hmem2
    · exact absurd heq h1
    rw [canonNames_mem] at hmem2
    rcases hmem2 with heq | ⟨_, heq⟩ | hp | ho | ⟨_, heq⟩
    · exact absurd heq h2
    · exact absurd heq h3
    · obtain ⟨v, hfv, _, _⟩ := hpkv m hp
      rw [hfv, hget_of_find _ _ _ hfv]
    · obtain ⟨hkm, _, _⟩ := (otherKeysOf_mem t fh3 m).1 ho
      obtain ⟨v, hfv⟩ := Option.isSome_iff_exists.1 ((hfind?_mem_keys fh3 m).2 hkm)
      rw [hfv, hget_of_find _ _ _ hfv]
    · exact absurd heq h4
  · rw [if_neg hmem]
    rcases hopt : hfind? fh3 m with _ | v
    · rfl
    · exfalso
      apply hmem
      refine List.mem_cons_of_mem _ ?_
      rw [canonNames_mem]
      by_cases hp : m ∈ t.primaryKey
      · exact Or.inr (Or.inr (Or.inl hp))
      · refine Or.inr (Or.inr (Or.inr (Or.inl ?_)))
        rw [otherKeysOf_mem]
        refine ⟨(hfind?_mem_keys fh3 m).1 (by rw [hopt]; rfl), ?_, hp⟩
        intro hb
        have hb4 : m = typeStr ∨ m = authStr ∨ m = revStr ∨ m = blStr := by
          simpa [bookkeeping] using hb
        rcases hb4 with rfl | rfl | rfl | rfl
        · exact h1 rfl
        · exact h2 rfl
        · exact h3 rfl
        · exact h4 rfl

/-- Claim C1 (amended): for every `(type, headers, body, key)` accepted by
`assembleAndSign` whose header names are syntactically valid, whose header
values are valid UTF-8, and whose key produces nonempty newline-free
signatures, `Decode (Encode a)` succeeds and yields an assertion whose
`type` header, revision, `authority-id` header and body bytes equal those
of `a`, and whose headers agree with `a`'s on every name other than the
bookkeeping names. The validity hypotheses are needed: `assembleAndSign`
does not validate header names or value encodings, and an invalid name
breaks the re-parse (see the counterexample). -/
theorem c1_decode_encode_roundtrip
    (t : AssertionType) (hdrs : Headers) (body : Bytes) (key : PrivateKey) (a : Assertion)
    (hnames : ∀ p ∈ hdrs, headerNameOK p.1 = true)
    (hvals : ∀ p ∈ hdrs, utf8Valid p.2 = true)
    (hkey : ∀ c s, key.sign c = some s → s ≠ [] ∧ ∀ b ∈ s, b ≠ 10)
    (hok : assembleAndSign t hdrs body key = .ok a) :
    ∃ a', Decode (Encode a) = .ok a' ∧
      hget a'.headers typeStr = t.name ∧
      a'.revision = a.revision ∧
      hget a'.headers authStr = hget a.headers authStr ∧
      a'.body = a.body ∧
      ∀ m, m ∉ bookkeeping → hfind? a'.headers m = hfind? a.headers m := by
  obtain ⟨revision, sig, av, hT, hneAuth, hrev, hpk, hsig, ha⟩ :=
    assembleAndSign_ok t hdrs body key a hok
  have htreg := TypeOf_mem t t.name hT
  obtain ⟨hnm, hut, htne, hpknd, hpkfacts⟩ := registry_facts t htreg
  obtain ⟨hfa2, havne⟩ := checkNotEmpty_ok _ _ _ hneAuth
  obtain ⟨hci2, hrevnn⟩ := checkRevision_ok _ _ hrev
  have htv : hget (finalHeadersRev (finalHeadersPre t hdrs body) revision) typeStr
      = t.name := hget_of_find _ _ _ (hfind3_type t hdrs body revision)
  have hauth3 : hfind? (finalHeadersRev (finalHeadersPre t hdrs body) revision) authStr
      = some av := by
    rw [fh3_find]
    by_cases hr : 0 < revision
    · rw [if_pos hr]
      exact hfa2
    · rw [if_neg hr, if_neg (by decide)]
      exact hfa2
  have hnOK : ∀ n ∈ canonNames t (finalHeadersRev (finalHeadersPre t hdrs body) revision)
      revision body.length, headerNameOK n = true := by
    intro n hn
    rw [canonNames_mem] at hn
    rcases hn with rfl | ⟨_, rfl⟩ | hp | ho | ⟨_, rfl⟩
    · decide
    · decide
    · exact (hpkfacts n hp).1
    · obtain ⟨hkmem, hnb, _⟩ := (otherKeysOf_mem _ _ _).1 ho
      rcases fh3_keys_src t hdrs body revision n hkmem with rfl | rfl | hk
      · exact absurd (by decide) hnb
      · exact absurd (by decide) hnb
      · obtain ⟨v, hv⟩ := mem_keys_exists hdrs n hk
        exact hnames (n, v) hv
    · decide
  have hvOK : ∀ n, utf8Valid
      (hget (finalHeadersRev (finalHeadersPre t hdrs body) revision) n) = true := by
    intro n
    by_cases hb1 : n = blStr
    · subst hb1
      rw [hget_of_find _ _ _ (hfind3_bl t hdrs body revision)]
      apply utf8Valid_ascii
      intro x hx
      have := natToBytes_digits body.length x hx
      omega
    by_cases hb2 : n = typeStr
    · subst hb2
      rw [htv]
      exact hut
    by_cases hb3 : n = revStr
    · subst hb3
      by_cases hr : 0 < revision
      · rw [hget_eq, hfind3_rev t hdrs body revision hr]
        rcases hfr : hfind? hdrs revStr with _ | v
        · decide
        · exact hvals (revStr, v) (hfind?_mem hdrs revStr v hfr)
      · rw [hget_eq, fh3_find, if_neg hr, if_pos rfl]
        decide
    · rw [hget_eq, hfind3_other t hdrs body revision n hb1 hb2 hb3]
      rcases hfr : hfind? hdrs n with _ | v
      · decide
      · exact hvals (n, v) (hfind?_mem hdrs n v hfr)
  have hrevpos : 0 < revision → ∃ v,
      hfind? (finalHeadersRev (finalHeadersPre t hdrs body) revision) revStr = some v ∧
      parseIntB v = some revision := by
    intro hr
    rcases checkInteger_ok _ _ _ _ hci2 with ⟨_, h0⟩ | ⟨v, hfv, hpv⟩
    · omega
    · exact ⟨v, by rw [fh3_find, if_pos hr]; exact hfv, hpv⟩
  have hpkv := checkPrimaryKeys_ok _ _ hpk
  have hks : key.sign (contentOf t (finalHeadersRev (finalHeadersPre t hdrs body) revision)
      revision body) = some sig := hsig
  obtain ⟨hsne, hsnl⟩ := hkey _ _ hks
  have hdec := decode_engine t (finalHeadersRev (finalHeadersPre t hdrs body) revision)
    revision body sig av htreg hnOK hvOK htv hauth3 havne hrevpos hrevnn
    (fun _ => hfind3_bl t hdrs body revision) hpkv hsne hsnl
  have hlook := parsed_lookup t (finalHeadersRev (finalHeadersPre t hdrs body) revision)
    revision body.length htv
  have hEnc : Encode a =
      contentOf t (finalHeadersRev (finalHeadersPre t hdrs body) revision) revision body
      ++ nlnl ++ (sig ++ nl) := by
    rw [ha]
    rfl
  refine ⟨_, by rw [hEnc]; exact hdec, ?_, ?_, ?_, ?_, ?_⟩
  · exact parsed_type_val t _ _ revision body.length hlook htv
  · rw [ha]
  · have hla := parsed_auth_val t _ _ revision body.length hlook av hauth3
    have hra : hget a.headers authStr = av := by
      rw [ha]
      dsimp only
      by_cases hL : 0 < body.length
      · rw [if_pos hL, hget_eq, hauth3]
        rfl
      · rw [if_neg hL, hget_eq,
          hfind?_hdel_ne _ _ _ (show authStr ≠ blStr by decide), hauth3]
        rfl
    exact hla.trans hra.symm
  · rw [ha]
  · intro m hm
    have h1 : m ≠ typeStr := fun he => hm (by rw [he]; decide)
    have h2 : m ≠ authStr := fun he => hm (by rw [he]; decide)
    have h3 : m ≠ revStr := fun he => hm (by rw [he]; decide)
    have h4 : m ≠ blStr := fun he => hm (by rw [he]; decide)
    have hra : hfind? a.headers m =
        hfind? (finalHeadersRev (finalHeadersPre t hdrs body) revision) m := by
      rw [ha]
      dsimp only
      by_cases hL : 0 < body.length
      · rw [if_pos hL]
      · rw [if_neg hL]
        exact hfind?_hdel_ne _ _ _ h4
    exact (parsed_agrees t _ _ revision body.length hlook hpkv m h1 h2 h3 h4).trans
      hra.symm

/-! ## Concrete inputs for the C1 witness and counterexample -/

/-- A model key whose signature is the fixed bytes "SIG". -/
def exKey : PrivateKey := ⟨fun _ => some (strB "SIG")⟩

/-- Valid snap-build headers. -/
def exHdrsC1 : Headers := [(strB "authority-id", strB "canonical"),
  (strB "series", strB "16"), (strB "snap-id", strB "snap-id-1"),
  (strB "snap-digest", strB "sha256 xyz"), (strB "revision", strB "3")]

/-- The assertion assembled from `exHdrsC1`. -/
def exA1 : Assertion :=
  match assembleAndSign SnapBuildType exHdrsC1 (strB "hello") exKey with
  | .ok a => a
  | .error _ => ⟨[], [], 0, [], []⟩

/-- Witness for C1: the amended round trip at a concrete snap-build
assertion with a body and a positive revision. -/
theorem c1_decode_encode_roundtrip_witness :
    ∃ a', Decode (Encode exA1) = .ok a' ∧
      hget a'.headers typeStr = SnapBuildType.name ∧
      a'.revision = exA1.revision ∧
      hget a'.headers authStr = hget exA1.headers authStr ∧
      a'.body = exA1.body ∧
      ∀ m, m ∉ bookkeeping → hfind? a'.headers m = hfind? exA1.headers m :=
  c1_decode_encode_roundtrip SnapBuildType exHdrsC1 (strB "hello") exKey exA1
    (by decide) (by decide)
    (fun c s hs => by
      injection hs with hs'
      subst hs'
      exact ⟨by decide, by decide⟩)
    rfl

/-- Headers with a name that fails the header-name sanity regexp. -/
def exHdrsBad : Headers := [(strB "BAD", strB "x"),
  (strB "authority-id", strB "canonical"), (strB "account-id", strB "acc1")]

/-- The assertion assembled from `exHdrsBad`. -/
def exABad : Assertion :=
  match assembleAndSign AccountType exHdrsBad [] exKey with
  | .ok a => a
  | .error _ => ⟨[], [], 0, [], []⟩

/-- Counterexample to C1 as stated: `assembleAndSign` accepts headers
whose name "BAD" fails the header-name regexp, but decoding the encoding
of the result fails with a bad-name parse error, so `Decode (Encode a)`
does not succeed for every accepted input. -/
theorem c1_counterexample :
    assembleAndSign AccountType exHdrsBad [] exKey = .ok exABad ∧
    Decode (Encode exABad) = .error .badName :=
  ⟨rfl, rfl⟩

/-- Witness for C3: the header-emission order at a concrete snap-build
assertion. -/
theorem c3_canonical_header_order_witness :
    (hkeys exHdrsC1).Nodup ∧
    ∃ (revision : Int) (others : List Bytes),
      checkRevision (finalHeadersPre SnapBuildType exHdrsC1 (strB "hello")) =
        .ok revision ∧
      exA1.content =
        strB "type: " ++ SnapBuildType.name
        ++ writeHeader (finalHeadersRev
            (finalHeadersPre SnapBuildType exHdrsC1 (strB "hello")) revision) authStr
        ++ (if 0 < revision then
              writeHeader (finalHeadersRev
                (finalHeadersPre SnapBuildType exHdrsC1 (strB "hello")) revision) revStr
            else [])
        ++ (SnapBuildType.primaryKey.map
              (writeHeader (finalHeadersRev
                (finalHeadersPre SnapBuildType exHdrsC1 (strB "hello")) revision))).flatten
        ++ (others.map
              (writeHeader (finalHeadersRev
                (finalHeadersPre SnapBuildType exHdrsC1 (strB "hello")) revision))).flatten
        ++ (if strB "hello" ≠ [] then
              writeHeader (finalHeadersRev
                (finalHeadersPre SnapBuildType exHdrsC1 (strB "hello")) revision) blStr
            else [])
        ++ (if strB "hello" ≠ [] then nlnl ++ strB "hello" else []) ∧
      List.Pairwise (fun x y => bytesLt x y = true) others ∧
      (∀ n, n ∈ others ↔ (n ∈ hkeys exA1.headers ∧ n ∉ bookkeeping ∧
        n ∉ SnapBuildType.primaryKey)) :=
  ⟨by decide, c3_canonical_header_order SnapBuildType exHdrsC1 (strB "hello") exKey exA1
    (by decide) rfl⟩

/-! ## Inversion of the streaming reader -/

theorem readUntilLoop_found (s delim : Bytes) (maxSize : Nat) (hdl : delim ≠ []) :
    ∀ (fuel last size : Nat) (chunk rest : Bytes),
      readUntilLoop s delim maxSize last size fuel = .found chunk rest →
      s = chunk ++ rest ∧ ∃ c', chunk = c' ++ delim := by
  have hdl0 : 0 < delim.length := by
    cases delim
    · exact absurd rfl hdl
    · simp
  intro fuel
  induction fuel with
  | zero =>
    intro last size chunk rest h
    simp [readUntilLoop] at h
  | succ n ih =>
    intro last size chunk rest h
    unfold readUntilLoop at h
    dsimp only at h
    split at h
    · rename_i i heq
      injection h with h1 h2
      obtain ⟨⟨t, ht⟩, _⟩ := bIndex_some delim _ i heq
      rw [List.drop_drop] at ht
      have hlen := congrArg List.length ht
      simp only [List.length_drop, List.length_append, List.length_take] at hlen
      have hL : last + i + delim.length ≤ min size s.length := by omega
      have hchunk : (s.take size).take (last + i + delim.length) =
          s.take (last + i + delim.length) := by
        rw [List.take_take]
        congr 1
        omega
      have hX : s.take size = (s.take size).take (last + i) ++ (delim ++ t) := by
        conv_lhs => rw [← List.take_append_drop (last + i) (s.take size)]
        rw [ht]
      have hXlen : ((s.take size).take (last + i)).length = last + i := by
        simp only [List.length_take]
        omega
      have hsuffix : (s.take size).take (last + i + delim.length) =
          (s.take size).take (last + i) ++ delim := by
        conv_lhs => rw [hX]
        rw [List.take_append_eq_append_take, hXlen,
          List.take_of_length_le (by rw [hXlen]; omega)]
        congr 1
        have hd : last + i + delim.length - (last + i) = delim.length := by omega
        rw [hd]
        exact take_encode delim t
      constructor
      · rw [← h1, ← h2, hchunk]
        exact (List.take_append_drop _ s).symm
      · exact ⟨(s.take size).take (last + i), by rw [← h1, hsuffix]⟩
    · split at h
      · exact ReadRes.noConfusion h
      · split at h
        · exact ReadRes.noConfusion h
        · exact ih _ _ _ _ h

theorem readUntilLoop_eofBuf (s delim : Bytes) (maxSize : Nat) :
    ∀ (fuel last size : Nat) (buf : Bytes),
      readUntilLoop s delim maxSize last size fuel = .eofBuf buf → buf = s := by
  intro fuel
  induction fuel with
  | zero =>
    intro last size buf h
    simp [readUntilLoop] at h
  | succ n ih =>
    intro last size buf h
    unfold readUntilLoop at h
    dsimp only at h
    split at h
    · exact ReadRes.noConfusion h
    · split at h
      · rename_i hlt
        injection h with h1
        rw [← h1]
        exact List.take_of_length_le (by omega)
      · split at h
        · exact ReadRes.noConfusion h
        · exact ih _ _ _ h

theorem readUntilLoop_nil (maxSize : Nat) :
    ∀ (fuel last size : Nat),
      readUntilLoop [] nlnl maxSize last size fuel = .ranOut ∨
      readUntilLoop [] nlnl maxSize last size fuel = .eofBuf [] := by
  intro fuel
  induction fuel with
  | zero =>
    intro last size
    exact Or.inl rfl
  | succ n ih =>
    intro last size
    unfold readUntilLoop
    dsimp only
    have h0 : ([] : Bytes).take size = [] := List.take_nil
    rw [h0, List.drop_nil]
    rw [show bIndex nlnl [] = none from rfl]
    dsimp only
    simp only [List.length_nil]
    by_cases hpos : 0 < size
    · rw [if_pos hpos]
      exact Or.inr rfl
    · rw [if_neg hpos]
      rw [if_neg (by omega)]
      exact ih _ _

theorem readUntil_found (s delim : Bytes) (maxSize init : Nat) (chunk rest : Bytes)
    (hdl : delim ≠ []) (h : readUntil s delim maxSize init = .found chunk rest) :
    s = chunk ++ rest ∧ ∃ c', chunk = c' ++ delim :=
  readUntilLoop_found s delim maxSize hdl (maxSize + 1) 0 init chunk rest h

theorem readUntil_eofBuf (s delim : Bytes) (maxSize init : Nat) (buf : Bytes)
    (h : readUntil s delim maxSize init = .eofBuf buf) : buf = s :=
  readUntilLoop_eofBuf s delim maxSize (maxSize + 1) 0 init buf h

theorem readUntil_nil (maxSize init : Nat) :
    readUntil [] nlnl maxSize init = .ranOut ∨
    readUntil [] nlnl maxSize init = .eofBuf [] :=
  readUntilLoop_nil maxSize (maxSize + 1) 0 init

theorem occursAt_sub (s : Bytes) (size last i : Nat)
    (h : occursAt ((s.take size).drop last) nlnl i) : occursAt s nlnl (last + i) := by
  obtain ⟨t, ht⟩ := h
  rw [List.drop_drop] at ht
  have hlen := congrArg List.length ht
  simp only [List.length_drop, List.length_append, nlnl, List.length_cons,
    List.length_nil] at hlen
  have hm : last + i ≤ (s.take size).length := by omega
  have hsplit : s.drop (last + i) = (s.take size).drop (last + i) ++ s.drop size := by
    conv_lhs => rw [← List.take_append_drop size s]
    rw [List.drop_append_of_le_length hm]
  refine ⟨t ++ s.drop size, ?_⟩
  rw [hsplit, ht, List.append_assoc]

theorem readUntilLoop_eof (s : Bytes) (maxSize : Nat) (hocc : hasSubB nlnl s = false) :
    ∀ (fuel last size : Nat), 0 < size → size ≤ maxSize → 2 * s.length ≤ maxSize →
      maxSize < size * 2 ^ fuel →
      readUntilLoop s nlnl maxSize last size fuel = .eofBuf s := by
  intro fuel
  induction fuel with
  | zero =>
    intro last size h1 h2 h3 h4
    rw [pow_zero, Nat.mul_one] at h4
    omega
  | succ n ih =>
    intro last size h1 h2 h3 h4
    unfold readUntilLoop
    dsimp only
    have hb : bIndex nlnl ((s.take size).drop last) = none := by
      rcases hbb : bIndex nlnl ((s.take size).drop last) with _ | i
      · rfl
      · exfalso
        obtain ⟨hocc2, _⟩ := bIndex_some nlnl _ i hbb
        exact hasSubB_false nlnl s hocc (last + i) (occursAt_sub s size last i hocc2)
    rw [hb]
    dsimp only
    by_cases hlt : s.length < size
    · rw [if_pos hlt, List.take_of_length_le (by omega)]
    · rw [if_neg hlt]
      rw [if_neg (by omega)]
      have hpow : size * 2 ^ (n + 1) = size * 2 * 2 ^ n := by ring
      exact ih _ _ (by omega) (by omega) h3 (by omega)

theorem readUntil_eof (s : Bytes) (maxSize init : Nat) (hocc : hasSubB nlnl s = false)
    (h1 : 0 < init) (h2 : init ≤ maxSize) (h3 : 2 * s.length ≤ maxSize) :
    readUntil s nlnl maxSize init = .eofBuf s := by
  unfold readUntil
  apply readUntilLoop_eof s maxSize hocc (maxSize + 1) 0 init h1 h2 h3
  have h5 : maxSize + 1 < 2 ^ (maxSize + 1) := Nat.lt_two_pow (maxSize + 1)
  have h6 : 2 ^ (maxSize + 1) ≤ init * 2 ^ (maxSize + 1) :=
    Nat.le_mul_of_pos_left _ h1
  omega

/-! ## Inversion of `Assemble` and the streaming decode tail -/

theorem Assemble_ok (headers : Headers) (body content signature : Bytes) (a : Assertion)
    (h : Assemble headers body content signature = .ok a) :
    ∃ revision, a = ⟨headers, body, revision, content, signature⟩ ∧ signature ≠ [] := by
  unfold Assemble at h
  split at h
  · exact Except.noConfusion h
  split at h
  · exact Except.noConfusion h
  split at h
  · exact Except.noConfusion h
  split at h
  · exact Except.noConfusion h
  split at h
  · exact Except.noConfusion h
  split at h
  · exact Except.noConfusion h
  split at h
  · exact Except.noConfusion h
  rename_i rev hrev2
  split at h
  · exact Except.noConfusion h
  rename_i hsgE
  unfold assembler at h
  injection h with h2
  refine ⟨rev, h2.symm, ?_⟩
  intro hnil
  exact hsgE (by rw [hnil]; rfl)

theorem streamFinish_ok (headLen : Nat) (headers : Headers) (length : Int)
    (contentBuf sig rest : Bytes) (a : Assertion) (rest' : Bytes)
    (h : streamFinish headLen headers length contentBuf sig rest = (.ok a, rest')) :
    ∃ rev, rest' = rest ∧
      a = ⟨headers, (if 0 < length then contentBuf.drop (headLen + 2) else []), rev,
           contentBuf, if suffixB nlnl sig then sig.dropLast else sig⟩ ∧
      (if suffixB nlnl sig then sig.dropLast else sig) ≠ [] := by
  unfold streamFinish at h
  dsimp only at h
  injection h with h1 h2
  obtain ⟨rev, ha, hsg⟩ := Assemble_ok _ _ _ _ _ h1
  exact ⟨rev, h2.symm, ha, hsg⟩

theorem streamTrailer_ok (cfg : DecCfg) (headLen : Nat) (headers : Headers) (length : Int)
    (contentBuf s : Bytes) (a : Assertion) (rest' : Bytes)
    (h : streamTrailer cfg headLen headers length contentBuf s = (.ok a, rest')) :
    ∃ rev consumed sig,
      s = consumed ++ rest' ∧
      ((consumed = nlnl ++ sig ∧
        a = ⟨headers, (if 0 < length then contentBuf.drop (headLen + 2) else []), rev,
             contentBuf, if suffixB nlnl sig then sig.dropLast else sig⟩)
       ∨
       (¬ 0 < length ∧ consumed = sig ∧
        a = ⟨headers, [], rev, contentBuf.take headLen,
             if suffixB nlnl sig then sig.dropLast else sig⟩)) ∧
      (if suffixB nlnl sig then sig.dropLast else sig) ≠ [] := by
  unfold streamTrailer at h
  split at h
  · injection h with h1 h2
    exact Except.noConfusion h1
  · injection h with h1 h2
    exact Except.noConfusion h1
  · rename_i endOfBody rest htr
    split at h
    · rename_i hEnl
      split at h
      · injection h with h1 h2
        exact Except.noConfusion h1
      · injection h with h1 h2
        exact Except.noConfusion h1
      · rename_i sg rest2 htr2
        obtain ⟨rev, hr, ha, hsg⟩ := streamFinish_ok _ _ _ _ _ _ _ _ h
        obtain ⟨hs1, _⟩ := readUntil_found _ _ _ _ _ _ (by decide) htr
        obtain ⟨hs2, _⟩ := readUntil_found _ _ _ _ _ _ (by decide) htr2
        refine ⟨rev, nlnl ++ sg, sg, ?_, Or.inl ⟨rfl, ha⟩, hsg⟩
        rw [hs1, hEnl, hs2, hr]
        simp [List.append_assoc]
      · rename_i sg htr2
        obtain ⟨rev, hr, ha, hsg⟩ := streamFinish_ok _ _ _ _ _ _ _ _ h
        have hs2 : sg = rest := readUntil_eofBuf _ _ _ _ _ htr2
        obtain ⟨hs1, _⟩ := readUntil_found _ _ _ _ _ _ (by decide) htr
        refine ⟨rev, nlnl ++ sg, sg, ?_, Or.inl ⟨rfl, ha⟩, hsg⟩
        rw [hs1, hEnl, hs2, hr]
        simp
    · rename_i hEnl
      split at h
      · injection h with h1 h2
        exact Except.noConfusion h1
      · rename_i hL
        obtain ⟨rev, hr, ha, hsg⟩ := streamFinish_ok _ _ _ _ _ _ _ _ h
        obtain ⟨hs1, _⟩ := readUntil_found _ _ _ _ _ _ (by decide) htr
        rw [if_neg hL] at ha
        refine ⟨rev, endOfBody, endOfBody, ?_, Or.inr ⟨hL, rfl, ha⟩, hsg⟩
        rw [hs1, hr]
  · rename_i endOfBody htr
    have hs0 : endOfBody = s := readUntil_eofBuf _ _ _ _ _ htr
    split at h
    · rename_i hEnl
      split at h
      · injection h with h1 h2
        exact Except.noConfusion h1
      · injection h with h1 h2
        exact Except.noConfusion h1
      · rename_i sg rest2 htr2
        rcases readUntil_nil cfg.maxSigSize cfg.initialBufSize with hn | hn
        · rw [htr2] at hn
          exact ReadRes.noConfusion hn
        · rw [htr2] at hn
          exact ReadRes.noConfusion hn
      · rename_i sg htr2
        have hs2 : sg = [] := readUntil_eofBuf _ _ _ _ _ htr2
        obtain ⟨rev, hr, ha, hsg⟩ := streamFinish_ok _ _ _ _ _ _ _ _ h
        subst hs2
        exact absurd (by decide) hsg
    · rename_i hEnl
      split at h
      · injection h with h1 h2
        exact Except.noConfusion h1
      · rename_i hL
        obtain ⟨rev, hr, ha, hsg⟩ := streamFinish_ok _ _ _ _ _ _ _ _ h
        rw [if_neg hL] at ha
        refine ⟨rev, endOfBody, endOfBody, ?_, Or.inr ⟨hL, rfl, ha⟩, hsg⟩
        rw [hs0, hr]
        simp

theorem readExact_ok (s : Bytes) (size : Nat) (body rest : Bytes)
    (h : readExact s size = (.ok body, rest)) :
    s = body ++ rest ∧ body.length = size := by
  unfold readExact at h
  split at h
  · rename_i hlen
    injection h with h1 h2
    injection h1 with h1
    subst h1
    subst h2
    exact ⟨(List.take_append_drop _ s).symm, hlen⟩
  · injection h with h1 h2
    exact Except.noConfusion h1

/-- Full inversion of a successful `Decoder.Decode` call on a pure
stream: the parsed head block, the raw signature chunk, the declared
length, and the shape of the consumed bytes in each trailer form. -/
theorem streamDecode_ok (cfg : DecCfg) (s : Bytes) (a : Assertion) (rest' : Bytes)
    (h : streamDecode cfg s = (.ok a, rest')) :
    ∃ head sig length rev,
      parseHeaders head = .ok a.headers ∧
      checkInteger a.headers blStr 0 = .ok length ∧
      (if suffixB nlnl sig then sig.dropLast else sig) ≠ [] ∧
      ((0 < length ∧ ∃ body,
          a = ⟨a.headers, body, rev, head ++ nlnl ++ body,
               if suffixB nlnl sig then sig.dropLast else sig⟩ ∧
          s = ((head ++ nlnl ++ body ++ nlnl) ++ sig) ++ rest')
       ∨
       (¬ 0 < length ∧
          ((a = ⟨a.headers, [], rev, head ++ nlnl,
                 if suffixB nlnl sig then sig.dropLast else sig⟩ ∧
            s = ((head ++ nlnl ++ nlnl) ++ sig) ++ rest')
           ∨
           (a = ⟨a.headers, [], rev, head,
                 if suffixB nlnl sig then sig.dropLast else sig⟩ ∧
            s = ((head ++ nlnl) ++ sig) ++ rest')))) := by
  unfold streamDecode at h
  split at h
  · injection h with h1 h2
    exact Except.noConfusion h1
  · injection h with h1 h2
    exact Except.noConfusion h1
  · split at h
    · injection h with h1 h2
      exact Except.noConfusion h1
    · injection h with h1 h2
      exact Except.noConfusion h1
  · rename_i headAndSep rest1 hfound
    dsimp only at h
    split at h
    · injection h with h1 h2
      exact Except.noConfusion h1
    rename_i headers hph
    split at h
    · injection h with h1 h2
      exact Except.noConfusion h1
    rename_i length hci
    split at h
    · injection h with h1 h2
      exact Except.noConfusion h1
    rename_i hbig
    obtain ⟨hsplit1, c', hc'⟩ := readUntil_found _ _ _ _ _ _ (by decide) hfound
    have hlen2 : (c' ++ nlnl).length - 2 = c'.length := by
      simp [nlnl]
    rw [hc', hlen2, take_encode] at hph
    split at h
    · rename_i hL
      split at h
      · injection h with h1 h2
        exact Except.noConfusion h1
      rename_i body rest2 hre
      obtain ⟨hsplit2, _⟩ := readExact_ok _ _ _ _ hre
      obtain ⟨rev, consumed, sig, hs2, hdisj, hsg⟩ := streamTrailer_ok _ _ _ _ _ _ _ _ h
      rcases hdisj with ⟨hcons, ha⟩ | ⟨hnL, _, _⟩
      · have hah : a.headers = headers := by rw [ha]
        have hdropix : headAndSep.length - 2 + 2 = c'.length + 2 := by
          rw [hc']
          simp [nlnl]
        rw [if_pos hL, hdropix, hc'] at ha
        have hdrop2 : ((c' ++ nlnl) ++ body).drop (c'.length + 2) = body :=
          drop_encode c' body
        rw [hdrop2] at ha
        refine ⟨c', sig, length, rev, by rw [hah]; exact hph, by rw [hah]; exact hci,
          hsg, Or.inl ⟨hL, body, ?_, ?_⟩⟩
        · conv_rhs => rw [hah]
          exact ha
        · rw [hsplit1, hc', hsplit2, hs2, hcons]
          simp [List.append_assoc]
      · exact absurd hL hnL
    · rename_i hL
      obtain ⟨rev, consumed, sig, hs2, hdisj, hsg⟩ := streamTrailer_ok _ _ _ _ _ _ _ _ h
      rcases hdisj with ⟨hcons, ha⟩ | ⟨hnL, hcons, ha⟩
      · have hah : a.headers = headers := by rw [ha]
        rw [if_neg hL, hc'] at ha
        refine ⟨c', sig, length, rev, by rw [hah]; exact hph, by rw [hah]; exact hci,
          hsg, Or.inr ⟨hL, Or.inl ⟨?_, ?_⟩⟩⟩
        · conv_rhs => rw [hah]
          exact ha
        · rw [hsplit1, hc', hs2, hcons]
          simp [List.append_assoc]
      · have hah : a.headers = headers := by rw [ha]
        rw [hc', hlen2, take_encode] at ha
        refine ⟨c', sig, length, rev, by rw [hah]; exact hph, by rw [hah]; exact hci,
          hsg, Or.inr ⟨hL, Or.inr ⟨?_, ?_⟩⟩⟩
        · conv_rhs => rw [hah]
          exact ha
        · rw [hsplit1, hc', hs2, hcons]
          simp [List.append_assoc]

/-- Claim C4 (amended): for every assertion produced by a `Decoder.Decode`
call, the content buffer passed to the assembler is the header block
followed by "\n\n" and the body when the declared body length is
positive; when the declared length is zero the content is the header
block alone if the signature followed the headers directly, but it keeps
the trailing "\n\n" when an explicit empty-body separator appeared on
the wire — not "the header block only regardless of which trailer form
appeared", as claimed (see the counterexample). -/
theorem c4_content_buffer (cfg : DecCfg) (s : Bytes) (a : Assertion) (rest : Bytes)
    (h : streamDecode cfg s = (.ok a, rest)) :
    ∃ head length,
      parseHeaders head = .ok a.headers ∧
      checkInteger a.headers blStr 0 = .ok length ∧
      ((0 < length ∧ a.content = head ++ nlnl ++ a.body) ∨
       (¬ 0 < length ∧ a.body = [] ∧ (a.content = head ∨ a.content = head ++ nlnl))) := by
  obtain ⟨head, sig, length, rev, hph, hci, hsg, hdisj⟩ := streamDecode_ok cfg s a rest h
  refine ⟨head, length, hph, hci, ?_⟩
  rcases hdisj with ⟨hL, body, ha, _⟩ | ⟨hL, ⟨ha, _⟩ | ⟨ha, _⟩⟩
  · exact Or.inl ⟨hL, by rw [ha]⟩
  · exact Or.inr ⟨hL, by rw [ha], Or.inr (by rw [ha])⟩
  · exact Or.inr ⟨hL, by rw [ha], Or.inl (by rw [ha])⟩

/-- A stream with declared body length zero and an explicit empty-body
separator before the signature. -/
def exStream4 : Bytes :=
  strB "type: account\nauthority-id: canonical\naccount-id: acc1\n\n\n\nSIG\n"

/-- The assertion the streaming decoder produces for `exStream4`. -/
def exA4 : Assertion :=
  match streamDecode NewDecoderCfg exStream4 with
  | (.ok a, _) => a
  | _ => ⟨[], [], 0, [], []⟩

/-- Counterexample to C4 as stated: with declared body length 0 and an
explicit "\n\n" trailer on the wire, the content buffer passed to the
assembler keeps the trailing separator instead of being the header block
only. -/
theorem c4_counterexample :
    streamDecode NewDecoderCfg exStream4 = (.ok exA4, []) ∧
    checkInteger exA4.headers blStr 0 = .ok 0 ∧
    exA4.content =
      strB "type: account\nauthority-id: canonical\naccount-id: acc1" ++ nlnl :=
  ⟨rfl, rfl, rfl⟩

/-- Witness for C4: the amended content-buffer reconstruction at the
concrete stream `exStream4`. -/
theorem c4_content_buffer_witness :
    ∃ head length,
      parseHeaders head = .ok exA4.headers ∧
      checkInteger exA4.headers blStr 0 = .ok length ∧
      ((0 < length ∧ exA4.content = head ++ nlnl ++ exA4.body) ∨
       (¬ 0 < length ∧ exA4.body = [] ∧
        (exA4.content = head ∨ exA4.content = head ++ nlnl))) :=
  c4_content_buffer NewDecoderCfg exStream4 exA4 [] rfl

/-! ## Re-encoding what the decoder consumed (C2) -/

theorem dropLast_append_ne (x y : Bytes) (hy : y ≠ []) :
    (x ++ y).dropLast = x ++ y.dropLast := by
  induction x with
  | nil => simp
  | cons b xs ih =>
    have hne : xs ++ y ≠ [] := fun hc => hy (List.append_eq_nil.1 hc).2
    rw [List.cons_append]
    cases hxy : xs ++ y with
    | nil => exact absurd hxy hne
    | cons c cs =>
      rw [List.dropLast_cons₂, ← hxy, ih]
      rfl

theorem consumed_cases (x sig : Bytes) :
    (x ++ (if suffixB nlnl sig then sig.dropLast else sig) = x ++ sig) ∨
    (suffixB nlnl (x ++ sig) = true ∧
     x ++ (if suffixB nlnl sig then sig.dropLast else sig) = (x ++ sig).dropLast) := by
  by_cases hsf : suffixB nlnl sig = true
  · right
    obtain ⟨sb, hsb⟩ := (suffixB_iff nlnl sig).1 hsf
    constructor
    · rw [hsb]
      exact (suffixB_iff _ _).2 ⟨x ++ sb, by simp [List.append_assoc]⟩
    · rw [if_pos hsf, hsb]
      rw [dropLast_append_ne x (sb ++ nlnl) (by simp [nlnl])]
  · left
    rw [if_neg hsf]

/-- Claim C2: re-encoding a decoded assertion reproduces the consumed
bytes exactly, except that a signature chunk ending in "\n\n" is
re-encoded with a single trailing "\n"; and the single-shot
`Decode`/`Encode` round trip is exact. -/
theorem c2_reencode (cfg : DecCfg) (s : Bytes) (a : Assertion) (rest : Bytes) :
    (streamDecode cfg s = (.ok a, rest) →
      ∃ consumed, s = consumed ++ rest ∧
        (Encode a = consumed ∨
         (suffixB nlnl consumed = true ∧ Encode a = consumed.dropLast))) ∧
    (Decode s = .ok a → Encode a = s) := by
  constructor
  · intro h
    obtain ⟨head, sig, length, rev, hph, hci, hsg, hdisj⟩ := streamDecode_ok cfg s a rest h
    rcases hdisj with ⟨hL, body, ha, hs⟩ | ⟨hL, ⟨ha, hs⟩ | ⟨ha, hs⟩⟩
    · have hE : Encode a = (head ++ nlnl ++ body ++ nlnl) ++
          (if suffixB nlnl sig then sig.dropLast else sig) := by
        rw [ha]
        rfl
      refine ⟨(head ++ nlnl ++ body ++ nlnl) ++ sig, hs, ?_⟩
      rcases consumed_cases (head ++ nlnl ++ body ++ nlnl) sig with hcc | ⟨hsf2, hcc⟩
      · exact Or.inl (hE.trans hcc)
      · exact Or.inr ⟨hsf2, hE.trans hcc⟩
    · have hE : Encode a = (head ++ nlnl ++ nlnl) ++
          (if suffixB nlnl sig then sig.dropLast else sig) := by
        rw [ha]
        rfl
      refine ⟨(head ++ nlnl ++ nlnl) ++ sig, hs, ?_⟩
      rcases consumed_cases (head ++ nlnl ++ nlnl) sig with hcc | ⟨hsf2, hcc⟩
      · exact Or.inl (hE.trans hcc)
      · exact Or.inr ⟨hsf2, hE.trans hcc⟩
    · have hE : Encode a = (head ++ nlnl) ++
          (if suffixB nlnl sig then sig.dropLast else sig) := by
        rw [ha]
        rfl
      refine ⟨(head ++ nlnl) ++ sig, hs, ?_⟩
      rcases consumed_cases (head ++ nlnl) sig with hcc | ⟨hsf2, hcc⟩
      · exact Or.inl (hE.trans hcc)
      · exact Or.inr ⟨hsf2, hE.trans hcc⟩
  · intro h
    unfold Decode at h
    split at h
    · exact Except.noConfusion h
    rename_i i hbl
    dsimp only at h
    split at h
    · exact Except.noConfusion h
    rename_i headers hp
    obtain ⟨rev, ha, hsg⟩ := Assemble_ok _ _ _ _ _ h
    obtain ⟨t, ht⟩ := bLastIndex_some nlnl s i hbl
    have ht2 : s.drop (i + 2) = t := by
      rw [show i + 2 = i + 2 from rfl]
      have hdd : s.drop (i + 2) = (s.drop i).drop 2 := by
        rw [List.drop_drop]
      rw [hdd, ht]
      rfl
    have hs : s = s.take i ++ nlnl ++ s.drop (i + 2) := by
      conv_lhs => rw [← List.take_append_drop i s]
      rw [ht, ht2, List.append_assoc]
    have hE : Encode a = a.content ++ nlnl ++ a.signature := rfl
    have hc : a.content = s.take i := by rw [ha]
    have hsg2 : a.signature = s.drop (i + 2) := by rw [ha]
    rw [hE, hc, hsg2]
    exact hs.symm

/-- The assertion the single-shot decoder produces for `exStream4`. -/
def exA2 : Assertion :=
  match Decode exStream4 with
  | .ok a => a
  | .error _ => ⟨[], [], 0, [], []⟩

/-- Witness for C2: the streaming and single-shot round trips at the
concrete stream `exStream4`. -/
theorem c2_reencode_witness :
    (∃ consumed, exStream4 = consumed ++ ([] : Bytes) ∧
      (Encode exA4 = consumed ∨
       (suffixB nlnl consumed = true ∧ Encode exA4 = consumed.dropLast))) ∧
    Encode exA2 = exStream4 :=
  ⟨(c2_reencode NewDecoderCfg exStream4 exA4 []).1 rfl,
   (c2_reencode NewDecoderCfg exStream4 exA2 []).2 rfl⟩

/-- Claim C5: a `Decoder.Decode` call at end of stream with zero bytes
read returns the clean end-of-stream result, and a call that hits end of
stream after at least one byte but before any "\n\n" terminator returns
an unexpected-end-of-stream error (for any configuration whose initial
buffer is positive and at most the headers cap, on streams short enough
for the cap). -/
theorem c5_eof_behavior (cfg : DecCfg) (s : Bytes)
    (h1 : 0 < cfg.initialBufSize) (h2 : cfg.initialBufSize ≤ cfg.maxHeadersSize)
    (h3 : 2 * s.length ≤ cfg.maxHeadersSize) (hno : hasSubB nlnl s = false) :
    streamDecode cfg [] = (.error .endOfStream, []) ∧
    (s ≠ [] → streamDecode cfg s = (.error .unexpectedEOF, [])) := by
  constructor
  · unfold streamDecode
    rw [readUntil_eof [] _ _ rfl h1 h2 (by simp)]
    dsimp only
    rw [if_neg (by simp)]
  · intro hs
    unfold streamDecode
    rw [readUntil_eof s _ _ hno h1 h2 h3]
    dsimp only
    rw [if_pos (by simpa [List.length_eq_zero] using hs)]

/-- Witness for C5: the default decoder on the empty stream and on a
header fragment with no terminator. -/
theorem c5_eof_behavior_witness :
    streamDecode NewDecoderCfg [] = (.error .endOfStream, []) ∧
    streamDecode NewDecoderCfg (strB "type: account") = (.error .unexpectedEOF, []) :=
  ⟨(c5_eof_behavior NewDecoderCfg (strB "type: account")
      (by decide) (by decide) (by decide) (by decide)).1,
   (c5_eof_behavior NewDecoderCfg (strB "type: account")
      (by decide) (by decide) (by decide) (by decide)).2 (by decide)⟩

/-- Claim C6: when the parsed headers declare a body length above the
configured body cap, `Decoder.Decode` fails right after the header
parse, leaving the whole remainder of the stream (including the entire
body) unread. -/
theorem c6_body_too_big (cfg : DecCfg) (s headAndSep rest1 : Bytes) (headers : Headers)
    (length : Int)
    (hru : readUntil s nlnl cfg.maxHeadersSize cfg.initialBufSize = .found headAndSep rest1)
    (hph : parseHeaders (headAndSep.take (headAndSep.length - 2)) = .ok headers)
    (hci : checkInteger headers blStr 0 = .ok length)
    (hbig : (cfg.maxBodySize : Int) < length) :
    streamDecode cfg s = (.error .bodyTooBig, rest1) := by
  unfold streamDecode
  rw [hru]
  dsimp only
  rw [hph]
  dsimp only
  rw [hci]
  dsimp only
  rw [if_pos hbig]

/-- Header block declaring a body length above the default 2 MiB cap. -/
def exHead6 : Bytes :=
  strB "type: account\nauthority-id: canonical\naccount-id: acc1\nbody-length: 9999999\n\n"

/-- The parsed headers of `exHead6`. -/
def exHdrs6 : Headers :=
  match parseHeaders (exHead6.take (exHead6.length - 2)) with
  | .ok h => h
  | .error _ => []

/-- Witness for C6: the oversized declared body length is rejected with
the body bytes still unread. -/
theorem c6_body_too_big_witness :
    streamDecode NewDecoderCfg (exHead6 ++ strB "rest") =
      (.error .bodyTooBig, strB "rest") :=
  c6_body_too_big NewDecoderCfg (exHead6 ++ strB "rest") exHead6 (strB "rest")
    exHdrs6 9999999 rfl rfl rfl (by decide)

/-- Claim C7: when the trailer chunk read after the body is not exactly
"\n\n", the decoder fails with the missing-separator error if the
declared body length is positive, and otherwise accepts those bytes as
the signature (truncating the content buffer back to the bare header
block). -/
theorem c7_trailer_not_separator (cfg : DecCfg) (headLen : Nat) (headers : Headers)
    (length : Int) (contentBuf s endOfBody rest : Bytes)
    (hru : readUntil s nlnl cfg.maxSigSize cfg.initialBufSize = .found endOfBody rest)
    (hne : endOfBody ≠ nlnl) :
    (0 < length →
      streamTrailer cfg headLen headers length contentBuf s =
        (.error .missingSeparator, rest)) ∧
    (¬ 0 < length →
      streamTrailer cfg headLen headers length contentBuf s =
        streamFinish headLen headers length (contentBuf.take headLen) endOfBody rest) := by
  constructor
  · intro hL
    unfold streamTrailer
    rw [hru]
    dsimp only
    rw [if_neg hne, if_pos hL]
  · intro hL
    unfold streamTrailer
    rw [hru]
    dsimp only
    rw [if_neg hne, if_neg hL]

/-- Witness for C7: a non-separator trailer chunk at declared lengths 5
and 0. -/
theorem c7_trailer_not_separator_witness :
    streamTrailer NewDecoderCfg 10 [] 5 (strB "0123456789AB") (strB "SIG\n\nmore") =
      (.error .missingSeparator, strB "more") ∧
    streamTrailer NewDecoderCfg 10 [] 0 (strB "0123456789AB") (strB "SIG\n\nmore") =
      streamFinish 10 [] 0 ((strB "0123456789AB").take 10) (strB "SIG\n\n")
        (strB "more") :=
  ⟨(c7_trailer_not_separator NewDecoderCfg 10 [] 5 (strB "0123456789AB")
      (strB "SIG\n\nmore") (strB "SIG\n\n") (strB "more") rfl (by decide)).1 (by decide),
   (c7_trailer_not_separator NewDecoderCfg 10 [] 0 (strB "0123456789AB")
      (strB "SIG\n\nmore") (strB "SIG\n\n") (strB "more") rfl (by decide)).2 (by decide)⟩

/-! ## The streaming encoder (C9) -/

/-- The bytes `Encoder.append` writes for one assertion, without the
pending separator: the encoding plus a "\n" when it lacks one. -/
def padEnc (a : Assertion) : Bytes :=
  Encode a ++ (if (Encode a).getLast? = some 10 then [] else nl)

theorem Encode_length_ne (a : Assertion) : ¬ (Encode a).length = 0 := by
  have h : (Encode a).length =
      a.content.length + 2 + a.signature.length := by
    simp [Encode, nlnl]
    omega
  omega

theorem encodeStreamAux_eq : ∀ (as : List Assertion) (sep : Bytes),
    encodeStreamAux sep as =
      .ok (if as.isEmpty then [] else sep ++ intercalateB nl (as.map padEnc)) := by
  intro as
  induction as with
  | nil =>
    intro sep
    rfl
  | cons a rest ih =>
    intro sep
    unfold encodeStreamAux encAppend
    rw [if_neg (Encode_length_ne a)]
    dsimp only
    rw [ih nl]
    dsimp only
    cases rest with
    | nil =>
      show Except.ok (sep ++ Encode a ++
        (if (Encode a).getLast? = some 10 then [] else nl) ++ []) = _
      simp only [List.isEmpty_cons, List.map_cons, List.map_nil, List.append_nil]
      rw [show intercalateB nl [padEnc a] = padEnc a from rfl]
      unfold padEnc
      simp [List.append_assoc]
    | cons b r =>
      show Except.ok (sep ++ Encode a ++
        (if (Encode a).getLast? = some 10 then [] else nl) ++
        (nl ++ intercalateB nl ((b :: r).map padEnc))) = _
      simp only [List.isEmpty_cons, List.map_cons]
      rw [show intercalateB nl (padEnc a :: padEnc b :: r.map padEnc) =
        padEnc a ++ nl ++ intercalateB nl (padEnc b :: r.map padEnc) from rfl]
      unfold padEnc
      simp [List.append_assoc]

/-- Claim C9 (amended): the streaming encoder emits no separator before
the first assertion and exactly one "\n" before each subsequent one, but
it also appends a "\n" to any encoded assertion that does not already
end in one; the written bytes therefore equal the "\n"-joined
concatenation of the individually encoded assertions with that padding
applied — and equal the plain "\n"-joined concatenation exactly when
every encoding already ends in "\n" (see the counterexample for the
unpadded claim). -/
theorem c9_stream_encoding (as : List Assertion) :
    encodeStream as = .ok (intercalateB nl (as.map padEnc)) ∧
    ((∀ a ∈ as, (Encode a).getLast? = some 10) →
      encodeStream as = .ok (intercalateB nl (as.map Encode))) := by
  have h := encodeStreamAux_eq as []
  constructor
  · unfold encodeStream
    rw [h]
    cases as with
    | nil => rfl
    | cons a r => simp
  · intro hall
    unfold encodeStream
    rw [h]
    have hmap : as.map padEnc = as.map Encode := by
      apply List.map_congr_left
      intro a ha
      unfold padEnc
      rw [if_pos (hall a ha)]
      simp
    cases as with
    | nil => rfl
    | cons a r =>
      rw [← hmap]
      simp

/-- An assertion whose encoding does not end in a newline. -/
def exA9 : Assertion := ⟨[], [], 0, [], strB "SIG"⟩

/-- Counterexample to C9 as stated: when an encoding lacks a trailing
newline the streaming encoder pads it, so the stream differs from the
plain "\n"-joined concatenation of the individual encodings. -/
theorem c9_counterexample :
    encodeStream [exA9] = .ok (strB "\n\nSIG\n") ∧
    intercalateB nl [Encode exA9] = strB "\n\nSIG" ∧
    strB "\n\nSIG\n" ≠ strB "\n\nSIG" :=
  ⟨rfl, rfl, by decide⟩

/-- Witness for C9: for assertions whose encodings end in "\n" the
stream equals the plain "\n"-joined concatenation. -/
theorem c9_stream_encoding_witness :
    encodeStream [exA1, exA4] = .ok (intercalateB nl ([exA1, exA4].map Encode)) :=
  (c9_stream_encoding [exA1, exA4]).2 (by decide)

/-- Claim C8: a header whose value contains a newline is serialized as
the name, ":\n", and the value with every line prefixed by one space
(each "\n" becomes "\n "), and parsing that serialization recovers
exactly the original name-value pair. -/
theorem c8_multiline_roundtrip (name v : Bytes)
    (hname : headerNameOK name = true) (hv : utf8Valid v = true)
    (hnl : hasNl v = true) :
    serEntry (name, v) = name ++ [58] ++ [10] ++ [32] ++ replaceNl v ∧
    parseHeaders (serEntry (name, v)) = .ok [(name, v)] := by
  constructor
  · rw [serEntry_eq_multi name v hnl]
    simp
  · have h := parseHeaders_serBlock [(name, v)] (by simp)
      (by
        intro p hp
        rw [List.mem_singleton] at hp
        subst hp
        exact hname)
      (by
        intro p hp
        rw [List.mem_singleton] at hp
        subst hp
        exact hv)
    rw [serBlock_one] at h
    exact h

/-- Witness for C8: the spec's example `description: line1\nline2`. -/
theorem c8_multiline_roundtrip_witness :
    serEntry (strB "description", strB "line1\nline2") =
      strB "description" ++ [58] ++ [10] ++ [32] ++ replaceNl (strB "line1\nline2") ∧
    parseHeaders (serEntry (strB "description", strB "line1\nline2")) =
      .ok [(strB "description", strB "line1\nline2")] :=
  c8_multiline_roundtrip (strB "description") (strB "line1\nline2")
    (by decide) (by decide) (by decide)

end Asserts
